import Mathlib

/-
Verification development for a fragment of a machine-learning framework
backend (CPU arithmetic kernels, a linear sum assignment solver kernel,
shape/type inference for sparse tensors and Median, SOMAS tensor alignment,
and the parallel-runner configuration API).

Floating-point values are modelled by an extended rational type with
explicit positive/negative infinity and NaN: the kernel code under
verification branches explicitly on zero divisors, signs, NaN and
infinities, and performs ordinary field arithmetic otherwise, so finite
doubles are represented by exact rationals.
-/

namespace MindSpore

/-- Model of an IEEE-style scalar: a finite rational, one of the two
infinities, or NaN. -/
inductive FpVal where
  | fin : ℚ → FpVal
  | pinf : FpVal
  | ninf : FpVal
  | nan : FpVal
deriving DecidableEq

/-- IEEE equality test (==): NaN compares unequal to everything, the
infinities compare equal to themselves, finite values compare as rationals. -/
def fpBeq : FpVal → FpVal → Bool
  | FpVal.fin a, FpVal.fin b => decide (a = b)
  | FpVal.pinf, FpVal.pinf => true
  | FpVal.ninf, FpVal.ninf => true
  | _, _ => false

/-- IEEE less-than (<): any comparison involving NaN is false. -/
def fpLt : FpVal → FpVal → Bool
  | FpVal.fin a, FpVal.fin b => decide (a < b)
  | FpVal.fin _, FpVal.pinf => true
  | FpVal.ninf, FpVal.fin _ => true
  | FpVal.ninf, FpVal.pinf => true
  | _, _ => false

/-- IEEE addition on the extended values; opposite infinities give NaN. -/
def fpAdd : FpVal → FpVal → FpVal
  | FpVal.fin a, FpVal.fin b => FpVal.fin (a + b)
  | FpVal.fin _, FpVal.pinf => FpVal.pinf
  | FpVal.fin _, FpVal.ninf => FpVal.ninf
  | FpVal.pinf, FpVal.fin _ => FpVal.pinf
  | FpVal.ninf, FpVal.fin _ => FpVal.ninf
  | FpVal.pinf, FpVal.pinf => FpVal.pinf
  | FpVal.ninf, FpVal.ninf => FpVal.ninf
  | _, _ => FpVal.nan

/-- IEEE negation. -/
def fpNeg : FpVal → FpVal
  | FpVal.fin a => FpVal.fin (-a)
  | FpVal.pinf => FpVal.ninf
  | FpVal.ninf => FpVal.pinf
  | FpVal.nan => FpVal.nan

/-- IEEE subtraction, defined as addition of the negation. -/
def fpSub (a b : FpVal) : FpVal := fpAdd a (fpNeg b)

/-- Test for NaN (std::isnan). -/
def fpIsNan : FpVal → Bool
  | FpVal.nan => true
  | _ => false

/-- Strictly-positive test (value > 0); false for NaN. -/
def fpGtZero : FpVal → Bool
  | FpVal.fin a => decide (0 < a)
  | FpVal.pinf => true
  | _ => false

/-- IEEE division for the nonzero-divisor path of the kernels; the
zero-divisor cases are intercepted by the kernels themselves but the
function is total, following the IEEE rules (the model has a single zero). -/
def fpDiv : FpVal → FpVal → FpVal
  | FpVal.fin a, FpVal.fin b =>
      if b = 0 then (if a = 0 then FpVal.nan else if 0 < a then FpVal.pinf else FpVal.ninf)
      else FpVal.fin (a / b)
  | FpVal.fin _, FpVal.pinf => FpVal.fin 0
  | FpVal.fin _, FpVal.ninf => FpVal.fin 0
  | FpVal.pinf, FpVal.fin b => if 0 ≤ b then FpVal.pinf else FpVal.ninf
  | FpVal.ninf, FpVal.fin b => if 0 ≤ b then FpVal.ninf else FpVal.pinf
  | _, _ => FpVal.nan

/-- Floor on the extended values (infinities are fixed points). -/
def fpFloor : FpVal → FpVal
  | FpVal.fin a => FpVal.fin (⌊a⌋ : ℤ)
  | FpVal.pinf => FpVal.pinf
  | FpVal.ninf => FpVal.ninf
  | FpVal.nan => FpVal.nan

/-! ### Per-element division kernels (arithmetic_cpu_kernel.cc)

Each definition below embeds the body of the corresponding per-element
loop for a floating dtype (the type has NaN and infinities). The
`divisor == zero` comparison is the IEEE one, so a NaN divisor never
enters the zero-divisor branch. -/

/-- ElementRealDiv per-element body (float dtype): zero divisor gives NaN
when the dividend is zero, otherwise a sign-selected infinity; nonzero
divisor divides. -/
def ElementRealDiv (dividend divisor : FpVal) : FpVal :=
  if fpBeq divisor (FpVal.fin 0) then
    if fpBeq dividend (FpVal.fin 0) then FpVal.nan
    else if fpGtZero dividend then FpVal.pinf else FpVal.ninf
  else fpDiv dividend divisor

/-- Div per-element body for real (float) dtype: same zero-divisor
handling as ElementRealDiv, on the broadcast path. -/
def DivElement (dividend divisor : FpVal) : FpVal :=
  if fpBeq divisor (FpVal.fin 0) then
    if fpBeq dividend (FpVal.fin 0) then FpVal.nan
    else if fpGtZero dividend then FpVal.pinf else FpVal.ninf
  else fpDiv dividend divisor

/-- FloorDiv per-element body for real (float) dtype: zero-divisor handling
as in Div, otherwise floor(dividend / divisor) computed in double. -/
def FloorDivElement (dividend divisor : FpVal) : FpVal :=
  if fpBeq divisor (FpVal.fin 0) then
    if fpBeq dividend (FpVal.fin 0) then FpVal.nan
    else if fpGtZero dividend then FpVal.pinf else FpVal.ninf
  else fpFloor (fpDiv dividend divisor)

/-- DivNoNan per-element body for real (float) dtype: zero divisor gives
exactly zero for every dividend. -/
def DivNoNanElement (dividend divisor : FpVal) : FpVal :=
  if fpBeq divisor (FpVal.fin 0) then FpVal.fin 0
  else fpDiv dividend divisor

/-- The int32 limits used by the no-infinity branch of the division
kernels (std::numeric_limits of a 32-bit int). -/
def int32Max : ℤ := 2147483647

/-- Minimum of a 32-bit int. -/
def int32Min : ℤ := -2147483648

/-- ElementRealDiv per-element body instantiated at a 32-bit integer
dtype, which has no infinity: quiet_NaN of an integer type
value-initializes to 0, the sign-selected branch yields the numeric
limits, and the nonzero-divisor path is C truncating division. -/
def ElementRealDivI32 (dividend divisor : ℤ) : ℤ :=
  if divisor = 0 then
    if dividend = 0 then 0
    else if 0 < dividend then int32Max else int32Min
  else Int.tdiv dividend divisor

/-- Model of a complex scalar: a finite pair of rationals or NaN; the
complex kernels only test equality with complex zero and divide. -/
inductive CpxVal where
  | fin : ℚ → ℚ → CpxVal
  | nan : CpxVal
deriving DecidableEq

/-- Modelled from the spec: the quiet NaN produced for a complex dtype by
the division kernels when the divisor is complex zero (the numeric-limits
specialization for the complex types is not part of the excerpted
sources; the spec states the result is NaN). -/
def complexQuietNaN : CpxVal := CpxVal.nan

/-- Complex field division for finite values; NaN propagates. -/
def cpxDiv : CpxVal → CpxVal → CpxVal
  | CpxVal.fin a b, CpxVal.fin c d =>
      if c = 0 ∧ d = 0 then CpxVal.nan
      else CpxVal.fin ((a * c + b * d) / (c * c + d * d)) ((b * c - a * d) / (c * c + d * d))
  | _, _ => CpxVal.nan

/-- ElementRealDivComplex / RealDivComplex per-element body: a complex-zero
divisor always produces the quiet NaN, regardless of the dividend. -/
def ElementRealDivComplex (dividend divisor : CpxVal) : CpxVal :=
  if divisor = CpxVal.fin 0 0 then complexQuietNaN
  else cpxDiv dividend divisor

/-- DivComplex per-element body: with a complex-zero divisor the output
element is written with NaN only when the dividend is also zero; for a
nonzero dividend the loop continues without writing, so the old output
value persists (the `old` argument). -/
def DivComplexElement (dividend divisor old : CpxVal) : CpxVal :=
  if divisor = CpxVal.fin 0 0 then
    if dividend = CpxVal.fin 0 0 then complexQuietNaN else old
  else cpxDiv dividend divisor

/-- DivNoNan per-element body at a complex dtype: complex-zero divisor
gives complex zero. -/
def DivNoNanComplexElement (dividend divisor : CpxVal) : CpxVal :=
  if divisor = CpxVal.fin 0 0 then CpxVal.fin 0 0
  else cpxDiv dividend divisor

/-! ### FloorMod (arithmetic_cpu_kernel.cc) -/

/-- FloorMod per-element body: both operands are cast to double, the raw
remainder x - floor(x/y)*y is computed, and y is added back when the
remainder magnitude exceeds 1e-9 and its sign disagrees with the sign of
the divisor. -/
def FloorModElement (x y : ℚ) : ℚ :=
  let res := x - (⌊x / y⌋ : ℚ) * y
  if |res| > 1 / 1000000000 ∧ (decide (res < 0) ≠ decide (y < 0)) then res + y else res

/-! ### AssignAdd / AssignSub (arithmetic_cpu_kernel.cc)

The two in-place kernels are loops over the flat element range; the
backing buffers are modelled as functions from indices to values. The
AssignAdd loop writes the output element and then copies it back into the
first input; the AssignSub loop (generic branch, and the float branch via
an in-place helper taking only the two inputs) updates the first input
only and never touches the output buffer. -/

/-- AssignAdd kernel loop over n elements; returns (new input1, new out). -/
def assignAddLoop (n : ℕ) (input1 input2 out : ℕ → ℤ) : (ℕ → ℤ) × (ℕ → ℤ) :=
  (List.range n).foldl
    (fun st i =>
      let out2 := Function.update st.2 i (st.1 i + input2 i)
      let in2 := Function.update st.1 i (out2 i)
      (in2, out2))
    (input1, out)

/-- AssignSub kernel loop over n elements; returns (new input1, new out). -/
def assignSubLoop (n : ℕ) (input1 input2 out : ℕ → ℤ) : (ℕ → ℤ) × (ℕ → ℤ) :=
  ((List.range n).foldl (fun st i => Function.update st i (st i - input2 i)) input1, out)

/-! ### Mul at bool dtype (arithmetic_cpu_kernel.cc) -/

/-- Tensor dtypes that occur in the kernel registration tables. -/
inductive MsType where
  | bool_ | int8 | int16 | int32 | int64
  | uint8 | uint16 | uint32 | uint64
  | float16 | float32 | float64 | complex64 | complex128
deriving DecidableEq

/-- Input dtypes registered for the Mul kernel (kernel_attr_list[kMul]). -/
def kMulRegisteredInputTypes : List MsType :=
  [MsType.int32, MsType.float32, MsType.float16, MsType.int64, MsType.float64,
   MsType.int16, MsType.uint16, MsType.int8, MsType.uint8,
   MsType.complex64, MsType.complex128, MsType.bool_]

/-- Mul kernel broadcast-path element at bool dtype: the iterator supplies
the two input positions for each output index, and the element computed is
the logical AND of the two inputs. -/
def MulBroadcastBool (posA posB : ℕ → ℕ) (in1 in2 : ℕ → Bool) (i : ℕ) : Bool :=
  in1 (posA i) && in2 (posB i)

/-! ### SomasTensor (somas_tensor.cc) -/

/-- SomasTensor constructor size alignment: a positive requested size is
rounded via ((size + alignment + alignment_complement) / alignment) *
alignment with alignment 512 and complement 31; a zero requested size
stays zero. -/
def somasAlignedSize (real_size : ℕ) : ℕ :=
  let alignment := 512
  let alignment_complement := 31
  if real_size > 0 then ((real_size + alignment + alignment_complement) / alignment) * alignment
  else 0

/-! ### RunnerConfig::SetConfigInfo (model_parallel_runner.cc) -/

/-- Section-count bound used by SetConfigInfo. -/
def kMaxSectionNum : ℕ := 100

/-- Per-section key-count bound used by SetConfigInfo. -/
def kMaxConfigNumPerSection : ℕ := 1000

/-- std::map insert-or-assign on an association list with distinct keys. -/
def mapAssign {α β : Type} [DecidableEq α] (m : List (α × β)) (k : α) (v : β) : List (α × β) :=
  if (m.map Prod.fst).contains k then
    m.map (fun p => if p.1 = k then (k, v) else p)
  else m ++ [(k, v)]

/-- RunnerConfig::SetConfigInfo: the call is dropped silently when the
stored section count already exceeds kMaxSectionNum or the supplied
section holds more than kMaxConfigNumPerSection keys; otherwise the
section is stored (sections and keys are abstracted over their types). -/
def SetConfigInfo {α γ : Type} [DecidableEq α]
    (m : List (α × List γ)) (section_name : α) (config : List γ) : List (α × List γ) :=
  if m.length > kMaxSectionNum then m
  else if config.length > kMaxConfigNumPerSection then m
  else mapAssign m section_name config

/-- The config map obtained by calling SetConfigInfo once per section name
for the first n natural numbers, each with an empty config. -/
def setConfigInfoSections (n : ℕ) : List (ℕ × List ℕ) :=
  (List.range n).foldl (fun m i => SetConfigInfo m i []) []

/-! ### Sparse container inference (core/abstract/ops/prim_others.cc)

The abstract values carry a dtype and a static shape; the inference
functions raise (modelled by Except.error) on each structural violation,
in the order the checks appear in the source. -/

/-- Abstract tensor: dtype of the elements plus the static shape. -/
structure AbsTensor where
  dtype : MsType
  shape : List ℤ
deriving DecidableEq

/-- CheckSparseIndicesDtype: indices must be Int16, Int32 or Int64. -/
def CheckSparseIndicesDtype (t : MsType) : Except String Unit :=
  if t = MsType.int16 ∨ t = MsType.int32 ∨ t = MsType.int64 then Except.ok ()
  else Except.error "The dtype of indices must be Int16 or Int32 or Int64"

/-- CheckSparseShape (arity overload): the rank must equal the expected
dimension count. -/
def CheckSparseShapeDim (shape_size expected_dim : ℕ) : Except String Unit :=
  if shape_size ≠ expected_dim then
    Except.error "wrong dimensional tensor"
  else Except.ok ()

/-- The abstract COO tensor built on success. -/
structure COOTensorAbs where
  indices : AbsTensor
  values : AbsTensor
  dense_shape : List ℤ
deriving DecidableEq

/-- InferImplMakeCOOTensor: checks, in source order, the indices dtype,
indices rank 2, values rank 1, equal leading dimensions, second indices
dimension exactly 2, positive dense-shape entries, and dense-shape length
equal to the second indices dimension (the Int-typed tuple-element check
holds by construction since the model carries the shape as integers; the
min_element of an empty shape, undefined in the source, is taken as 0). -/
def InferImplMakeCOOTensor (indices values : AbsTensor) (dense_shape : List ℤ) :
    Except String COOTensorAbs := do
  CheckSparseIndicesDtype indices.dtype
  CheckSparseShapeDim indices.shape.length 2
  CheckSparseShapeDim values.shape.length 1
  if indices.shape.getD 0 0 ≠ values.shape.getD 0 0 then
    Except.error "indices.shape[0] must be equal to values.shape[0]"
  else if indices.shape.getD 1 0 ≠ 2 then
    Except.error "indices.shape[1] must be 2"
  else
    let min_elem := (dense_shape.min?).getD 0
    if min_elem ≤ 0 then
      Except.error "the element of shape must be positive integer"
    else if indices.shape.getD 1 0 ≠ (dense_shape.length : ℤ) then
      Except.error "shape length must be equal to the second dimension of indices"
    else if dense_shape.any (fun e => e ≤ 0) then
      Except.error "the element of shape must be positive"
    else Except.ok ⟨indices, values, dense_shape⟩

/-- The abstract CSR tensor built on success. -/
structure CSRTensorAbs where
  indptr : AbsTensor
  indices : AbsTensor
  values : AbsTensor
  shape : List ℤ
deriving DecidableEq

/-- InferImplMakeCSRTensor: checks, in source order, the indptr and
indices dtypes, rank 1 for both, equal leading dimensions of indices and
values, the dense rank being values rank + 1, indptr length being
shape[0] + 1, per-dimension positivity and (beyond position 1) agreement
of shape with the values shape, and finally that the total shape size can
hold the stored values. -/
def InferImplMakeCSRTensor (indptr indices values : AbsTensor) (shape : List ℤ) :
    Except String CSRTensorAbs := do
  CheckSparseIndicesDtype indptr.dtype
  CheckSparseIndicesDtype indices.dtype
  CheckSparseShapeDim indptr.shape.length 1
  CheckSparseShapeDim indices.shape.length 1
  if indices.shape.getD 0 0 ≠ values.shape.getD 0 0 then
    Except.error "Indices and values must have same size"
  else if values.shape.length + 1 ≠ shape.length then
    Except.error "Values dimension should equal to csr_tensor dimension - 1"
  else if shape.getD 0 0 + 1 ≠ indptr.shape.getD 0 0 then
    Except.error "Indptr must have length 1 + shape[0]"
  else do
    let shape_size ← (List.range shape.length).foldlM
      (fun (acc : ℕ) i =>
        if shape.getD i 0 ≤ 0 then
          Except.error "The element of shape must be positive"
        else if 1 < i ∧ shape.getD i 0 ≠ values.shape.getD (i - 1) 0 then
          Except.error "csr_tensor shape should match with values shape"
        else Except.ok (acc * (shape.getD i 0).toNat)) 1
    if (shape_size : ℤ) < values.shape.getD 0 0 then
      Except.error "Shape total size is too small to hold the nonzero values"
    else Except.ok ⟨indptr, indices, values, shape⟩

/-! ### Median shape and type inference (core/ops/median.cc) -/

/-- The attributes read by the Median inference. -/
structure MedianAttrs where
  global_median : Bool
  axis : ℤ
  keep_dims : Bool

/-- Modelled from the spec: CheckAndConvertUtils::CheckInRange with
kIncludeLeft (the utility lives outside the excerpted sources); the spec
states the accepted range is [lo, hi) including the left end. -/
def CheckInRangeIncludeLeft (v lo hi : ℤ) : Except String Unit :=
  if lo ≤ v ∧ v < hi then Except.ok ()
  else Except.error "axis out of range"

/-- MedianInferShape: with global_median the output shape is scalar;
otherwise the axis attribute is range-checked against the rank (against
[-1,1) for rank 0), normalized when negative, and the output shape keeps
every input dimension except the axis one, which is dropped, or kept as 1
under keep_dims. Both tuple components are the same shape. -/
def MedianInferShape (x_shape : List ℤ) (attrs : MedianAttrs) :
    Except String (List ℤ × List ℤ) :=
  let x_size : ℤ := (x_shape.length : ℤ)
  if attrs.global_median then
    Except.ok ([], [])
  else do
    (if x_size = 0 then CheckInRangeIncludeLeft attrs.axis (-1) 1
     else CheckInRangeIncludeLeft attrs.axis (-x_size) x_size)
    let axis := if attrs.axis < 0 then attrs.axis + x_size else attrs.axis
    let out := (List.range x_shape.length).foldl
      (fun acc i =>
        if Int.ofNat i = axis then (if attrs.keep_dims then acc ++ [1] else acc)
        else acc ++ [x_shape.getD i 0]) []
    Except.ok (out, out)

/-- Element dtypes accepted by MedianInferType. -/
def medianValidTypes : List MsType :=
  [MsType.int16, MsType.int32, MsType.int64, MsType.float32, MsType.float64]

/-- MedianInferType: the input dtype must be one of the valid ones and the
inferred output dtype pair is (input dtype, Int64). -/
def MedianInferType (x_dtype : MsType) : Except String (MsType × MsType) :=
  if medianValidTypes.contains x_dtype then Except.ok (x_dtype, MsType.int64)
  else Except.error "invalid input type for Median"

/-! ### Linear sum assignment solver (linear_sum_assignment_cpu_kernel.cc)

The solver state (cost matrix, dual vectors, matching arrays) is modelled
with lists; out-of-range reads use a default, mirroring reads the source
performs only under invariants that keep them in range. -/

/-- Default element for reads from FpVal lists. -/
def fpD : FpVal := FpVal.fin 0

/-- check_value: every entry scanned over the flat nr*nc range must be
neither NaN nor negative infinity (the comparison with -INFINITY is the
IEEE one, so it is false for NaN). -/
def check_value (cost : List FpVal) (nr nc : ℕ) : Bool :=
  (List.range (nr * nc)).all fun i =>
    !(fpIsNan (cost.getD i fpD) || fpBeq (cost.getD i fpD) FpVal.ninf)

/-- The scan over the remaining columns inside one iteration of the
AugmentingPath while loop: relaxes the tentative shortest path cost of
each remaining column and tracks the lowest cost together with the
position (in the remaining array) attaining it; the initial lowest is
INFINITY and the initial index is none (the source uses -1). -/
def augScan (nc : ℕ) (cost u v : List FpVal) (row4col : List ℤ) (i : ℕ)
    (min_val : FpVal) (num_remaining : ℕ) (remaining : List ℕ)
    (path : List ℤ) (spc : List FpVal) :
    List ℤ × List FpVal × FpVal × Option ℕ :=
  (List.range num_remaining).foldl
    (fun st it =>
      let (path1, spc1, lowest, index) := st
      let j := remaining.getD it 0
      let r := fpSub (fpSub (fpAdd min_val (cost.getD (i * nc + j) fpD)) (u.getD i fpD))
        (v.getD j fpD)
      let relax := fpLt r (spc1.getD j fpD)
      let path2 := if relax then path1.set j (Int.ofNat i) else path1
      let spc2 := if relax then spc1.set j r else spc1
      if fpLt (spc2.getD j fpD) lowest ||
          (fpBeq (spc2.getD j fpD) lowest && decide (row4col.getD j 0 = -1)) then
        (path2, spc2, spc2.getD j fpD, some it)
      else (path2, spc2, lowest, index))
    (path, spc, FpVal.pinf, none)

/-- The AugmentingPath while loop, by recursion on num_remaining, which
the source decrements once per iteration: mark the current row scanned,
scan the remaining columns, fail (the source returns -1) when the lowest
shortest-path cost is INFINITY — in particular when no columns remain —
and otherwise either stop at an unassigned column (the sink) or continue
from the row assigned to the chosen column. On success the result is
(sink, min_val, path, shortest_path_costs, SR, SC). -/
def augLoop (nc : ℕ) (cost u v : List FpVal) (row4col : List ℤ) :
    ℕ → ℕ → FpVal → List ℕ → List ℤ → List FpVal → List Bool → List Bool →
    Option (ℕ × FpVal × List ℤ × List FpVal × List Bool × List Bool)
  | 0, _, _, _, _, _, _, _ => none
  | nrem + 1, i, min_val, remaining, path, spc, SR, SC =>
    let SR2 := SR.set i true
    let (path2, spc2, lowest, indexOpt) :=
      augScan nc cost u v row4col i min_val (nrem + 1) remaining path spc
    if fpBeq lowest FpVal.pinf then none
    else
      match indexOpt with
      | none => none
      | some index =>
        let j := remaining.getD index 0
        let sinkHere := decide (row4col.getD j 0 = -1)
        let i2 := if sinkHere then i else (row4col.getD j 0).toNat
        let SC2 := SC.set j true
        let remaining2 := remaining.set index (remaining.getD nrem 0)
        if sinkHere then some (j, lowest, path2, spc2, SR2, SC2)
        else augLoop nc cost u v row4col nrem i2 lowest remaining2 path2 spc2 SR2 SC2

/-- AugmentingPath: initialize the remaining columns to nc-1, ..., 0, the
scanned markers to false and the shortest path costs to INFINITY, then run
the while loop starting at row i with min_val 0. -/
def AugmentingPath (nc : ℕ) (cost u v : List FpVal) (path row4col : List ℤ)
    (spc : List FpVal) (SR SC : List Bool) (i : ℕ) :
    Option (ℕ × FpVal × List ℤ × List FpVal × List Bool × List Bool) :=
  let remaining := (List.range nc).map (fun it => nc - it - 1)
  let SR0 := List.replicate SR.length false
  let SC0 := List.replicate SC.length false
  let spc0 := List.replicate spc.length FpVal.pinf
  augLoop nc cost u v row4col nc i (FpVal.fin 0) remaining path spc0 SR0 SC0

/-- AugmentPreviousSolution: walk the predecessor array from the sink back
to the current row, recording the new row of every column on the path and
swapping each visited column into col4row. The walk visits pairwise
distinct columns, so a fuel of nc + 1 always suffices; the fuel-exhausted
branch is unreachable under that bound. -/
def AugmentPreviousSolution (path : List ℤ) (cur_row : ℕ) :
    ℕ → ℕ → List ℤ → List ℤ → List ℤ × List ℤ
  | 0, _, row4col, col4row => (row4col, col4row)
  | fuel + 1, j, row4col, col4row =>
    let i := path.getD j (-1)
    let row4col2 := row4col.set j i
    let jnext := col4row.getD i.toNat 0
    let col4row2 := col4row.set i.toNat (Int.ofNat j)
    if i = Int.ofNat cur_row then (row4col2, col4row2)
    else AugmentPreviousSolution path cur_row fuel jnext.toNat row4col2 col4row2

/-- Insertion of a column index into a list ordered by the sort key. -/
def insertByKey (key : ℕ → ℤ) (x : ℕ) : List ℕ → List ℕ
  | [] => [x]
  | y :: ys => if key x ≤ key y then x :: y :: ys else y :: insertByKey key x ys

/-- Sorting by key (std::sort with a strict comparator on the keys; at the
call site the keys are pairwise distinct, so the sorted order is unique
and insertion sort computes it). -/
def sortByKey (key : ℕ → ℤ) : List ℕ → List ℕ
  | [] => []
  | x :: xs => insertByKey key x (sortByKey key xs)

/-- PostProcess: sort the column indices by their assigned row, write the
assignment out (through the transpose when one was applied), and pad the
output slots from min(nr, nc) up to element_num with the sentinel -1 in
both arrays. -/
def PostProcess (a b : List ℤ) (col4row : List ℤ) (transpose : Bool)
    (nr nc element_num : ℕ) : List ℤ × List ℤ :=
  let index := sortByKey (fun i => col4row.getD i 0) (List.range col4row.length)
  let ab :=
    if transpose then
      (index.foldl
        (fun (st : (List ℤ × List ℤ) × ℕ) val =>
          ((st.1.1.set st.2 (col4row.getD val 0), st.1.2.set st.2 (Int.ofNat val)),
            st.2 + 1))
        ((a, b), 0)).1
    else
      (List.range nr).foldl
        (fun (st : List ℤ × List ℤ) i => (st.1.set i (Int.ofNat i), st.2.set i (col4row.getD i 0)))
        (a, b)
  let offset := min nr nc
  (List.range (element_num - offset)).foldl
    (fun (st : List ℤ × List ℤ) k => (st.1.set (offset + k) (-1), st.2.set (offset + k) (-1)))
    ab

/-- ReArrange: copy the considered nr x nc window of the cost matrix into
a fresh buffer, transposed when requested (the non-transpose branch writes
position i * nr + j, exactly as the source does), and negate every entry
when maximizing. -/
def ReArrange (nr nc raw_nc : ℕ) (cost : List FpVal) (transpose maximize : Bool) :
    List FpVal :=
  let temp0 := List.replicate (nr * nc) (FpVal.fin 0)
  let temp :=
    if transpose then
      (List.range nr).foldl
        (fun t i =>
          (List.range nc).foldl
            (fun t2 j => t2.set (j * nr + i) (cost.getD (i * raw_nc + j) fpD)) t)
        temp0
    else
      (List.range nr).foldl
        (fun t i =>
          (List.range nc).foldl
            (fun t2 j => t2.set (i * nr + j) (cost.getD (i * raw_nc + j) fpD)) t)
        temp0
  if maximize then temp.map fpNeg else temp

/-- One iteration of the Solve main loop at cur_row: run the augmenting
path search, fail when it fails, and otherwise update the dual vectors
u and v exactly as the source does and augment the matching along the
found path. The state is (u, v, path, col4row, row4col). -/
def solveStep (nr2 nc2 : ℕ) (cost : List FpVal) (spc0 : List FpVal) (SR0 SC0 : List Bool)
    (st : List FpVal × List FpVal × List ℤ × List ℤ × List ℤ) (cur_row : ℕ) :
    Option (List FpVal × List FpVal × List ℤ × List ℤ × List ℤ) :=
  let (u, v, path, col4row, row4col) := st
  match AugmentingPath nc2 cost u v path row4col spc0 SR0 SC0 cur_row with
  | none => none
  | some (sink, min_val, path2, spc2, SR2, SC2) =>
    let u1 := u.set cur_row (fpAdd (u.getD cur_row fpD) min_val)
    let u2 := (List.range nr2).foldl
      (fun uu i =>
        if SR2.getD i false ∧ i ≠ cur_row then
          uu.set i (fpAdd (uu.getD i fpD)
            (fpSub min_val (spc2.getD (col4row.getD i 0).toNat fpD)))
        else uu) u1
    let v2 := (List.range nc2).foldl
      (fun vv j =>
        if SC2.getD j false then
          vv.set j (fpSub (vv.getD j fpD) (fpSub min_val (spc2.getD j fpD)))
        else vv) v
    let (row4col2, col4row2) :=
      AugmentPreviousSolution path2 cur_row (nc2 + 1) sink row4col col4row
    some (u2, v2, path2, col4row2, row4col2)

/-- Solve: trivially succeed without touching the outputs when a dimension
is zero; otherwise rearrange (transpose so rows become the smaller side,
negate for maximization), validate the entries, run one augmenting-path
iteration per row, and post-process into the output arrays a and b.
The nc argument is the dimension limit and raw_nc the stored column
count, as in the source; failure (the source returning false) is none. -/
def Solve (nr nc raw_nc : ℕ) (cost : List FpVal) (maximize : Bool) (a b : List ℤ) :
    Option (List ℤ × List ℤ) :=
  if nr = 0 ∨ nc = 0 then some (a, b)
  else
    let element_num := min nr raw_nc
    let transpose := decide (nc < nr)
    let cost2 :=
      if transpose || maximize then ReArrange nr nc raw_nc cost transpose maximize else cost
    let nr2 := if transpose then nc else nr
    let nc2 := if transpose then nr else nc
    if !check_value cost2 nr2 nc2 then none
    else
      let u0 : List FpVal := List.replicate nr2 (FpVal.fin 0)
      let v0 : List FpVal := List.replicate nc2 (FpVal.fin 0)
      let spc0 : List FpVal := List.replicate nc2 (FpVal.fin 0)
      let path0 : List ℤ := List.replicate nc2 (-1)
      let col4row0 : List ℤ := List.replicate nr2 (-1)
      let row4col0 : List ℤ := List.replicate nc2 (-1)
      let SR0 : List Bool := List.replicate nr2 false
      let SC0 : List Bool := List.replicate nc2 false
      match (List.range nr2).foldlM (solveStep nr2 nc2 cost2 spc0 SR0 SC0)
          (u0, v0, path0, col4row0, row4col0) with
      | none => none
      | some (_, _, _, col4row, _) =>
        some (PostProcess a b col4row transpose nr2 nc2 element_num)

/-- Total cost of assigning row i to column (assignment i) for i < nr, in
the extended values. -/
def assignmentCost (nr nc : ℕ) (cost : List FpVal) (assignment : List ℕ) : FpVal :=
  (List.range nr).foldl
    (fun acc i => fpAdd acc (cost.getD (i * nc + assignment.getD i 0) fpD)) (FpVal.fin 0)

/-- All candidate column assignments for nr rows out of nc columns:
every list of nr pairwise-distinct columns below nc, built by extending
partial assignments one row at a time (every injective row-to-column map
arises exactly once). -/
def allAssignments : ℕ → ℕ → List (List ℕ)
  | 0, _ => [[]]
  | n + 1, nc =>
    (allAssignments n nc).flatMap
      (fun t => ((List.range nc).filter (fun c => !t.contains c)).map
        (fun c => t ++ [c]))

/-- The 3x3 example cost matrix [[4,1,3],[2,0,5],[3,2,2]] in row-major
order. -/
def lsapExampleCost : List FpVal :=
  [FpVal.fin 4, FpVal.fin 1, FpVal.fin 3,
   FpVal.fin 2, FpVal.fin 0, FpVal.fin 5,
   FpVal.fin 3, FpVal.fin 2, FpVal.fin 2]

/-! ### Rational abstraction layer for the solver correctness proof

The optimality proof tracks, alongside the extended values manipulated by
the embedded solver, their rational contents; the following definitions
extract those contents and phrase the dual-feasibility and matching
invariants of the successive-shortest-path algorithm. -/

/-- The rational content of a finite extended value (junk 0 otherwise). -/
def toQ : FpVal → ℚ
  | FpVal.fin q => q
  | _ => 0

/-- An extended value is finite when it carries its rational content. -/
def IsFinV (x : FpVal) : Prop := x = FpVal.fin (toQ x)

/-- Rational cost entry of row i, column j. -/
def cQ (nc : ℕ) (cost : List FpVal) (i j : ℕ) : ℚ := toQ (cost.getD (i * nc + j) fpD)

/-- Rational content of the entry at position k of a list of extended
values. -/
def entryQ (l : List FpVal) (k : ℕ) : ℚ := toQ (l.getD k fpD)

/-- All cost entries of the nr x nc window are finite. -/
def AllFinite (nr nc : ℕ) (cost : List FpVal) : Prop :=
  ∀ k < nr * nc, IsFinV (cost.getD k fpD)

/-- Reduced cost of the entry (i, j) under dual vectors u and v. -/
def redQ (nc : ℕ) (cost u v : List FpVal) (i j : ℕ) : ℚ :=
  cQ nc cost i j - entryQ u i - entryQ v j

/-- The distance label of a scanned row: 0 for the current row, otherwise
the shortest-path cost of its matched column. -/
def distQ (cur : ℕ) (col4row : List ℤ) (spc : List FpVal) (p : ℕ) : ℚ :=
  if p = cur then 0 else entryQ spc (col4row.getD p 0).toNat

/-- The column a row is matched to, as a natural number. -/
def matchedCol (col4row : List ℤ) (p : ℕ) : ℕ := (col4row.getD p 0).toNat

/-- The row a column is matched to, as a natural number. -/
def matchedRow (row4col : List ℤ) (j : ℕ) : ℕ := (row4col.getD j 0).toNat

/-- A column is matched when its row entry is not the sentinel -1. -/
def colMatched (row4col : List ℤ) (j : ℕ) : Prop := row4col.getD j 0 ≠ -1

/-- The invariant tying the solver state between main-loop iterations:
lengths, finiteness of the dual vectors, the partial matching on the
first cur rows together with its inverse, dual feasibility, tightness on
matched edges, and zero duals on unmatched columns. -/
structure SolveInv (nr nc : ℕ) (cost : List FpVal) (cur : ℕ)
    (u v : List FpVal) (col4row row4col : List ℤ) : Prop where
  ulen : u.length = nr
  vlen : v.length = nc
  c4rlen : col4row.length = nr
  r4clen : row4col.length = nc
  ufin : ∀ i < nr, IsFinV (u.getD i fpD)
  vfin : ∀ j < nc, IsFinV (v.getD j fpD)
  matched_lt : ∀ i < cur, ∃ j < nc, col4row.getD i 0 = Int.ofNat j
  unmatched_ge : ∀ i, cur ≤ i → i < nr → col4row.getD i 0 = -1
  inverse1 : ∀ i < cur, row4col.getD (matchedCol col4row i) 0 = Int.ofNat i
  inverse2 : ∀ j < nc, colMatched row4col j →
    matchedRow row4col j < cur ∧ row4col.getD j 0 = Int.ofNat (matchedRow row4col j) ∧
      col4row.getD (matchedRow row4col j) 0 = Int.ofNat j
  feas : ∀ i < cur, ∀ j < nc, 0 ≤ redQ nc cost u v i j
  tight : ∀ i < cur, redQ nc cost u v i (matchedCol col4row i) = 0
  vzero : ∀ j < nc, ¬ colMatched row4col j → v.getD j fpD = FpVal.fin 0
  vnonpos : ∀ j < nc, toQ (v.getD j fpD) ≤ 0

/-- The column at a given position of the remaining array. -/
def activeAt (remaining : List ℕ) (it : ℕ) : ℕ := remaining.getD it 0

/-- Membership in the alternating tree built by the search: the current
row, or the matched row of some scanned column. -/
def TreeRow (cur : ℕ) (row4col : List ℤ) (scanned : List ℕ) (p : ℕ) : Prop :=
  p = cur ∨ ∃ j ∈ scanned, row4col.getD j 0 = Int.ofNat p

/-- The invariant carried through the augmenting-path while loop, stated
at the entry of each iteration. The ghost list scanned records the
scanned columns in scan order; the active columns are the first
num_remaining entries of the remaining array; i is the row about to be
scanned and min_val its distance label. -/
structure AugInv (nr nc : ℕ) (cost u v : List FpVal) (cur : ℕ)
    (col4row row4col : List ℤ)
    (num_remaining : ℕ) (i : ℕ) (min_val : FpVal) (remaining : List ℕ)
    (path : List ℤ) (spc : List FpVal) (SR SC : List Bool)
    (scanned : List ℕ) : Prop where
  remlen : remaining.length = nc
  pathlen : path.length = nc
  spclen : spc.length = nc
  srlen : SR.length = nr
  sclen : SC.length = nc
  count : num_remaining + scanned.length = nc
  nodup_active : ((List.range num_remaining).map (activeAt remaining)).Nodup
  active_lt : ∀ it < num_remaining, activeAt remaining it < nc
  scanned_lt : ∀ j ∈ scanned, j < nc
  nodup_scanned : scanned.Nodup
  disj : ∀ it < num_remaining, activeAt remaining it ∉ scanned
  sc_iff : ∀ j < nc, SC.getD j false = true ↔ j ∈ scanned
  sr_iff : ∀ p < nr, SR.getD p false = true ↔
    (TreeRow cur row4col scanned p ∧ p ≠ i)
  scanned_matched : ∀ j ∈ scanned, colMatched row4col j
  ilt : i < nr
  istart : scanned = [] → i = cur ∧ min_val = FpVal.fin 0
  ilast : ∀ jl, scanned.getLast? = some jl →
    row4col.getD jl 0 = Int.ofNat i ∧ min_val = spc.getD jl fpD
  mvfin : IsFinV min_val
  spc_scanned_fin : ∀ j ∈ scanned, IsFinV (spc.getD j fpD)
  allfin : scanned ≠ [] → ∀ j < nc, IsFinV (spc.getD j fpD)
  below_mv : ∀ j ∈ scanned, entryQ spc j ≤ toQ min_val
  above_mv : ∀ it < num_remaining, spc.getD (activeAt remaining it) fpD = FpVal.pinf ∨
    (IsFinV (spc.getD (activeAt remaining it) fpD) ∧
      toQ min_val ≤ entryQ spc (activeAt remaining it))
  relaxed : ∀ p < nr, SR.getD p false = true → ∀ j < nc,
    entryQ spc j ≤ distQ cur col4row spc p + redQ nc cost u v p j ∨
      (p ≠ cur ∧ entryQ spc j ≤ distQ cur col4row spc p)
  parent_scanned : ∀ m < scanned.length, ∃ p < nr,
    path.getD (scanned.getD m 0) 0 = Int.ofNat p ∧
    (p = cur ∨ ∃ m2 < m, row4col.getD (scanned.getD m2 0) 0 = Int.ofNat p) ∧
    entryQ spc (scanned.getD m 0) =
      distQ cur col4row spc p + redQ nc cost u v p (scanned.getD m 0)
  parent_active : ∀ it < num_remaining,
    IsFinV (spc.getD (activeAt remaining it) fpD) → ∃ p < nr,
      path.getD (activeAt remaining it) 0 = Int.ofNat p ∧
      (p = cur ∨ ∃ m2 < scanned.length,
        row4col.getD (scanned.getD m2 0) 0 = Int.ofNat p) ∧
      entryQ spc (activeAt remaining it) =
        distQ cur col4row spc p + redQ nc cost u v p (activeAt remaining it)

/-- The facts delivered by a successful augmenting-path search, stated
about the final loop state and the full ghost list of scanned columns. -/
structure AugOut (nr nc : ℕ) (cost u v : List FpVal) (cur : ℕ)
    (col4row row4col : List ℤ) (sink : ℕ) (min_val : FpVal)
    (path : List ℤ) (spc : List FpVal) (SR SC : List Bool)
    (scanned : List ℕ) : Prop where
  pathlen : path.length = nc
  spclen : spc.length = nc
  srlen : SR.length = nr
  sclen : SC.length = nc
  scanned_lt : ∀ j ∈ scanned, j < nc
  nodup_scanned : scanned.Nodup
  sc_iff : ∀ j < nc, SC.getD j false = true ↔ j ∈ scanned
  sr_iff : ∀ p < nr, SR.getD p false = true ↔ TreeRow cur row4col scanned p
  sink_last : scanned.getLast? = some sink
  sink_unmatched : ¬ colMatched row4col sink
  other_matched : ∀ j ∈ scanned, j ≠ sink → colMatched row4col j
  mvfin : IsFinV min_val
  spc_scanned_fin : ∀ j ∈ scanned, IsFinV (spc.getD j fpD)
  allfin : ∀ j < nc, IsFinV (spc.getD j fpD)
  sink_mv : spc.getD sink fpD = min_val
  below_mv : ∀ j ∈ scanned, entryQ spc j ≤ toQ min_val
  above_mv : ∀ j < nc, j ∉ scanned → toQ min_val ≤ entryQ spc j
  relaxed : ∀ p < nr, SR.getD p false = true → ∀ j < nc,
    entryQ spc j ≤ distQ cur col4row spc p + redQ nc cost u v p j ∨
      (p ≠ cur ∧ entryQ spc j ≤ distQ cur col4row spc p)
  parent_scanned : ∀ m < scanned.length, ∃ p < nr,
    path.getD (scanned.getD m 0) 0 = Int.ofNat p ∧
    (p = cur ∨ ∃ m2 < m, row4col.getD (scanned.getD m2 0) 0 = Int.ofNat p) ∧
    entryQ spc (scanned.getD m 0) =
      distQ cur col4row spc p + redQ nc cost u v p (scanned.getD m 0)

/-- One step of the augScan fold, named so the scan can be unrolled one
iteration at a time in proofs. -/
def augScanStep (nc : ℕ) (cost u v : List FpVal) (row4col : List ℤ) (i : ℕ)
    (min_val : FpVal) (remaining : List ℕ)
    (st : List ℤ × List FpVal × FpVal × Option ℕ) (it : ℕ) :
    List ℤ × List FpVal × FpVal × Option ℕ :=
  let (path1, spc1, lowest, index) := st
  let j := remaining.getD it 0
  let r := fpSub (fpSub (fpAdd min_val (cost.getD (i * nc + j) fpD)) (u.getD i fpD))
    (v.getD j fpD)
  let relax := fpLt r (spc1.getD j fpD)
  let path2 := if relax then path1.set j (Int.ofNat i) else path1
  let spc2 := if relax then spc1.set j r else spc1
  if fpLt (spc2.getD j fpD) lowest ||
      (fpBeq (spc2.getD j fpD) lowest && decide (row4col.getD j 0 = -1)) then
    (path2, spc2, spc2.getD j fpD, some it)
  else (path2, spc2, lowest, index)

/-- What one scan of the remaining columns computes, stated about the
result 4-tuple (path, shortest path costs, lowest, index): lengths are
preserved, non-active positions are untouched, each active column is
relaxed against min_val plus its reduced cost, and the returned pair is
an argmin of the updated costs over the active columns. -/
structure ScanOut (nc : ℕ) (cost u v : List FpVal) (i : ℕ) (min_val : FpVal)
    (remaining : List ℕ) (path : List ℤ) (spc : List FpVal) (n : ℕ)
    (res : List ℤ × List FpVal × FpVal × Option ℕ) : Prop where
  plen : res.1.length = path.length
  slen : res.2.1.length = spc.length
  untouched : ∀ j2, (∀ it, it < n → activeAt remaining it ≠ j2) →
    res.1.getD j2 0 = path.getD j2 0 ∧ res.2.1.getD j2 fpD = spc.getD j2 fpD
  improved : ∀ it, it < n →
    fpLt (FpVal.fin (toQ min_val + redQ nc cost u v i (activeAt remaining it)))
        (spc.getD (activeAt remaining it) fpD) = true →
      res.1.getD (activeAt remaining it) 0 = Int.ofNat i ∧
      res.2.1.getD (activeAt remaining it) fpD =
        FpVal.fin (toQ min_val + redQ nc cost u v i (activeAt remaining it))
  kept : ∀ it, it < n →
    fpLt (FpVal.fin (toQ min_val + redQ nc cost u v i (activeAt remaining it)))
        (spc.getD (activeAt remaining it) fpD) = false →
      res.1.getD (activeAt remaining it) 0 = path.getD (activeAt remaining it) 0 ∧
      res.2.1.getD (activeAt remaining it) fpD = spc.getD (activeAt remaining it) fpD
  nolower : ∀ it, it < n →
    fpLt (res.2.1.getD (activeAt remaining it) fpD) res.2.2.1 = false
  chosen : ∀ idx, res.2.2.2 = some idx → idx < n ∧
    res.2.2.1 = res.2.1.getD (activeAt remaining idx) fpD
  nochoice : res.2.2.2 = none → res.2.2.1 = FpVal.pinf

/-- The distilled facts holding right after the scan of row i inside one
iteration of the augmenting-path loop, for the scan result (path2, spc2,
lowest) and the chosen column jstar. -/
structure PostScan (nr nc : ℕ) (cost u v : List FpVal) (cur : ℕ)
    (col4row row4col : List ℤ) (nrem1 i : ℕ) (min_val : FpVal)
    (remaining : List ℕ) (path : List ℤ) (spc : List FpVal) (SR : List Bool)
    (scanned : List ℕ)
    (path2 : List ℤ) (spc2 : List FpVal) (lowest : FpVal) (jstar : ℕ) : Prop where
  p2len : path2.length = nc
  s2len : spc2.length = nc
  unt : ∀ j ∈ scanned, path2.getD j 0 = path.getD j 0 ∧ spc2.getD j fpD = spc.getD j fpD
  fin_active : ∀ it, it < nrem1 → IsFinV (spc2.getD (activeAt remaining it) fpD)
  allfin2 : ∀ j, j < nc → IsFinV (spc2.getD j fpD)
  le_relax : ∀ it, it < nrem1 →
    entryQ spc2 (activeAt remaining it) ≤
      toQ min_val + redQ nc cost u v i (activeAt remaining it)
  above_new : ∀ it, it < nrem1 → toQ lowest ≤ entryQ spc2 (activeAt remaining it)
  low_fin : IsFinV lowest
  jstar_active : ∃ idxa, idxa < nrem1 ∧ activeAt remaining idxa = jstar
  low_eq : lowest = spc2.getD jstar fpD
  mv_le_low : scanned ≠ [] → toQ min_val ≤ toQ lowest
  scanned_below : ∀ j ∈ scanned, entryQ spc2 j ≤ toQ lowest
  parent_new : ∀ it, it < nrem1 → ∃ p, p < nr ∧
    path2.getD (activeAt remaining it) 0 = Int.ofNat p ∧
    (p = cur ∨ ∃ m2, m2 < scanned.length ∧
      row4col.getD (scanned.getD m2 0) 0 = Int.ofNat p) ∧
    entryQ spc2 (activeAt remaining it) =
      distQ cur col4row spc2 p + redQ nc cost u v p (activeAt remaining it)
  relaxed_new : ∀ p, p < nr → (SR.set i true).getD p false = true → ∀ j, j < nc →
    entryQ spc2 j ≤ distQ cur col4row spc2 p + redQ nc cost u v p j ∨
      (p ≠ cur ∧ entryQ spc2 j ≤ distQ cur col4row spc2 p)
  parent_scanned2 : ∀ m, m < scanned.length → ∃ p, p < nr ∧
    path2.getD (scanned.getD m 0) 0 = Int.ofNat p ∧
    (p = cur ∨ ∃ m2, m2 < m ∧ row4col.getD (scanned.getD m2 0) 0 = Int.ofNat p) ∧
    entryQ spc2 (scanned.getD m 0) =
      distQ cur col4row spc2 p + redQ nc cost u v p (scanned.getD m 0)

/-- What the predecessor walk performed by AugmentPreviousSolution
computes, for the walk started at the scanned column of index m: the
visited columns wcols (in walk order), their chain structure through the
old matching, and the pointwise effect on both output arrays. -/
structure WalkOut (nr nc cur : ℕ) (row4col : List ℤ) (path2 : List ℤ)
    (scanned : List ℕ) (m : ℕ) (r4c c4r : List ℤ)
    (res : List ℤ × List ℤ) (wcols : List ℕ) : Prop where
  nonempty : 1 ≤ wcols.length
  head : wcols.getD 0 0 = scanned.getD m 0
  subset : ∀ w ∈ wcols, ∃ mw, mw ≤ m ∧ mw < scanned.length ∧ scanned.getD mw 0 = w
  nodup : wcols.Nodup
  chain : ∀ t, t + 1 < wcols.length →
    (path2.getD (wcols.getD t 0) 0).toNat = matchedRow row4col (wcols.getD (t + 1) 0) ∧
    colMatched row4col (wcols.getD (t + 1) 0)
  last_cur : path2.getD (wcols.getD (wcols.length - 1) 0) 0 = Int.ofNat cur
  notcur : ∀ t, t < wcols.length - 1 → (path2.getD (wcols.getD t 0) 0).toNat ≠ cur
  r4clen : res.1.length = r4c.length
  c4rlen : res.2.length = c4r.length
  r4c_unchanged : ∀ j2, j2 ∉ wcols → res.1.getD j2 0 = r4c.getD j2 0
  r4c_new : ∀ w ∈ wcols, res.1.getD w 0 = path2.getD w 0
  c4r_unchanged : ∀ p2, (∀ w ∈ wcols, (path2.getD w 0).toNat ≠ p2) →
    res.2.getD p2 0 = c4r.getD p2 0
  c4r_new : ∀ w ∈ wcols, res.2.getD (path2.getD w 0).toNat 0 = Int.ofNat w
  rows_ok : ∀ w ∈ wcols, path2.getD w 0 = Int.ofNat ((path2.getD w 0).toNat) ∧
    (path2.getD w 0).toNat < nr

/-- Rational total cost of the matching recorded in col4row over the
first nr rows. -/
def matchingCostQ (nr nc : ℕ) (cost : List FpVal) (col4row : List ℤ) : ℚ :=
  ∑ i ∈ Finset.range nr, cQ nc cost i (matchedCol col4row i)

/-- Rational total cost of assigning row i to column f i over the first
nr rows. -/
def assignCostQ (nr nc : ℕ) (cost : List FpVal) (f : ℕ → ℕ) : ℚ :=
  ∑ i ∈ Finset.range nr, cQ nc cost i (f i)

/-- Rational total cost of assigning column j to row g j over the nc
columns (the assignment orientation used when the matrix is transposed,
nc < nr). -/
def colAssignCostQ (nc : ℕ) (cost : List FpVal) (g : ℕ → ℕ) : ℚ :=
  ∑ j ∈ Finset.range nc, cQ nc cost (g j) j

/-! ## Theorems -/

/-- The rational content of a wrapped rational. -/
theorem toQ_fin (q : ℚ) : toQ (FpVal.fin q) = q := rfl

/-- Wrapped rationals are finite. -/
theorem isFinV_fin (q : ℚ) : IsFinV (FpVal.fin q) := rfl

/-- Finite addition adds the contents. -/
theorem fpAdd_fin (a b : ℚ) : fpAdd (FpVal.fin a) (FpVal.fin b) = FpVal.fin (a + b) := rfl

/-- Finite subtraction subtracts the contents. -/
theorem fpSub_fin (a b : ℚ) : fpSub (FpVal.fin a) (FpVal.fin b) = FpVal.fin (a - b) := by
  simp [fpSub, fpNeg, fpAdd, sub_eq_add_neg]

/-- Finite less-than compares the contents. -/
theorem fpLt_fin_iff {a b : ℚ} : fpLt (FpVal.fin a) (FpVal.fin b) = true ↔ a < b := by
  simp [fpLt]

/-- A finite value is below positive infinity. -/
theorem fpLt_fin_pinf (a : ℚ) : fpLt (FpVal.fin a) FpVal.pinf = true := rfl

/-- Nothing is below a value that positive infinity is below. -/
theorem fpLt_pinf (x : FpVal) : fpLt FpVal.pinf x = false := by
  cases x <;> rfl

/-- Finite equality compares the contents. -/
theorem fpBeq_fin_iff {a b : ℚ} : fpBeq (FpVal.fin a) (FpVal.fin b) = true ↔ a = b := by
  simp [fpBeq]

/-- A finite value is not equal to positive infinity. -/
theorem fpBeq_fin_pinf (a : ℚ) : fpBeq (FpVal.fin a) FpVal.pinf = false := rfl

/-- The relaxation value computed by the scan is finite with content
min_val + reduced cost, whenever the inputs are finite. -/
theorem relax_fin (nc : ℕ) (cost u v : List FpVal) (i j : ℕ) (min_val : FpVal)
    (hmv : IsFinV min_val) (hc : IsFinV (cost.getD (i * nc + j) fpD))
    (hu : IsFinV (u.getD i fpD)) (hv : IsFinV (v.getD j fpD)) :
    fpSub (fpSub (fpAdd min_val (cost.getD (i * nc + j) fpD)) (u.getD i fpD))
      (v.getD j fpD) = FpVal.fin (toQ min_val + redQ nc cost u v i j) := by
  rw [hmv, hc, hu, hv, fpAdd_fin, fpSub_fin, fpSub_fin]
  unfold redQ cQ entryQ
  simp only [toQ_fin]
  congr 1
  ring

/-- The scan is the fold of its step function. -/
theorem augScan_eq_foldl (nc : ℕ) (cost u v : List FpVal) (row4col : List ℤ) (i : ℕ)
    (min_val : FpVal) (num_remaining : ℕ) (remaining : List ℕ)
    (path : List ℤ) (spc : List FpVal) :
    augScan nc cost u v row4col i min_val num_remaining remaining path spc =
      (List.range num_remaining).foldl
        (augScanStep nc cost u v row4col i min_val remaining)
        (path, spc, FpVal.pinf, none) := rfl

/-- Unrolling the scan by its last iteration. -/
theorem augScan_succ (nc : ℕ) (cost u v : List FpVal) (row4col : List ℤ) (i : ℕ)
    (min_val : FpVal) (n : ℕ) (remaining : List ℕ)
    (path : List ℤ) (spc : List FpVal) :
    augScan nc cost u v row4col i min_val (n + 1) remaining path spc =
      augScanStep nc cost u v row4col i min_val remaining
        (augScan nc cost u v row4col i min_val n remaining path spc) n := by
  rw [augScan_eq_foldl, augScan_eq_foldl, List.range_succ, List.foldl_append]
  rfl

/-- Claim C3 counterexample: at requested size 481 the constructor formula
((481 + 512 + 31) / 512) * 512 gives 1024, while the ceil((size+31)/512)*512
reformulation stated by the spec gives 512, so the two differ. -/
theorem C3_counterexample :
    somasAlignedSize 481 = 1024 ∧ (481 + 31 + 511) / 512 * 512 = 512 ∧
    somasAlignedSize 481 ≠ (481 + 31 + 511) / 512 * 512 := by decide

/-- Claim C3 (amended): the aligned size is 0 for size 0 and
((size + 512 + 31) / 512) * 512 for positive size, which is effectively
ceil((size + 32) / 512) * 512 (not ceil((size + 31) / 512) * 512); the
stated examples 0 to 0, 1 to 512 and 513 to 1024 hold. -/
theorem C3_alignedSize (s : ℕ) (h : 0 < s) :
    somasAlignedSize s = ((s + 512 + 31) / 512) * 512 ∧
    somasAlignedSize s = ((s + 32 + 511) / 512) * 512 ∧
    somasAlignedSize 0 = 0 ∧ somasAlignedSize 1 = 512 ∧ somasAlignedSize 513 = 1024 := by
  have h543 : s + 512 + 31 = s + 32 + 511 := by omega
  have h1 : somasAlignedSize s = ((s + 512 + 31) / 512) * 512 := by
    simp [somasAlignedSize, h]
  exact ⟨h1, by rw [h1, h543], by decide, by decide, by decide⟩

/-- Claim C3 witness at size 513. -/
theorem C3_alignedSize_witness :
    0 < 513 ∧ (somasAlignedSize 513 = ((513 + 512 + 31) / 512) * 512 ∧
      somasAlignedSize 513 = ((513 + 32 + 511) / 512) * 512 ∧
      somasAlignedSize 0 = 0 ∧ somasAlignedSize 1 = 512 ∧ somasAlignedSize 513 = 1024) :=
  ⟨by decide, C3_alignedSize 513 (by decide)⟩

set_option maxRecDepth 4000 in
/-- Claim C4 counterexample: after SetConfigInfo calls with 101 distinct
sections, the 101st section (name 100) is present and the map holds 101
sections, so the stated bound of at most 100 sections with the 101st
absent fails. -/
theorem C4_counterexample :
    ((setConfigInfoSections 101).map Prod.fst).contains 100 = true ∧
    (setConfigInfoSections 101).length = 101 := by decide

set_option maxRecDepth 4000 in
/-- Claim C4 (amended): SetConfigInfo silently ignores, without an error
result, any call made when the stored map already holds more than 100
sections, and any call whose section carries more than 1000 keys;
consequently up to 101 distinct sections are stored (the strict bound
check lets the 101st in), and with 102 distinct sections the 102nd is
absent. -/
theorem C4_setConfigInfo (m : List (ℕ × List ℕ)) (s : ℕ) (c : List ℕ) :
    (m.length > 100 → SetConfigInfo m s c = m) ∧
    (c.length > 1000 → SetConfigInfo m s c = m) ∧
    (setConfigInfoSections 101).map Prod.fst = List.range 101 ∧
    ((setConfigInfoSections 102).map Prod.fst).contains 101 = false ∧
    (setConfigInfoSections 102).length = 101 := by
  refine ⟨?_, ?_, by decide, by decide, by decide⟩
  · intro h
    simp [SetConfigInfo, kMaxSectionNum, h]
  · intro h
    by_cases h1 : m.length > 100
    · simp [SetConfigInfo, kMaxSectionNum, h1]
    · simp [SetConfigInfo, kMaxSectionNum, kMaxConfigNumPerSection, h1, h]

/-- Claim C4 witness: a map holding 101 sections drops a further call. -/
theorem C4_setConfigInfo_witness :
    SetConfigInfo (List.replicate 101 ((0 : ℕ), ([] : List ℕ))) 5 [] =
      List.replicate 101 ((0 : ℕ), ([] : List ℕ)) :=
  (C4_setConfigInfo (List.replicate 101 (0, [])) 5 []).1 (by decide)

/-- Pointwise description of the AssignAdd loop state: positions below n
hold the sum in both the first input and the output, and other positions
are untouched. -/
theorem assignAddLoop_apply (input1 input2 out : ℕ → ℤ) :
    ∀ n j, ((assignAddLoop n input1 input2 out).1 j =
        if j < n then input1 j + input2 j else input1 j) ∧
      ((assignAddLoop n input1 input2 out).2 j =
        if j < n then input1 j + input2 j else out j) := by
  intro n
  induction n with
  | zero => intro j; simp [assignAddLoop]
  | succ n ih =>
    intro j
    have hstep : assignAddLoop (n + 1) input1 input2 out =
        (Function.update (assignAddLoop n input1 input2 out).1 n
           ((assignAddLoop n input1 input2 out).1 n + input2 n),
         Function.update (assignAddLoop n input1 input2 out).2 n
           ((assignAddLoop n input1 input2 out).1 n + input2 n)) := by
      unfold assignAddLoop
      rw [List.range_succ, List.foldl_append]
      simp [Function.update_same]
    rw [hstep]
    constructor
    · show Function.update (assignAddLoop n input1 input2 out).1 n
        ((assignAddLoop n input1 input2 out).1 n + input2 n) j = _
      by_cases hj : j = n
      · subst hj
        rw [Function.update_same, (ih j).1, if_neg (lt_irrefl j), if_pos (Nat.lt_succ_self j)]
      · rw [Function.update_noteq hj, (ih j).1]
        by_cases hjn : j < n
        · rw [if_pos hjn, if_pos (by omega)]
        · rw [if_neg hjn, if_neg (by omega)]
    · show Function.update (assignAddLoop n input1 input2 out).2 n
        ((assignAddLoop n input1 input2 out).1 n + input2 n) j = _
      by_cases hj : j = n
      · subst hj
        rw [Function.update_same, (ih j).1, if_neg (lt_irrefl j), if_pos (Nat.lt_succ_self j)]
      · rw [Function.update_noteq hj, (ih j).2]
        by_cases hjn : j < n
        · rw [if_pos hjn, if_pos (by omega)]
        · rw [if_neg hjn, if_neg (by omega)]

/-- Pointwise description of the AssignSub loop state: positions below n
of the first input hold the difference, and the output buffer is returned
untouched. -/
theorem assignSubLoop_apply (input1 input2 out : ℕ → ℤ) :
    ∀ n j, ((assignSubLoop n input1 input2 out).1 j =
        if j < n then input1 j - input2 j else input1 j) ∧
      (assignSubLoop n input1 input2 out).2 = out := by
  intro n
  induction n with
  | zero => intro j; exact ⟨by simp [assignSubLoop], rfl⟩
  | succ n ih =>
    intro j
    refine ⟨?_, rfl⟩
    have hstep : (assignSubLoop (n + 1) input1 input2 out).1 =
        Function.update (assignSubLoop n input1 input2 out).1 n
          ((assignSubLoop n input1 input2 out).1 n - input2 n) := by
      unfold assignSubLoop
      rw [List.range_succ, List.foldl_append]
      rfl
    rw [hstep]
    by_cases hj : j = n
    · subst hj
      rw [Function.update_same, (ih j).1, if_neg (lt_irrefl j), if_pos (Nat.lt_succ_self j)]
    · rw [Function.update_noteq hj, (ih j).1]
      by_cases hjn : j < n
      · rw [if_pos hjn, if_pos (by omega)]
      · rw [if_neg hjn, if_neg (by omega)]

/-- Claim C5 counterexample: one AssignSub element step on input1 = 5,
input2 = 2, out = 99 updates input1 in place to 3 but leaves the output
element at 99, so the new value is not written into the output tensor. -/
theorem C5_counterexample :
    (assignSubLoop 1 (fun _ => 5) (fun _ => 2) (fun _ => 99)).1 0 = 3 ∧
    (assignSubLoop 1 (fun _ => 5) (fun _ => 2) (fun _ => 99)).2 0 = 99 ∧
    ((99 : ℤ) = 3 → False) := by
  refine ⟨by decide, by decide, by decide⟩

/-- Claim C5 (amended): for every element position below the output size,
AssignAdd mutates the first input in place to input1 + input2 and writes
that same value into the output, while AssignSub only mutates the first
input in place to input1 - input2 and leaves the output buffer untouched. -/
theorem C5_assign_semantics (n : ℕ) (input1 input2 out : ℕ → ℤ) (i : ℕ) (h : i < n) :
    (assignAddLoop n input1 input2 out).1 i = input1 i + input2 i ∧
    (assignAddLoop n input1 input2 out).2 i = input1 i + input2 i ∧
    (assignSubLoop n input1 input2 out).1 i = input1 i - input2 i ∧
    (assignSubLoop n input1 input2 out).2 = out := by
  refine ⟨?_, ?_, ?_, (assignSubLoop_apply input1 input2 out n i).2⟩
  · rw [(assignAddLoop_apply input1 input2 out n i).1, if_pos h]
  · rw [(assignAddLoop_apply input1 input2 out n i).2, if_pos h]
  · rw [(assignSubLoop_apply input1 input2 out n i).1, if_pos h]

/-- Claim C5 witness at one element. -/
theorem C5_assign_semantics_witness :
    (assignAddLoop 1 (fun _ => 5) (fun _ => 2) (fun _ => 99)).1 0 = 5 + 2 ∧
    (assignAddLoop 1 (fun _ => 5) (fun _ => 2) (fun _ => 99)).2 0 = 5 + 2 ∧
    (assignSubLoop 1 (fun _ => 5) (fun _ => 2) (fun _ => 99)).1 0 = 5 - 2 ∧
    (assignSubLoop 1 (fun _ => 5) (fun _ => 2) (fun _ => 99)).2 = (fun _ => 99) :=
  C5_assign_semantics 1 (fun _ => 5) (fun _ => 2) (fun _ => 99) 0 (by decide)

/-- Claim C2 counterexample: DivComplex with divisor complex zero and
dividend 1 leaves the output element at its previous value (7 + 7i here)
instead of returning NaN, so the complex variants do not both return NaN
regardless of the dividend. -/
theorem C2_counterexample :
    DivComplexElement (CpxVal.fin 1 0) (CpxVal.fin 0 0) (CpxVal.fin 7 7) = CpxVal.fin 7 7 ∧
    DivComplexElement (CpxVal.fin 1 0) (CpxVal.fin 0 0) (CpxVal.fin 7 7) ≠ complexQuietNaN := by
  refine ⟨by decide, by decide⟩

/-- Claim C2 (amended): for a zero divisor the real (float) RealDiv, Div
and FloorDiv kernels return NaN on a zero dividend and a sign-selected
infinity on a nonzero dividend; the no-infinity (int32) instantiation
returns the numeric limits on a nonzero dividend and quiet_NaN of int,
which is 0, on a zero dividend; RealDivComplex returns NaN for every
dividend, while DivComplex writes NaN only when the dividend is zero and
otherwise leaves the output element unwritten; DivNoNan returns exactly
zero for every dividend, in both the real and the complex instantiation. -/
theorem C2_division_zero_divisor :
    (∀ q : ℚ, 0 < q →
      ElementRealDiv (FpVal.fin q) (FpVal.fin 0) = FpVal.pinf ∧
      DivElement (FpVal.fin q) (FpVal.fin 0) = FpVal.pinf ∧
      FloorDivElement (FpVal.fin q) (FpVal.fin 0) = FpVal.pinf) ∧
    (∀ q : ℚ, q < 0 →
      ElementRealDiv (FpVal.fin q) (FpVal.fin 0) = FpVal.ninf ∧
      DivElement (FpVal.fin q) (FpVal.fin 0) = FpVal.ninf ∧
      FloorDivElement (FpVal.fin q) (FpVal.fin 0) = FpVal.ninf) ∧
    (ElementRealDiv (FpVal.fin 0) (FpVal.fin 0) = FpVal.nan ∧
     DivElement (FpVal.fin 0) (FpVal.fin 0) = FpVal.nan ∧
     FloorDivElement (FpVal.fin 0) (FpVal.fin 0) = FpVal.nan) ∧
    (ElementRealDiv FpVal.pinf (FpVal.fin 0) = FpVal.pinf ∧
     ElementRealDiv FpVal.ninf (FpVal.fin 0) = FpVal.ninf) ∧
    (ElementRealDivI32 0 0 = 0 ∧
     (∀ z : ℤ, 0 < z → ElementRealDivI32 z 0 = int32Max) ∧
     (∀ z : ℤ, z < 0 → ElementRealDivI32 z 0 = int32Min)) ∧
    (∀ x : CpxVal, ElementRealDivComplex x (CpxVal.fin 0 0) = complexQuietNaN) ∧
    (∀ old : CpxVal, DivComplexElement (CpxVal.fin 0 0) (CpxVal.fin 0 0) old = complexQuietNaN) ∧
    (∀ x old : CpxVal, x ≠ CpxVal.fin 0 0 →
      DivComplexElement x (CpxVal.fin 0 0) old = old) ∧
    (∀ x : FpVal, DivNoNanElement x (FpVal.fin 0) = FpVal.fin 0) ∧
    (∀ x : CpxVal, DivNoNanComplexElement x (CpxVal.fin 0 0) = CpxVal.fin 0 0) := by
  refine ⟨?_, ?_, by decide, by decide, ?_, ?_, ?_, ?_, ?_, ?_⟩
  · intro q hq
    have hne : ¬ q = 0 := ne_of_gt hq
    refine ⟨?_, ?_, ?_⟩ <;>
      simp [ElementRealDiv, DivElement, FloorDivElement, fpBeq, fpGtZero, hne, hq]
  · intro q hq
    have hne : ¬ q = 0 := ne_of_lt hq
    have hng : ¬ 0 < q := not_lt.2 (le_of_lt hq)
    refine ⟨?_, ?_, ?_⟩ <;>
      simp [ElementRealDiv, DivElement, FloorDivElement, fpBeq, fpGtZero, hne, hng]
  · refine ⟨by decide, ?_, ?_⟩
    · intro z hz
      simp [ElementRealDivI32, ne_of_gt hz, hz]
    · intro z hz
      simp [ElementRealDivI32, ne_of_lt hz, not_lt.2 (le_of_lt hz)]
  · intro x
    simp [ElementRealDivComplex]
  · intro old
    simp [DivComplexElement, complexQuietNaN]
  · intro x old hx
    simp [DivComplexElement, hx]
  · intro x
    simp [DivNoNanElement, fpBeq]
  · intro x
    simp [DivNoNanComplexElement]

/-- Claim C2 witness: RealDiv of 1 by 0 is positive infinity. -/
theorem C2_division_zero_divisor_witness :
    ElementRealDiv (FpVal.fin 1) (FpVal.fin 0) = FpVal.pinf :=
  (C2_division_zero_divisor.1 1 one_pos).1

/-- Claim C10: bool is a registered input dtype of the Mul kernel, and on
the broadcast path every output element is the logical AND of the two
input elements delivered by the broadcast iterator; for bool inputs this
coincides with the arithmetic product of their 0/1 casts. -/
theorem C10_mul_bool (posA posB : ℕ → ℕ) (in1 in2 : ℕ → Bool) (i : ℕ) :
    MsType.bool_ ∈ kMulRegisteredInputTypes ∧
    MulBroadcastBool posA posB in1 in2 i = (in1 (posA i) && in2 (posB i)) ∧
    (in1 (posA i)).toNat * (in2 (posB i)).toNat =
      (MulBroadcastBool posA posB in1 in2 i).toNat := by
  refine ⟨by decide, rfl, ?_⟩
  cases h1 : in1 (posA i) <;> cases h2 : in2 (posB i) <;>
    simp [MulBroadcastBool, h1, h2]

/-- The raw FloorMod remainder equals the divisor times the fractional
part of the quotient. -/
theorem floorMod_raw_eq_fract (x y : ℚ) (hy : y ≠ 0) :
    x - (⌊x / y⌋ : ℚ) * y = y * Int.fract (x / y) := by
  have hxy : y * (x / y) = x := by
    rw [mul_comm]
    exact div_mul_cancel₀ x hy
  have hfract : Int.fract (x / y) = x / y - ((⌊x / y⌋ : ℤ) : ℚ) :=
    (Int.self_sub_floor (x / y)).symm
  rw [hfract, mul_sub, hxy]
  ring

/-- The sign-correction branch of FloorMod never fires: the computed
remainder already carries the sign of the divisor (or is zero), so the
kernel returns the raw remainder x - floor(x/y)*y. -/
theorem floorModElement_eq_raw (x y : ℚ) (hy : y ≠ 0) :
    FloorModElement x y = x - (⌊x / y⌋ : ℚ) * y := by
  have hfr := floorMod_raw_eq_fract x y hy
  by_cases hy0 : 0 < y
  · have hrge : 0 ≤ x - (⌊x / y⌋ : ℚ) * y := by
      rw [hfr]
      exact mul_nonneg (le_of_lt hy0) (Int.fract_nonneg _)
    have hcond : ¬ (|x - (⌊x / y⌋ : ℚ) * y| > 1 / 1000000000 ∧
        (decide (x - (⌊x / y⌋ : ℚ) * y < 0) ≠ decide (y < 0))) := by
      rintro ⟨-, hsgn⟩
      exact hsgn (by simp [not_lt.2 hrge, not_lt.2 (le_of_lt hy0)])
    simp only [FloorModElement]
    rw [if_neg hcond]
  · have hylt : y < 0 := lt_of_le_of_ne (not_lt.1 hy0) hy
    have hrle : x - (⌊x / y⌋ : ℚ) * y ≤ 0 := by
      rw [hfr]
      exact mul_nonpos_of_nonpos_of_nonneg (le_of_lt hylt) (Int.fract_nonneg _)
    have hcond : ¬ (|x - (⌊x / y⌋ : ℚ) * y| > 1 / 1000000000 ∧
        (decide (x - (⌊x / y⌋ : ℚ) * y < 0) ≠ decide (y < 0))) := by
      rintro ⟨habs, hsgn⟩
      have hne : x - (⌊x / y⌋ : ℚ) * y ≠ 0 := by
        intro h0
        rw [h0] at habs
        norm_num at habs
      have hrlt : x - (⌊x / y⌋ : ℚ) * y < 0 := lt_of_le_of_ne hrle hne
      exact hsgn (by simp [hrlt, hylt])
    simp only [FloorModElement]
    rw [if_neg hcond]

/-- Claim C6 counterexample: FloorMod(3, 3) is 0, which does not share the
(strictly positive) sign of the divisor 3, so the stated sign property
fails at exact multiples. -/
theorem C6_counterexample :
    FloorModElement 3 3 = 0 ∧ ¬ (0 < FloorModElement 3 3) := by
  have h := floorModElement_eq_raw 3 3 (by norm_num)
  have h3 : (⌊(3 : ℚ) / 3⌋ : ℚ) = 1 := by norm_num
  rw [h3] at h
  constructor
  · rw [h]; norm_num
  · rw [h]; norm_num

/-- Claim C6 (amended): FloorMod computes x - floor(x/y)*y in double
precision and the 1e-9 sign-correction branch never changes the value;
consequently the result lies in [0, y) for positive y and in (y, 0] for
negative y, so it is zero (at exact multiples, where it has no sign) or
shares the sign of y; in particular FloorMod(-7,3) = 2 and
FloorMod(7,-3) = -2. -/
theorem C6_floorMod_sign (x y : ℚ) (hy : y ≠ 0) :
    FloorModElement x y = x - (⌊x / y⌋ : ℚ) * y ∧
    (0 < y → 0 ≤ FloorModElement x y ∧ FloorModElement x y < y) ∧
    (y < 0 → y < FloorModElement x y ∧ FloorModElement x y ≤ 0) ∧
    (FloorModElement x y = 0 ∨ (0 < FloorModElement x y ↔ 0 < y)) ∧
    FloorModElement (-7) 3 = 2 ∧ FloorModElement 7 (-3) = -2 := by
  have hraw := floorModElement_eq_raw x y hy
  have hfr : FloorModElement x y = y * Int.fract (x / y) := by
    rw [hraw]
    exact floorMod_raw_eq_fract x y hy
  have hpos : 0 < y → 0 ≤ FloorModElement x y ∧ FloorModElement x y < y := by
    intro hy0
    constructor
    · rw [hfr]
      exact mul_nonneg (le_of_lt hy0) (Int.fract_nonneg _)
    · rw [hfr]
      have := mul_lt_mul_of_pos_left (Int.fract_lt_one (x / y)) hy0
      rwa [mul_one] at this
  have hneg : y < 0 → y < FloorModElement x y ∧ FloorModElement x y ≤ 0 := by
    intro hy0
    constructor
    · rw [hfr]
      have := mul_lt_mul_of_neg_left (Int.fract_lt_one (x / y)) hy0
      rwa [mul_one] at this
    · rw [hfr]
      exact mul_nonpos_of_nonpos_of_nonneg (le_of_lt hy0) (Int.fract_nonneg _)
  have hm7 : FloorModElement (-7) 3 = 2 := by
    have h := floorModElement_eq_raw (-7) 3 (by norm_num)
    have h3 : (⌊(-7 : ℚ) / 3⌋ : ℚ) = -3 := by
      norm_num [Int.floor_eq_iff]
    rw [h3] at h
    rw [h]
    norm_num
  have hp7 : FloorModElement 7 (-3) = -2 := by
    have h := floorModElement_eq_raw 7 (-3) (by norm_num)
    have h3 : (⌊(7 : ℚ) / (-3)⌋ : ℚ) = -3 := by
      norm_num [Int.floor_eq_iff]
    rw [h3] at h
    rw [h]
    norm_num
  refine ⟨hraw, hpos, hneg, ?_, hm7, hp7⟩
  by_cases h0 : FloorModElement x y = 0
  · exact Or.inl h0
  · refine Or.inr ?_
    rcases lt_trichotomy y 0 with hy0 | hy0 | hy0
    · have := (hneg hy0).2
      constructor
      · intro hlt
        exact absurd hlt (not_lt.2 this)
      · intro hlt
        exact absurd hy0 (not_lt.2 (le_of_lt hlt))
    · exact absurd hy0 hy
    · have hle := (hpos hy0).1
      constructor
      · intro _
        exact hy0
      · intro _
        exact lt_of_le_of_ne hle (Ne.symm h0)

/-- Claim C6 witness at x = -7, y = 3. -/
theorem C6_floorMod_sign_witness :
    FloorModElement (-7) 3 = (-7) - (⌊(-7 : ℚ) / 3⌋ : ℚ) * 3 ∧
    (0 < (3 : ℚ) → 0 ≤ FloorModElement (-7) 3 ∧ FloorModElement (-7) 3 < 3) ∧
    ((3 : ℚ) < 0 → (3 : ℚ) < FloorModElement (-7) 3 ∧ FloorModElement (-7) 3 ≤ 0) ∧
    (FloorModElement (-7) 3 = 0 ∨ (0 < FloorModElement (-7) 3 ↔ 0 < (3 : ℚ))) ∧
    FloorModElement (-7) 3 = 2 ∧ FloorModElement 7 (-3) = -2 :=
  C6_floorMod_sign (-7) 3 (by norm_num)

/-- Inversion for a successful Except bind. -/
theorem exceptBind_ok {α γ : Type} {e : Except String α} {f : α → Except String γ} {t : γ}
    (h : e >>= f = Except.ok t) : ∃ x, e = Except.ok x ∧ f x = Except.ok t := by
  cases e with
  | error s => simp [Bind.bind, Except.bind] at h
  | ok x =>
    refine ⟨x, rfl, ?_⟩
    simpa [Bind.bind, Except.bind] using h

/-- Inversion for a successful if-then-error. -/
theorem iteError_ok {γ : Type} {c : Prop} [Decidable c] {s : String}
    {rest : Except String γ} {t : γ}
    (h : (if c then Except.error s else rest) = Except.ok t) : ¬c ∧ rest = Except.ok t := by
  by_cases hc : c
  · rw [if_pos hc] at h
    exact absurd h (by simp)
  · rw [if_neg hc] at h
    exact ⟨hc, h⟩

/-- A successful rank check forces the expected rank. -/
theorem checkSparseShapeDim_ok {n m : ℕ} {x : Unit}
    (h : CheckSparseShapeDim n m = Except.ok x) : n = m := by
  unfold CheckSparseShapeDim at h
  by_cases hc : n ≠ m
  · rw [if_pos hc] at h
    exact absurd h (by simp)
  · exact not_not.1 hc

/-- Reduction of a bind whose first computation succeeded. -/
theorem exceptBind_okRed {α γ : Type} {e : Except String α} {x : α}
    (hx : e = Except.ok x) (f : α → Except String γ) : (e >>= f) = f x := by
  rw [hx]
  rfl

/-- Reduction of a bind whose first computation failed. -/
theorem exceptBind_errRed {α γ : Type} {e : Except String α} {s : String}
    (hx : e = Except.error s) (f : α → Except String γ) : (e >>= f) = Except.error s := by
  rw [hx]
  rfl

/-- Claim C8: the sparse container inference raises an error on every
structural violation: a COO construction that succeeds has rank-2 indices
with second dimension 2 and matching leading dimensions, a rank-1 indices
tensor makes it fail, a CSR construction that succeeds has rank-1 indptr
and indices with indptr length shape[0] + 1, and an indptr length other
than shape[0] + 1 makes it fail. -/
theorem C8_sparse_structural :
    (∀ (indices values : AbsTensor) (dense_shape : List ℤ) (t : COOTensorAbs),
      InferImplMakeCOOTensor indices values dense_shape = Except.ok t →
        indices.shape.length = 2 ∧ indices.shape.getD 1 0 = 2 ∧
        indices.shape.getD 0 0 = values.shape.getD 0 0) ∧
    (∀ (indices values : AbsTensor) (dense_shape : List ℤ),
      indices.shape.length = 1 →
      ∃ e, InferImplMakeCOOTensor indices values dense_shape = Except.error e) ∧
    (∀ (indptr indices values : AbsTensor) (shape : List ℤ) (t : CSRTensorAbs),
      InferImplMakeCSRTensor indptr indices values shape = Except.ok t →
        indptr.shape.length = 1 ∧ indices.shape.length = 1 ∧
        indptr.shape.getD 0 0 = shape.getD 0 0 + 1) ∧
    (∀ (indptr indices values : AbsTensor) (shape : List ℤ),
      indptr.shape.getD 0 0 ≠ shape.getD 0 0 + 1 →
      ∃ e, InferImplMakeCSRTensor indptr indices values shape = Except.error e) := by
  refine ⟨?_, ?_, ?_, ?_⟩
  · intro indices values dense_shape t h
    unfold InferImplMakeCOOTensor at h
    obtain ⟨u1, hc1, h⟩ := exceptBind_ok h
    obtain ⟨u2, hc2, h⟩ := exceptBind_ok h
    obtain ⟨u3, hc3, h⟩ := exceptBind_ok h
    obtain ⟨hld, h⟩ := iteError_ok h
    obtain ⟨hdim2, h⟩ := iteError_ok h
    exact ⟨checkSparseShapeDim_ok hc2, not_ne_iff.1 hdim2, not_ne_iff.1 hld⟩
  · intro indices values dense_shape h1
    unfold InferImplMakeCOOTensor
    cases hdt : CheckSparseIndicesDtype indices.dtype with
    | error s =>
      exact ⟨s, by simp [hdt, Bind.bind, Except.bind]⟩
    | ok u =>
      refine ⟨"wrong dimensional tensor", ?_⟩
      simp [hdt, Bind.bind, Except.bind, CheckSparseShapeDim, h1]
  · intro indptr indices values shape t h
    unfold InferImplMakeCSRTensor at h
    obtain ⟨u1, hc1, h⟩ := exceptBind_ok h
    obtain ⟨u2, hc2, h⟩ := exceptBind_ok h
    obtain ⟨u3, hc3, h⟩ := exceptBind_ok h
    obtain ⟨u4, hc4, h⟩ := exceptBind_ok h
    obtain ⟨hld, h⟩ := iteError_ok h
    obtain ⟨hrk, h⟩ := iteError_ok h
    obtain ⟨hip, h⟩ := iteError_ok h
    refine ⟨checkSparseShapeDim_ok hc3, checkSparseShapeDim_ok hc4, ?_⟩
    have := not_ne_iff.1 hip
    omega
  · intro indptr indices values shape h1
    unfold InferImplMakeCSRTensor
    cases hd1 : CheckSparseIndicesDtype indptr.dtype with
    | error s => exact ⟨s, rfl⟩
    | ok u1 =>
    cases hd2 : CheckSparseIndicesDtype indices.dtype with
    | error s => exact ⟨s, rfl⟩
    | ok u2 =>
    cases hd3 : CheckSparseShapeDim indptr.shape.length 1 with
    | error s => exact ⟨s, rfl⟩
    | ok u3 =>
    cases hd4 : CheckSparseShapeDim indices.shape.length 1 with
    | error s => exact ⟨s, rfl⟩
    | ok u4 =>
    by_cases hld : indices.shape.getD 0 0 ≠ values.shape.getD 0 0
    · exact ⟨_, by rw [if_pos hld]; rfl⟩
    · by_cases hrk : values.shape.length + 1 ≠ shape.length
      · exact ⟨_, by rw [if_neg hld, if_pos hrk]; rfl⟩
      · have hip : shape.getD 0 0 + 1 ≠ indptr.shape.getD 0 0 := by omega
        exact ⟨_, by rw [if_neg hld, if_neg hrk, if_pos hip]; rfl⟩

/-- Claim C8 witness: a rank-1 COO indices tensor is rejected. -/
theorem C8_sparse_structural_witness :
    ∃ e, InferImplMakeCOOTensor ⟨MsType.int32, [3]⟩ ⟨MsType.float32, [3]⟩ [3, 3] =
      Except.error e :=
  C8_sparse_structural.2.1 ⟨MsType.int32, [3]⟩ ⟨MsType.float32, [3]⟩ [3, 3] rfl

/-- The Median output-shape fold appends its contributions after the
accumulator, as a filterMap over the dimension indices. -/
theorem medianFold_eq (x_shape : List ℤ) (axisv : ℤ) (kd : Bool) :
    ∀ (n : ℕ) (acc : List ℤ),
      (List.range n).foldl
        (fun acc i =>
          if Int.ofNat i = axisv then (if kd then acc ++ [1] else acc)
          else acc ++ [x_shape.getD i 0]) acc
      = acc ++ (List.range n).filterMap
          (fun i => if Int.ofNat i = axisv then (if kd then some 1 else none)
                    else some (x_shape.getD i 0)) := by
  intro n
  induction n with
  | zero => intro acc; simp
  | succ n ih =>
    intro acc
    rw [List.range_succ, List.foldl_append, List.filterMap_append, ih]
    simp only [List.foldl_cons, List.foldl_nil, List.filterMap_cons, List.filterMap_nil]
    by_cases h : Int.ofNat n = axisv
    · rw [if_pos h, if_pos h]
      cases kd
      · simp
      · simp [List.append_assoc]
    · rw [if_neg h, if_neg h]
      simp [List.append_assoc]

/-- Reading the first a positions gives the take prefix. -/
theorem map_getD_range_take (l : List ℤ) (a : ℕ) (ha : a ≤ l.length) :
    (List.range a).map (fun i => l.getD i 0) = l.take a := by
  apply List.ext_getElem
  · simp [Nat.min_eq_left ha]
  · intro i h1 h2
    simp only [List.getElem_map, List.getElem_range, List.getElem_take]
    have hi : i < l.length := by
      simp only [List.length_map, List.length_range] at h1
      omega
    rw [List.getD_eq_getElem?_getD, List.getElem?_eq_getElem hi]
    rfl

/-- Reading the positions from a on gives the drop suffix. -/
theorem map_getD_range_drop (l : List ℤ) (a : ℕ) :
    (List.range (l.length - a)).map (fun k => l.getD (a + k) 0) = l.drop a := by
  apply List.ext_getElem
  · simp
  · intro i h1 h2
    simp only [List.getElem_map, List.getElem_range, List.getElem_drop]
    have hi : a + i < l.length := by
      simp only [List.length_map, List.length_range] at h1
      omega
    rw [List.getD_eq_getElem?_getD, List.getElem?_eq_getElem hi]
    rfl

/-- The Median output-shape filterMap splits into prefix, axis
contribution and suffix. -/
theorem medianFilterMap_split (x_shape : List ℤ) (a : ℕ) (kd : Bool)
    (ha : a < x_shape.length) :
    (List.range x_shape.length).filterMap
      (fun i => if Int.ofNat i = Int.ofNat a then (if kd then some 1 else none)
                else some (x_shape.getD i 0))
    = x_shape.take a ++ (if kd then [1] else []) ++ x_shape.drop (a + 1) := by
  have hlen : x_shape.length = (a + 1) + (x_shape.length - (a + 1)) := by omega
  rw [hlen, List.range_add, List.filterMap_append, List.range_succ,
    List.filterMap_append, List.filterMap_map]
  have h1 : (List.range a).filterMap
      (fun i => if Int.ofNat i = Int.ofNat a then (if kd then some 1 else none)
                else some (x_shape.getD i 0))
      = (List.range a).map (fun i => x_shape.getD i 0) := by
    rw [List.filterMap_eq_map_iff_forall_eq_some.2]
    intro i hi
    simp only [List.mem_range] at hi
    rw [if_neg]
    intro hh
    have := Int.ofNat.inj hh
    omega
  have h2 : List.filterMap
      (fun i => if Int.ofNat i = Int.ofNat a then (if kd then some 1 else none)
                else some (x_shape.getD i 0)) [a]
      = (if kd then [1] else []) := by
    simp only [List.filterMap_cons, List.filterMap_nil, if_pos rfl]
    cases kd <;> rfl
  have h3 : (List.range (x_shape.length - (a + 1))).filterMap
      ((fun i => if Int.ofNat i = Int.ofNat a then (if kd then some 1 else none)
                 else some (x_shape.getD i 0)) ∘ (fun k => a + 1 + k))
      = (List.range (x_shape.length - (a + 1))).map (fun k => x_shape.getD (a + 1 + k) 0) := by
    rw [List.filterMap_eq_map_iff_forall_eq_some.2]
    intro k hk
    simp only [Function.comp_apply]
    rw [if_neg]
    intro hh
    have := Int.ofNat.inj hh
    omega
  rw [h1, h2, h3, map_getD_range_take x_shape a (le_of_lt ha),
    map_getD_range_drop x_shape (a + 1)]

/-- Claim C9: with global_median false and an axis within [-rank, rank),
MedianInferShape yields twice the input shape with the (normalized) axis
dimension removed, or set to 1 under keep_dims; an axis outside the range
fails; for rank-0 inputs the axis is checked against [-1, 1), accepting
exactly axis in {-1, 0} (output a pair of empty shapes) and rejecting
every other axis; MedianInferType pairs the validated input dtype with
Int64; and the stated [2,3,4] examples hold. -/
theorem C9_median_infer (x_shape : List ℤ) (attrs : MedianAttrs) (a : ℕ) (t : MsType)
    (hglob : attrs.global_median = false)
    (hlen : 0 < x_shape.length)
    (hrange : -(x_shape.length : ℤ) ≤ attrs.axis ∧ attrs.axis < (x_shape.length : ℤ))
    (ha : Int.ofNat a =
      (if attrs.axis < 0 then attrs.axis + (x_shape.length : ℤ) else attrs.axis))
    (ht : t ∈ medianValidTypes) :
    MedianInferShape x_shape attrs =
      Except.ok ((if attrs.keep_dims then x_shape.set a 1 else x_shape.eraseIdx a),
        (if attrs.keep_dims then x_shape.set a 1 else x_shape.eraseIdx a)) ∧
    (∀ attrs2 : MedianAttrs, attrs2.global_median = false →
      ¬(-(x_shape.length : ℤ) ≤ attrs2.axis ∧ attrs2.axis < (x_shape.length : ℤ)) →
      ∃ e, MedianInferShape x_shape attrs2 = Except.error e) ∧
    (∀ attrs0 : MedianAttrs, attrs0.global_median = false →
      -1 ≤ attrs0.axis → attrs0.axis < 1 →
      MedianInferShape [] attrs0 = Except.ok ([], [])) ∧
    (∀ attrs0 : MedianAttrs, attrs0.global_median = false →
      ¬(-1 ≤ attrs0.axis ∧ attrs0.axis < 1) →
      ∃ e, MedianInferShape [] attrs0 = Except.error e) ∧
    MedianInferType t = Except.ok (t, MsType.int64) ∧
    MedianInferShape [2, 3, 4] ⟨false, 1, false⟩ = Except.ok ([2, 4], [2, 4]) ∧
    MedianInferShape [2, 3, 4] ⟨false, 1, true⟩ = Except.ok ([2, 1, 4], [2, 1, 4]) ∧
    (∃ e, MedianInferShape [2, 3, 4] ⟨false, 3, false⟩ = Except.error e) ∧
    (∃ e, MedianInferShape [2, 3, 4] ⟨false, -4, false⟩ = Except.error e) := by
  have hxs0 : ¬((x_shape.length : ℤ) = 0) := by
    simp only [Int.natCast_eq_zero]
    omega
  have ha2 : (a : ℤ) =
      (if attrs.axis < 0 then attrs.axis + (x_shape.length : ℤ) else attrs.axis) := by
    rw [← Int.ofNat_eq_natCast]
    exact ha
  have halt : a < x_shape.length := by
    by_cases hax : attrs.axis < 0
    · rw [if_pos hax] at ha2
      omega
    · rw [if_neg hax] at ha2
      omega
  refine ⟨?_, ?_, ?_, ?_, ?_, by rfl, by rfl, ⟨"axis out of range", by rfl⟩,
    ⟨"axis out of range", by rfl⟩⟩
  · unfold MedianInferShape
    rw [hglob]
    simp only [Bool.false_eq_true, if_false]
    rw [if_neg hxs0]
    unfold CheckInRangeIncludeLeft
    rw [if_pos (by constructor <;> omega)]
    show Except.ok _ = _
    rw [medianFold_eq x_shape _ attrs.keep_dims x_shape.length [], ← ha,
      medianFilterMap_split x_shape a attrs.keep_dims halt]
    cases hkd : attrs.keep_dims
    · simp only [if_false, Bool.false_eq_true, List.nil_append, List.append_nil]
      rw [List.eraseIdx_eq_take_drop_succ]
    · simp only [if_true, List.nil_append]
      rw [List.set_eq_take_cons_drop _ halt]
      simp
  · intro attrs2 hg2 hr2
    unfold MedianInferShape
    rw [hg2]
    simp only [Bool.false_eq_true, if_false]
    rw [if_neg hxs0]
    unfold CheckInRangeIncludeLeft
    rw [if_neg hr2]
    exact ⟨_, rfl⟩
  · intro attrs0 hg0 hlo hhi
    unfold MedianInferShape
    rw [hg0]
    simp only [Bool.false_eq_true, if_false]
    rw [if_pos (by decide : ((([] : List ℤ).length : ℤ)) = 0)]
    unfold CheckInRangeIncludeLeft
    rw [if_pos ⟨hlo, hhi⟩]
    rfl
  · intro attrs0 hg0 hr0
    unfold MedianInferShape
    rw [hg0]
    simp only [Bool.false_eq_true, if_false]
    rw [if_pos (by decide : ((([] : List ℤ).length : ℤ)) = 0)]
    unfold CheckInRangeIncludeLeft
    rw [if_neg hr0]
    exact ⟨_, rfl⟩
  · unfold MedianInferType
    rw [if_pos (by revert ht; simp [medianValidTypes, List.contains])]

/-- Claim C9 witness at shape [2,3,4], axis 1, int32 input dtype. -/
theorem C9_median_infer_witness :
    MedianInferShape [2, 3, 4] ⟨false, 1, false⟩ =
      Except.ok ((if false then ([2, 3, 4] : List ℤ).set 1 1 else ([2, 3, 4] : List ℤ).eraseIdx 1),
        (if false then ([2, 3, 4] : List ℤ).set 1 1 else ([2, 3, 4] : List ℤ).eraseIdx 1)) ∧
    (∀ attrs2 : MedianAttrs, attrs2.global_median = false →
      ¬(-((3 : ℕ) : ℤ) ≤ attrs2.axis ∧ attrs2.axis < ((3 : ℕ) : ℤ)) →
      ∃ e, MedianInferShape [2, 3, 4] attrs2 = Except.error e) ∧
    (∀ attrs0 : MedianAttrs, attrs0.global_median = false →
      -1 ≤ attrs0.axis → attrs0.axis < 1 →
      MedianInferShape [] attrs0 = Except.ok ([], [])) ∧
    (∀ attrs0 : MedianAttrs, attrs0.global_median = false →
      ¬(-1 ≤ attrs0.axis ∧ attrs0.axis < 1) →
      ∃ e, MedianInferShape [] attrs0 = Except.error e) ∧
    MedianInferType MsType.int32 = Except.ok (MsType.int32, MsType.int64) ∧
    MedianInferShape [2, 3, 4] ⟨false, 1, false⟩ = Except.ok ([2, 4], [2, 4]) ∧
    MedianInferShape [2, 3, 4] ⟨false, 1, true⟩ = Except.ok ([2, 1, 4], [2, 1, 4]) ∧
    (∃ e, MedianInferShape [2, 3, 4] ⟨false, 3, false⟩ = Except.error e) ∧
    (∃ e, MedianInferShape [2, 3, 4] ⟨false, -4, false⟩ = Except.error e) :=
  C9_median_infer [2, 3, 4] ⟨false, 1, false⟩ 1 MsType.int32 rfl (by decide)
    (by constructor <;> decide) (by decide) (by decide)

/-- Setting a position different from the read position does not change a
getD read. -/
theorem getD_set_ne {α : Type} (d : α) (t : List α) {n p : ℕ} (h : n ≠ p) (v : α) :
    (t.set n v).getD p d = t.getD p d := by
  rw [List.getD_eq_getElem?_getD, List.getD_eq_getElem?_getD, List.getElem?_set_ne h]

/-- Setting an in-range position makes getD read the stored value. -/
theorem getD_set_self {α : Type} (d : α) (t : List α) {n : ℕ} (h : n < t.length) (v : α) :
    (t.set n v).getD n d = v := by
  rw [List.getD_eq_getElem?_getD, List.getElem?_set_self h]
  rfl

/-- A fold of single-position writes that all avoid position p leaves the
value at p unchanged. -/
theorem foldl_set_getD_of_ne {α : Type} (d : α) (idx : List ℕ) (w : ℕ → ℕ) (val : ℕ → α)
    (t : List α) (p : ℕ) (h : ∀ k ∈ idx, w k ≠ p) :
    (idx.foldl (fun t2 k => t2.set (w k) (val k)) t).getD p d = t.getD p d := by
  induction idx generalizing t with
  | nil => rfl
  | cons k ks ih =>
    rw [List.foldl_cons, ih _ (fun k2 hk2 => h k2 (List.mem_cons_of_mem _ hk2))]
    exact getD_set_ne d t (h k (List.mem_cons_self _ _)) _

/-- A fold of single-position writes preserves the list length. -/
theorem foldl_set_length {α : Type} (idx : List ℕ) (w : ℕ → ℕ) (val : ℕ → α) (t : List α) :
    (idx.foldl (fun t2 k => t2.set (w k) (val k)) t).length = t.length := by
  induction idx generalizing t with
  | nil => rfl
  | cons k ks ih =>
    rw [List.foldl_cons, ih, List.length_set]

/-- A fold whose every step preserves the value at p preserves it overall. -/
theorem foldl_preserve_getD {α β : Type} (d : α) (idx : List β) (f : List α → β → List α)
    (t : List α) (p : ℕ) (h : ∀ t2 k, k ∈ idx → (f t2 k).getD p d = t2.getD p d) :
    (idx.foldl f t).getD p d = t.getD p d := by
  induction idx generalizing t with
  | nil => rfl
  | cons k ks ih =>
    rw [List.foldl_cons, ih _ (fun t2 k2 hk2 => h t2 k2 (List.mem_cons_of_mem _ hk2))]
    exact h t k (List.mem_cons_self _ _)

/-- A fold whose every step preserves the length preserves it overall. -/
theorem foldl_preserve_length {α β : Type} (idx : List β) (f : List α → β → List α)
    (t : List α) (h : ∀ t2 k, k ∈ idx → (f t2 k).length = t2.length) :
    (idx.foldl f t).length = t.length := by
  induction idx generalizing t with
  | nil => rfl
  | cons k ks ih =>
    rw [List.foldl_cons, ih _ (fun t2 k2 hk2 => h t2 k2 (List.mem_cons_of_mem _ hk2))]
    exact h t k (List.mem_cons_self _ _)

/-- Distinct write positions of the transpose loops: two writes coincide
only when both the column and the row coincide. -/
theorem transpose_pos_ne {j j2 nr i i2 : ℕ} (hi : i < nr) (hi2 : i2 < nr)
    (hne : j ≠ j2 ∨ i ≠ i2) : j * nr + i ≠ j2 * nr + i2 := by
  intro heq
  have hmod : (j * nr + i) % nr = i := by
    rw [Nat.mul_comm, Nat.mul_add_mod]
    exact Nat.mod_eq_of_lt hi
  have hmod2 : (j2 * nr + i2) % nr = i2 := by
    rw [Nat.mul_comm, Nat.mul_add_mod]
    exact Nat.mod_eq_of_lt hi2
  have hieq : i = i2 := by rw [← hmod, ← hmod2, heq]
  subst hieq
  have hmul : j * nr = j2 * nr := Nat.add_right_cancel heq
  have hjeq : j = j2 :=
    Nat.eq_of_mul_eq_mul_right (lt_of_le_of_lt (Nat.zero_le i) hi) hmul
  rcases hne with h | h
  · exact h hjeq
  · exact h rfl

/-- The written position of the transpose loop is inside the buffer. -/
theorem transpose_pos_lt {c nc r nr : ℕ} (hc : c < nc) (hr : r < nr) :
    c * nr + r < nr * nc := by
  calc c * nr + r < c * nr + nr := by omega
    _ = (c + 1) * nr := by ring
    _ ≤ nc * nr := Nat.mul_le_mul_right _ hc
    _ = nr * nc := Nat.mul_comm _ _

/-- The inner transpose loop preserves the buffer length. -/
theorem transposeInner_length (nr raw_nc : ℕ) (cost : List FpVal) (i : ℕ) :
    ∀ (cols : List ℕ) (t2 : List FpVal),
      (cols.foldl (fun t2 j => t2.set (j * nr + i) (cost.getD (i * raw_nc + j) fpD))
        t2).length = t2.length := by
  intro cols
  induction cols with
  | nil => intro t2; rfl
  | cons j js ih =>
    intro t2
    rw [List.foldl_cons, ih, List.length_set]

/-- The inner transpose loop does not change positions it never writes. -/
theorem transposeInner_getD_of_ne (nr raw_nc : ℕ) (cost : List FpVal) (i p : ℕ) :
    ∀ (cols : List ℕ), (∀ j ∈ cols, j * nr + i ≠ p) → ∀ t2 : List FpVal,
      (cols.foldl (fun t2 j => t2.set (j * nr + i) (cost.getD (i * raw_nc + j) fpD))
        t2).getD p fpD = t2.getD p fpD := by
  intro cols
  induction cols with
  | nil => intro _ t2; rfl
  | cons j js ih =>
    intro h t2
    rw [List.foldl_cons, ih (fun j2 hj2 => h j2 (List.mem_cons_of_mem _ hj2))]
    exact getD_set_ne fpD t2 (h j (List.mem_cons_self _ _)) _

/-- The outer transpose loop preserves the buffer length. -/
theorem transposeOuter_length (nr nc raw_nc : ℕ) (cost : List FpVal) :
    ∀ (rows : List ℕ) (t : List FpVal),
      (rows.foldl (fun t i => (List.range nc).foldl
          (fun t2 j => t2.set (j * nr + i) (cost.getD (i * raw_nc + j) fpD)) t)
        t).length = t.length := by
  intro rows
  induction rows with
  | nil => intro t; rfl
  | cons i is ih =>
    intro t
    rw [List.foldl_cons, ih, transposeInner_length]

/-- The outer transpose loop does not change the value at a position whose
row is not among the processed rows. -/
theorem transposeOuter_getD_of_ne (nr nc raw_nc : ℕ) (cost : List FpVal) (c r : ℕ)
    (hr : r < nr) :
    ∀ (rows : List ℕ), (∀ i ∈ rows, i < nr ∧ i ≠ r) → ∀ t : List FpVal,
      (rows.foldl (fun t i => (List.range nc).foldl
          (fun t2 j => t2.set (j * nr + i) (cost.getD (i * raw_nc + j) fpD)) t)
        t).getD (c * nr + r) fpD = t.getD (c * nr + r) fpD := by
  intro rows
  induction rows with
  | nil => intro _ t; rfl
  | cons i is ih =>
    intro h t
    rw [List.foldl_cons, ih (fun i2 hi2 => h i2 (List.mem_cons_of_mem _ hi2))]
    exact transposeInner_getD_of_ne nr raw_nc cost i _ (List.range nc)
      (fun j _ => transpose_pos_ne (h i (List.mem_cons_self _ _)).1 hr
        (Or.inr (h i (List.mem_cons_self _ _)).2)) t

/-- Running the inner transpose loop on row r writes the row entries at
their transposed positions: afterwards position c * nr + r holds the cost
entry of row r, column c. -/
theorem transposeInner_getD_hit (nr nc raw_nc : ℕ) (cost : List FpVal) (r c : ℕ)
    (hr : r < nr) (hc : c < nc) (t1 : List FpVal) (ht1 : t1.length = nr * nc) :
    ((List.range nc).foldl
      (fun t2 j => t2.set (j * nr + r) (cost.getD (r * raw_nc + j) fpD)) t1).getD
        (c * nr + r) fpD = cost.getD (r * raw_nc + c) fpD := by
  have hsplitc : List.range ((c + 1) + (nc - (c + 1))) =
      (List.range c ++ [c]) ++ (List.range (nc - (c + 1))).map (fun k => (c + 1) + k) := by
    rw [List.range_add, List.range_succ]
  have hnceq : (c + 1) + (nc - (c + 1)) = nc := by omega
  rw [hnceq] at hsplitc
  rw [hsplitc, List.foldl_append, List.foldl_append]
  simp only [List.foldl_cons, List.foldl_nil]
  rw [transposeInner_getD_of_ne nr raw_nc cost r (c * nr + r) _
    (fun j hj => by
      simp only [List.mem_map, List.mem_range] at hj
      obtain ⟨k2, hk2, rfl⟩ := hj
      exact transpose_pos_ne hr hr (Or.inl (by omega)))]
  have hlenpre : ((List.range c).foldl
      (fun t2 j => t2.set (j * nr + r) (cost.getD (r * raw_nc + j) fpD)) t1).length =
      nr * nc := by
    rw [transposeInner_length, ht1]
  exact getD_set_self fpD _ (by rw [hlenpre]; exact transpose_pos_lt hc hr) _

/-- The transposing ReArrange places the cost entry of row r, column c at
flat position c * nr + r of the rearranged buffer. -/
theorem ReArrange_transpose_getD (nr nc raw_nc : ℕ) (cost : List FpVal)
    (r c : ℕ) (hr : r < nr) (hc : c < nc) :
    (ReArrange nr nc raw_nc cost true false).getD (c * nr + r) fpD =
      cost.getD (r * raw_nc + c) fpD := by
  show ((List.range nr).foldl
      (fun t i => (List.range nc).foldl
        (fun t2 j => t2.set (j * nr + i) (cost.getD (i * raw_nc + j) fpD)) t)
      (List.replicate (nr * nc) (FpVal.fin 0))).getD (c * nr + r) fpD
    = cost.getD (r * raw_nc + c) fpD
  have hsplit : List.range ((r + 1) + (nr - (r + 1))) =
      (List.range r ++ [r]) ++ (List.range (nr - (r + 1))).map (fun k => (r + 1) + k) := by
    rw [List.range_add, List.range_succ]
  have hnreq : (r + 1) + (nr - (r + 1)) = nr := by omega
  rw [hnreq] at hsplit
  rw [hsplit, List.foldl_append, List.foldl_append]
  simp only [List.foldl_cons, List.foldl_nil]
  rw [transposeOuter_getD_of_ne nr nc raw_nc cost c r hr _
    (fun i2 hi2 => by
      simp only [List.mem_map, List.mem_range] at hi2
      obtain ⟨k2, hk2, rfl⟩ := hi2
      exact ⟨by omega, by omega⟩)]
  have hlenpre : ((List.range r).foldl
      (fun t i => (List.range nc).foldl
        (fun t2 j => t2.set (j * nr + i) (cost.getD (i * raw_nc + j) fpD)) t)
      (List.replicate (nr * nc) (FpVal.fin 0))).length = nr * nc := by
    rw [transposeOuter_length]
    exact List.length_replicate _ _
  exact transposeInner_getD_hit nr nc raw_nc cost r c hr hc _ hlenpre

/-- A NaN or negative-infinity entry inside the scanned window makes
check_value return false. -/
theorem check_value_eq_false (cost : List FpVal) (nr nc i : ℕ) (hi : i < nr * nc)
    (hbad : fpIsNan (cost.getD i fpD) = true ∨ cost.getD i fpD = FpVal.ninf) :
    check_value cost nr nc = false := by
  unfold check_value
  rw [List.all_eq_false]
  refine ⟨i, List.mem_range.2 hi, ?_⟩
  rcases hbad with h | h <;> rw [List.getD_eq_getElem?_getD] at h
  · simp [h]
  · simp [h, fpBeq, fpIsNan]

/-- Claim C7 counterexample: with maximize true, a cost matrix holding a
negative-infinity entry is negated before the validity precheck, so the
entry becomes positive infinity, the precheck passes, and the solver
returns success instead of the failure the claim requires. -/
theorem C7_counterexample :
    Solve 1 2 2 [FpVal.fin 0, FpVal.ninf] true [0] [0] = some ([0], [0]) ∧
    [FpVal.fin 0, FpVal.ninf].getD 1 fpD = FpVal.ninf := ⟨rfl, rfl⟩

/-- Claim C7 (amended): with maximize false, the solver fails (returns
false) whenever some entry of the scanned nr x nc window is NaN or
negative infinity (with maximize true the precheck sees the negated
matrix instead); a positive-infinity entry passes the precheck; the
solver fails when no feasible augmenting path exists for some row, as on
the 2x2 matrix whose first row is all positive infinity; and when nr or
nc is zero it returns success without writing any output. -/
theorem C7_solver_failures :
    (∀ (nr nc : ℕ) (cost : List FpVal) (a b : List ℤ),
      0 < nr → 0 < nc →
      (∃ i, i < nr * nc ∧
        (fpIsNan (cost.getD i fpD) = true ∨ cost.getD i fpD = FpVal.ninf)) →
      Solve nr nc nc cost false a b = none) ∧
    check_value [FpVal.pinf] 1 1 = true ∧
    (∀ a b : List ℤ,
      Solve 2 2 2 [FpVal.pinf, FpVal.pinf, FpVal.fin 0, FpVal.fin 0] false a b = none) ∧
    (∀ (nr nc raw_nc : ℕ) (cost : List FpVal) (maximize : Bool) (a b : List ℤ),
      nr = 0 ∨ nc = 0 → Solve nr nc raw_nc cost maximize a b = some (a, b)) := by
  refine ⟨?_, by decide, fun a b => rfl, ?_⟩
  · rintro nr nc cost a b hnr hnc ⟨i, hi, hbad⟩
    unfold Solve
    rw [if_neg (by omega : ¬(nr = 0 ∨ nc = 0))]
    by_cases htr : nc < nr
    · have hr : i / nc < nr := (Nat.div_lt_iff_lt_mul hnc).2 hi
      have hc : i % nc < nc := Nat.mod_lt _ hnc
      have hieq : (i / nc) * nc + i % nc = i := by
        rw [Nat.mul_comm]
        exact Nat.div_add_mod i nc
      have hbad2 : fpIsNan ((ReArrange nr nc nc cost true false).getD
            ((i % nc) * nr + i / nc) fpD) = true ∨
          (ReArrange nr nc nc cost true false).getD ((i % nc) * nr + i / nc) fpD =
            FpVal.ninf := by
        rw [ReArrange_transpose_getD nr nc nc cost (i / nc) (i % nc) hr hc, hieq]
        exact hbad
      have hcv := check_value_eq_false (ReArrange nr nc nc cost true false) nc nr
        ((i % nc) * nr + i / nc)
        (by rw [Nat.mul_comm nc nr]; exact transpose_pos_lt hc hr) hbad2
      simp [decide_eq_true htr, hcv]
    · have hcv := check_value_eq_false cost nr nc i hi hbad
      simp [decide_eq_false htr, hcv]
  · intro nr nc raw_nc cost maximize a b h
    unfold Solve
    rw [if_pos h]

/-- Claim C7 witness: a NaN entry with maximize false makes the solver
fail. -/
theorem C7_solver_failures_witness :
    Solve 2 2 2 [FpVal.fin 1, FpVal.nan, FpVal.fin 0, FpVal.fin 0] false [0, 0] [0, 0] =
      none :=
  C7_solver_failures.1 2 2 [FpVal.fin 1, FpVal.nan, FpVal.fin 0, FpVal.fin 0]
    [0, 0] [0, 0] (by decide) (by decide) ⟨1, by decide, Or.inl rfl⟩

/-- The PostProcess padding loop acts independently on the two output
arrays. -/
theorem padFold_pair (offset : ℕ) :
    ∀ (ks : List ℕ) (ab : List ℤ × List ℤ),
      (ks.foldl (fun (st : List ℤ × List ℤ) k =>
        (st.1.set (offset + k) (-1), st.2.set (offset + k) (-1))) ab) =
      (ks.foldl (fun t k => t.set (offset + k) (-1)) ab.1,
       ks.foldl (fun t k => t.set (offset + k) (-1)) ab.2) := by
  intro ks
  induction ks with
  | nil => intro ab; rfl
  | cons k ks ih =>
    intro ab
    rw [List.foldl_cons, ih]
    rfl

/-- The single-array padding loop preserves the length. -/
theorem padFoldList_length (offset : ℕ) :
    ∀ (ks : List ℕ) (t : List ℤ),
      (ks.foldl (fun t k => t.set (offset + k) (-1)) t).length = t.length := by
  intro ks
  induction ks with
  | nil => intro t; rfl
  | cons k ks ih =>
    intro t
    rw [List.foldl_cons, ih, List.length_set]

/-- After the padding loop over range m, every in-range position between
offset and offset + m holds the sentinel -1. -/
theorem padFoldList_getD (offset i : ℕ) :
    ∀ (m : ℕ) (t : List ℤ), offset ≤ i → i < offset + m → i < t.length →
      ((List.range m).foldl (fun t k => t.set (offset + k) (-1)) t).getD i 0 = -1 := by
  intro m
  induction m with
  | zero =>
    intro t h1 h2 _
    omega
  | succ m ih =>
    intro t h1 h2 ht
    rw [List.range_succ, List.foldl_append]
    simp only [List.foldl_cons, List.foldl_nil]
    by_cases him : i < offset + m
    · rw [getD_set_ne 0 _ (by omega) _]
      exact ih t h1 him ht
    · have hieq : i = offset + m := by omega
      subst hieq
      exact getD_set_self 0 _ (by rw [padFoldList_length]; exact ht) _

/-- The transpose-branch assignment loop of PostProcess preserves the
lengths of both output arrays. -/
theorem postAssignT_lengths (col4row : List ℤ) :
    ∀ (idx : List ℕ) (st : (List ℤ × List ℤ) × ℕ),
      ((idx.foldl (fun st val =>
          ((st.1.1.set st.2 (col4row.getD val 0), st.1.2.set st.2 (Int.ofNat val)),
            st.2 + 1)) st).1.1.length = st.1.1.length ∧
       (idx.foldl (fun st val =>
          ((st.1.1.set st.2 (col4row.getD val 0), st.1.2.set st.2 (Int.ofNat val)),
            st.2 + 1)) st).1.2.length = st.1.2.length) := by
  intro idx
  induction idx with
  | nil => intro st; exact ⟨rfl, rfl⟩
  | cons v vs ih =>
    intro st
    rw [List.foldl_cons]
    refine ⟨?_, ?_⟩
    · rw [(ih _).1]
      simp
    · rw [(ih _).2]
      simp

/-- The direct assignment loop of PostProcess preserves the lengths of
both output arrays. -/
theorem postAssignN_lengths (col4row : List ℤ) :
    ∀ (idx : List ℕ) (st : List ℤ × List ℤ),
      ((idx.foldl (fun (st : List ℤ × List ℤ) i =>
          (st.1.set i (Int.ofNat i), st.2.set i (col4row.getD i 0))) st).1.length =
        st.1.length ∧
       (idx.foldl (fun (st : List ℤ × List ℤ) i =>
          (st.1.set i (Int.ofNat i), st.2.set i (col4row.getD i 0))) st).2.length =
        st.2.length) := by
  intro idx
  induction idx with
  | nil => intro st; exact ⟨rfl, rfl⟩
  | cons v vs ih =>
    intro st
    rw [List.foldl_cons]
    refine ⟨?_, ?_⟩
    · rw [(ih _).1]
      simp
    · rw [(ih _).2]
      simp

/-- PostProcess pads both output arrays with -1 at every in-range
position from min(nr, nc) up to element_num. -/
theorem PostProcess_padding (a b col4row : List ℤ) (transpose : Bool)
    (nr nc element_num : ℕ) (i : ℕ) (h1 : min nr nc ≤ i) (h2 : i < element_num)
    (ha : i < a.length) (hb : i < b.length) :
    (PostProcess a b col4row transpose nr nc element_num).1.getD i 0 = -1 ∧
    (PostProcess a b col4row transpose nr nc element_num).2.getD i 0 = -1 := by
  have key : ∀ ab : List ℤ × List ℤ, ab.1.length = a.length → ab.2.length = b.length →
      ((((List.range (element_num - min nr nc)).foldl
          (fun (st : List ℤ × List ℤ) k =>
            (st.1.set (min nr nc + k) (-1), st.2.set (min nr nc + k) (-1))) ab).1.getD
          i 0 = -1) ∧
       (((List.range (element_num - min nr nc)).foldl
          (fun (st : List ℤ × List ℤ) k =>
            (st.1.set (min nr nc + k) (-1), st.2.set (min nr nc + k) (-1))) ab).2.getD
          i 0 = -1)) := by
    intro ab hab1 hab2
    rw [padFold_pair]
    constructor
    · exact padFoldList_getD (min nr nc) i (element_num - min nr nc) ab.1 h1
        (by omega) (by omega)
    · exact padFoldList_getD (min nr nc) i (element_num - min nr nc) ab.2 h1
        (by omega) (by omega)
  cases transpose
  · exact key
      ((List.range nr).foldl (fun (st : List ℤ × List ℤ) i2 =>
        (st.1.set i2 (Int.ofNat i2), st.2.set i2 (col4row.getD i2 0))) (a, b))
      (postAssignN_lengths col4row (List.range nr) (a, b)).1
      (postAssignN_lengths col4row (List.range nr) (a, b)).2
  · exact key
      (((sortByKey (fun i2 => col4row.getD i2 0) (List.range col4row.length)).foldl
        (fun (st : (List ℤ × List ℤ) × ℕ) val =>
          ((st.1.1.set st.2 (col4row.getD val 0), st.1.2.set st.2 (Int.ofNat val)),
            st.2 + 1)) ((a, b), 0)).1)
      (postAssignT_lengths col4row
        (sortByKey (fun i2 => col4row.getD i2 0) (List.range col4row.length))
        ((a, b), 0)).1
      (postAssignT_lengths col4row
        (sortByKey (fun i2 => col4row.getD i2 0) (List.range col4row.length))
        ((a, b), 0)).2


/-- Finite less-than is false exactly when the contents compare the other
way. -/
theorem fpLt_fin_false_iff {a b : ℚ} : fpLt (FpVal.fin a) (FpVal.fin b) = false ↔ b ≤ a := by
  simp [fpLt]

/-- No value is strictly below itself. -/
theorem fpLt_irrefl (x : FpVal) : fpLt x x = false := by
  cases x <;> simp [fpLt]

/-- The strict order on extended values is transitive. -/
theorem fpLt_trans {x y z : FpVal} (h1 : fpLt x y = true) (h2 : fpLt y z = true) :
    fpLt x z = true := by
  cases x <;> cases y <;> cases z <;> simp_all [fpLt] <;> exact lt_trans h1 h2

/-- Values identified by the IEEE equality test compare identically on the
right of the strict order. -/
theorem fpLt_congr_right {y z : FpVal} (h : fpBeq y z = true) (x : FpVal) :
    fpLt x y = fpLt x z := by
  cases y <;> cases z <;> simp_all [fpBeq, fpLt]

/-- Reduction of the scan step on an explicit state tuple. -/
theorem augScanStep_mk (nc : ℕ) (cost u v : List FpVal) (row4col : List ℤ) (i : ℕ)
    (min_val : FpVal) (remaining : List ℕ) (path1 : List ℤ) (spc1 : List FpVal)
    (lowest : FpVal) (index : Option ℕ) (it : ℕ) (j : ℕ) (r : FpVal)
    (path2 : List ℤ) (spc2 : List FpVal)
    (hjj : j = remaining.getD it 0)
    (hr : r = fpSub (fpSub (fpAdd min_val (cost.getD (i * nc + j) fpD)) (u.getD i fpD))
      (v.getD j fpD))
    (hpath2 : path2 = if fpLt r (spc1.getD j fpD) then path1.set j (Int.ofNat i) else path1)
    (hspc2 : spc2 = if fpLt r (spc1.getD j fpD) then spc1.set j r else spc1) :
    augScanStep nc cost u v row4col i min_val remaining (path1, spc1, lowest, index) it =
      if fpLt (spc2.getD j fpD) lowest ||
          (fpBeq (spc2.getD j fpD) lowest && decide (row4col.getD j 0 = -1)) then
        (path2, spc2, spc2.getD j fpD, some it)
      else (path2, spc2, lowest, index) := by
  subst hjj hr hpath2 hspc2
  rfl


/-- Introduction rule for ScanOut with the result tuple given
componentwise. -/
theorem scanOut_mk (nc : ℕ) (cost u v : List FpVal) (i : ℕ) (min_val : FpVal)
    (remaining : List ℕ) (path : List ℤ) (spc : List FpVal) (n : ℕ)
    (p2 : List ℤ) (s2 : List FpVal) (low : FpVal) (idxo : Option ℕ)
    (plen : p2.length = path.length) (slen : s2.length = spc.length)
    (unt : ∀ j2, (∀ it, it < n → activeAt remaining it ≠ j2) →
      p2.getD j2 0 = path.getD j2 0 ∧ s2.getD j2 fpD = spc.getD j2 fpD)
    (imp : ∀ it, it < n →
      fpLt (FpVal.fin (toQ min_val + redQ nc cost u v i (activeAt remaining it)))
          (spc.getD (activeAt remaining it) fpD) = true →
        p2.getD (activeAt remaining it) 0 = Int.ofNat i ∧
        s2.getD (activeAt remaining it) fpD =
          FpVal.fin (toQ min_val + redQ nc cost u v i (activeAt remaining it)))
    (kpt : ∀ it, it < n →
      fpLt (FpVal.fin (toQ min_val + redQ nc cost u v i (activeAt remaining it)))
          (spc.getD (activeAt remaining it) fpD) = false →
        p2.getD (activeAt remaining it) 0 = path.getD (activeAt remaining it) 0 ∧
        s2.getD (activeAt remaining it) fpD = spc.getD (activeAt remaining it) fpD)
    (nolow : ∀ it, it < n → fpLt (s2.getD (activeAt remaining it) fpD) low = false)
    (chos : ∀ idx, idxo = some idx → idx < n ∧
      low = s2.getD (activeAt remaining idx) fpD)
    (noch : idxo = none → low = FpVal.pinf) :
    ScanOut nc cost u v i min_val remaining path spc n (p2, s2, low, idxo) :=
  ⟨plen, slen, unt, imp, kpt, nolow, chos, noch⟩

/-- Characterization of one scan of the remaining columns: lengths are
preserved, non-active positions are untouched, each active column is
relaxed against min_val plus its reduced cost, and the returned pair is
an argmin of the updated shortest-path costs over the active columns. -/
theorem augScan_spec (nc : ℕ) (cost u v : List FpVal) (row4col : List ℤ) (i : ℕ)
    (min_val : FpVal) (remaining : List ℕ) (path : List ℤ) (spc : List FpVal)
    (hspclen : spc.length = nc) (hpathlen : path.length = nc)
    (hufin : IsFinV (u.getD i fpD)) (hmv : IsFinV min_val) (n : ℕ) :
    (∀ it, it < n → activeAt remaining it < nc) →
    (∀ it1, it1 < n → ∀ it2, it2 < n →
      activeAt remaining it1 = activeAt remaining it2 → it1 = it2) →
    (∀ it, it < n → IsFinV (cost.getD (i * nc + activeAt remaining it) fpD)) →
    (∀ it, it < n → IsFinV (v.getD (activeAt remaining it) fpD)) →
    ScanOut nc cost u v i min_val remaining path spc n
      (augScan nc cost u v row4col i min_val n remaining path spc) := by
  induction n with
  | zero =>
    intro _ _ _ _
    refine ⟨rfl, rfl, fun j2 _ => ⟨rfl, rfl⟩, ?_, ?_, ?_, ?_, fun _ => rfl⟩
    · exact fun it hit => absurd hit (Nat.not_lt_zero it)
    · exact fun it hit => absurd hit (Nat.not_lt_zero it)
    · exact fun it hit => absurd hit (Nat.not_lt_zero it)
    · exact fun idx hidx => nomatch hidx
  | succ n ih =>
    intro hlt hinj hcfin hvfin
    have IH := ih (fun it hit => hlt it (Nat.lt_succ_of_lt hit))
      (fun it1 h1 it2 h2 => hinj it1 (Nat.lt_succ_of_lt h1) it2 (Nat.lt_succ_of_lt h2))
      (fun it hit => hcfin it (Nat.lt_succ_of_lt hit))
      (fun it hit => hvfin it (Nat.lt_succ_of_lt hit))
    rcases hres : augScan nc cost u v row4col i min_val n remaining path spc with
      ⟨path1, spc1, lowest1, index1⟩
    rw [hres] at IH
    have plen1 : path1.length = path.length := IH.plen
    have slen1 : spc1.length = spc.length := IH.slen
    have unt1 : ∀ j2, (∀ it, it < n → activeAt remaining it ≠ j2) →
        path1.getD j2 0 = path.getD j2 0 ∧ spc1.getD j2 fpD = spc.getD j2 fpD :=
      IH.untouched
    have imp1 : ∀ it, it < n →
        fpLt (FpVal.fin (toQ min_val + redQ nc cost u v i (activeAt remaining it)))
            (spc.getD (activeAt remaining it) fpD) = true →
          path1.getD (activeAt remaining it) 0 = Int.ofNat i ∧
          spc1.getD (activeAt remaining it) fpD =
            FpVal.fin (toQ min_val + redQ nc cost u v i (activeAt remaining it)) :=
      IH.improved
    have kept1 : ∀ it, it < n →
        fpLt (FpVal.fin (toQ min_val + redQ nc cost u v i (activeAt remaining it)))
            (spc.getD (activeAt remaining it) fpD) = false →
          path1.getD (activeAt remaining it) 0 = path.getD (activeAt remaining it) 0 ∧
          spc1.getD (activeAt remaining it) fpD = spc.getD (activeAt remaining it) fpD :=
      IH.kept
    have nolow1 : ∀ it, it < n →
        fpLt (spc1.getD (activeAt remaining it) fpD) lowest1 = false := IH.nolower
    have chos1 : ∀ idx, index1 = some idx → idx < n ∧
        lowest1 = spc1.getD (activeAt remaining idx) fpD := IH.chosen
    have noch1 : index1 = none → lowest1 = FpVal.pinf := IH.nochoice
    have hstep := augScan_succ nc cost u v row4col i min_val n remaining path spc
    rw [hres] at hstep
    have hjlt : remaining.getD n 0 < nc := hlt n (Nat.lt_succ_self n)
    have hfresh : ∀ it, it < n → activeAt remaining it ≠ remaining.getD n 0 := by
      intro it hit heq
      have heq2 : it = n :=
        hinj it (Nat.lt_succ_of_lt hit) n (Nat.lt_succ_self n) heq
      omega
    obtain ⟨hp1j, hs1j⟩ := unt1 (remaining.getD n 0) hfresh
    have hjlen : remaining.getD n 0 < spc1.length := by
      rw [slen1, hspclen]; exact hjlt
    have hjlenp : remaining.getD n 0 < path1.length := by
      rw [plen1, hpathlen]; exact hjlt
    have hrfin := relax_fin nc cost u v i (remaining.getD n 0) min_val hmv
      (hcfin n (Nat.lt_succ_self n)) hufin (hvfin n (Nat.lt_succ_self n))
    rw [augScanStep_mk nc cost u v row4col i min_val remaining path1 spc1 lowest1 index1 n
      (remaining.getD n 0)
      (FpVal.fin (toQ min_val + redQ nc cost u v i (remaining.getD n 0)))
      (if fpLt (FpVal.fin (toQ min_val + redQ nc cost u v i (remaining.getD n 0)))
          (spc1.getD (remaining.getD n 0) fpD) then
        path1.set (remaining.getD n 0) (Int.ofNat i) else path1)
      (if fpLt (FpVal.fin (toQ min_val + redQ nc cost u v i (remaining.getD n 0)))
          (spc1.getD (remaining.getD n 0) fpD) then
        spc1.set (remaining.getD n 0)
          (FpVal.fin (toQ min_val + redQ nc cost u v i (remaining.getD n 0))) else spc1)
      rfl hrfin.symm rfl rfl] at hstep
    rw [hs1j] at hstep
    by_cases hrel : fpLt (FpVal.fin (toQ min_val + redQ nc cost u v i (remaining.getD n 0)))
        (spc.getD (remaining.getD n 0) fpD) = true
    · rw [if_pos hrel, if_pos hrel] at hstep
      rw [getD_set_self fpD spc1 hjlen
        (FpVal.fin (toQ min_val + redQ nc cost u v i (remaining.getD n 0)))] at hstep
      by_cases hcond : (fpLt (FpVal.fin (toQ min_val + redQ nc cost u v i (remaining.getD n 0)))
            lowest1 ||
          (fpBeq (FpVal.fin (toQ min_val + redQ nc cost u v i (remaining.getD n 0))) lowest1 &&
            decide (row4col.getD (remaining.getD n 0) 0 = -1))) = true
      · rw [if_pos hcond] at hstep
        rw [hstep]
        refine scanOut_mk nc cost u v i min_val remaining path spc (n + 1) _ _ _ _
          ?_ ?_ ?_ ?_ ?_ ?_ ?_ ?_
        · rw [List.length_set]; exact plen1
        · rw [List.length_set]; exact slen1
        · intro j2 h2
          refine ⟨(getD_set_ne 0 path1 (h2 n (Nat.lt_succ_self n)) _).trans
            (unt1 j2 (fun it hit => h2 it (Nat.lt_succ_of_lt hit))).1,
            (getD_set_ne fpD spc1 (h2 n (Nat.lt_succ_self n)) _).trans
            (unt1 j2 (fun it hit => h2 it (Nat.lt_succ_of_lt hit))).2⟩
        · intro it hit hcmp
          rcases (Nat.lt_succ_iff_lt_or_eq.mp hit).imp_right Eq.symm with hit2 | rfl
          · exact ⟨(getD_set_ne 0 path1 (Ne.symm (hfresh it hit2)) _).trans
              (imp1 it hit2 hcmp).1,
              (getD_set_ne fpD spc1 (Ne.symm (hfresh it hit2)) _).trans
              (imp1 it hit2 hcmp).2⟩
          · exact ⟨getD_set_self 0 path1 hjlenp _, getD_set_self fpD spc1 hjlen _⟩
        · intro it hit hcmp
          rcases (Nat.lt_succ_iff_lt_or_eq.mp hit).imp_right Eq.symm with hit2 | rfl
          · exact ⟨(getD_set_ne 0 path1 (Ne.symm (hfresh it hit2)) _).trans
              (kept1 it hit2 hcmp).1,
              (getD_set_ne fpD spc1 (Ne.symm (hfresh it hit2)) _).trans
              (kept1 it hit2 hcmp).2⟩
          · exact absurd (hrel.symm.trans hcmp) (by decide)
        · intro it hit
          rcases (Nat.lt_succ_iff_lt_or_eq.mp hit).imp_right Eq.symm with hit2 | rfl
          · have hunch : (spc1.set (remaining.getD n 0)
                (FpVal.fin (toQ min_val + redQ nc cost u v i (remaining.getD n 0)))).getD
                  (activeAt remaining it) fpD = spc1.getD (activeAt remaining it) fpD :=
              getD_set_ne fpD spc1 (Ne.symm (hfresh it hit2)) _
            rw [hunch]
            simp only [Bool.or_eq_true, Bool.and_eq_true] at hcond
            rcases hcond with h | ⟨hbeq, _⟩
            · cases hv : fpLt (spc1.getD (activeAt remaining it) fpD)
                (FpVal.fin (toQ min_val + redQ nc cost u v i (remaining.getD n 0)))
              · rfl
              · exact absurd (fpLt_trans hv h) (by rw [nolow1 it hit2]; decide)
            · rw [fpLt_congr_right hbeq, nolow1 it hit2]
          · have hself : (spc1.set (remaining.getD n 0)
                (FpVal.fin (toQ min_val + redQ nc cost u v i (remaining.getD n 0)))).getD
                  (activeAt remaining n) fpD =
                FpVal.fin (toQ min_val + redQ nc cost u v i (remaining.getD n 0)) :=
              getD_set_self fpD spc1 hjlen _
            rw [hself]
            exact fpLt_irrefl _
        · intro idx heq
          have hidx : n = idx := Option.some.inj heq
          subst hidx
          exact ⟨Nat.lt_succ_self n, (getD_set_self fpD spc1 hjlen _).symm⟩
        · intro heq
          exact nomatch heq
      · rw [if_neg hcond] at hstep
        rw [hstep]
        refine scanOut_mk nc cost u v i min_val remaining path spc (n + 1) _ _ _ _
          ?_ ?_ ?_ ?_ ?_ ?_ ?_ ?_
        · rw [List.length_set]; exact plen1
        · rw [List.length_set]; exact slen1
        · intro j2 h2
          refine ⟨(getD_set_ne 0 path1 (h2 n (Nat.lt_succ_self n)) _).trans
            (unt1 j2 (fun it hit => h2 it (Nat.lt_succ_of_lt hit))).1,
            (getD_set_ne fpD spc1 (h2 n (Nat.lt_succ_self n)) _).trans
            (unt1 j2 (fun it hit => h2 it (Nat.lt_succ_of_lt hit))).2⟩
        · intro it hit hcmp
          rcases (Nat.lt_succ_iff_lt_or_eq.mp hit).imp_right Eq.symm with hit2 | rfl
          · exact ⟨(getD_set_ne 0 path1 (Ne.symm (hfresh it hit2)) _).trans
              (imp1 it hit2 hcmp).1,
              (getD_set_ne fpD spc1 (Ne.symm (hfresh it hit2)) _).trans
              (imp1 it hit2 hcmp).2⟩
          · exact ⟨getD_set_self 0 path1 hjlenp _, getD_set_self fpD spc1 hjlen _⟩
        · intro it hit hcmp
          rcases (Nat.lt_succ_iff_lt_or_eq.mp hit).imp_right Eq.symm with hit2 | rfl
          · exact ⟨(getD_set_ne 0 path1 (Ne.symm (hfresh it hit2)) _).trans
              (kept1 it hit2 hcmp).1,
              (getD_set_ne fpD spc1 (Ne.symm (hfresh it hit2)) _).trans
              (kept1 it hit2 hcmp).2⟩
          · exact absurd (hrel.symm.trans hcmp) (by decide)
        · intro it hit
          have hcf : fpLt (FpVal.fin (toQ min_val + redQ nc cost u v i (remaining.getD n 0)))
                lowest1 = false ∧
              (fpBeq (FpVal.fin (toQ min_val + redQ nc cost u v i (remaining.getD n 0)))
                  lowest1 &&
                decide (row4col.getD (remaining.getD n 0) 0 = -1)) = false := by
            have hcond2 : (fpLt (FpVal.fin
                  (toQ min_val + redQ nc cost u v i (remaining.getD n 0))) lowest1 ||
                (fpBeq (FpVal.fin (toQ min_val + redQ nc cost u v i (remaining.getD n 0)))
                    lowest1 &&
                  decide (row4col.getD (remaining.getD n 0) 0 = -1))) = false :=
              Bool.eq_false_iff.mpr hcond
            simpa only [Bool.or_eq_false_iff] using hcond2
          rcases (Nat.lt_succ_iff_lt_or_eq.mp hit).imp_right Eq.symm with hit2 | rfl
          · have hunch : (spc1.set (remaining.getD n 0)
                (FpVal.fin (toQ min_val + redQ nc cost u v i (remaining.getD n 0)))).getD
                  (activeAt remaining it) fpD = spc1.getD (activeAt remaining it) fpD :=
              getD_set_ne fpD spc1 (Ne.symm (hfresh it hit2)) _
            rw [hunch]
            exact nolow1 it hit2
          · have hself : (spc1.set (remaining.getD n 0)
                (FpVal.fin (toQ min_val + redQ nc cost u v i (remaining.getD n 0)))).getD
                  (activeAt remaining n) fpD =
                FpVal.fin (toQ min_val + redQ nc cost u v i (remaining.getD n 0)) :=
              getD_set_self fpD spc1 hjlen _
            rw [hself]
            exact hcf.1
        · intro idx heq
          obtain ⟨hidx, hval⟩ := chos1 idx heq
          refine ⟨Nat.lt_succ_of_lt hidx, hval.trans ?_⟩
          exact (getD_set_ne fpD spc1 (Ne.symm (hfresh idx hidx)) _).symm
        · intro heq
          exact noch1 heq
    · rw [if_neg hrel, if_neg hrel] at hstep
      rw [hs1j] at hstep
      by_cases hcond : (fpLt (spc.getD (remaining.getD n 0) fpD) lowest1 ||
          (fpBeq (spc.getD (remaining.getD n 0) fpD) lowest1 &&
            decide (row4col.getD (remaining.getD n 0) 0 = -1))) = true
      · rw [if_pos hcond] at hstep
        rw [hstep]
        refine scanOut_mk nc cost u v i min_val remaining path spc (n + 1) _ _ _ _
          ?_ ?_ ?_ ?_ ?_ ?_ ?_ ?_
        · exact plen1
        · exact slen1
        · intro j2 h2
          exact unt1 j2 (fun it hit => h2 it (Nat.lt_succ_of_lt hit))
        · intro it hit hcmp
          rcases (Nat.lt_succ_iff_lt_or_eq.mp hit).imp_right Eq.symm with hit2 | rfl
          · exact imp1 it hit2 hcmp
          · exact absurd (hcmp.symm.trans (Bool.eq_false_iff.mpr hrel)) (by decide)
        · intro it hit hcmp
          rcases (Nat.lt_succ_iff_lt_or_eq.mp hit).imp_right Eq.symm with hit2 | rfl
          · exact kept1 it hit2 hcmp
          · exact ⟨hp1j, hs1j⟩
        · intro it hit
          rcases (Nat.lt_succ_iff_lt_or_eq.mp hit).imp_right Eq.symm with hit2 | rfl
          · simp only [Bool.or_eq_true, Bool.and_eq_true] at hcond
            rcases hcond with h | ⟨hbeq, _⟩
            · cases hv : fpLt (spc1.getD (activeAt remaining it) fpD)
                (spc.getD (remaining.getD n 0) fpD)
              · rfl
              · exact absurd (fpLt_trans hv h) (by rw [nolow1 it hit2]; decide)
            · rw [fpLt_congr_right hbeq, nolow1 it hit2]
          · have hgoal : spc1.getD (activeAt remaining n) fpD =
                spc.getD (remaining.getD n 0) fpD := hs1j
            rw [hgoal]
            exact fpLt_irrefl _
        · intro idx heq
          have hidx : n = idx := Option.some.inj heq
          subst hidx
          exact ⟨Nat.lt_succ_self n, hs1j.symm⟩
        · intro heq
          exact nomatch heq
      · rw [if_neg hcond] at hstep
        rw [hstep]
        refine scanOut_mk nc cost u v i min_val remaining path spc (n + 1) _ _ _ _
          ?_ ?_ ?_ ?_ ?_ ?_ ?_ ?_
        · exact plen1
        · exact slen1
        · intro j2 h2
          exact unt1 j2 (fun it hit => h2 it (Nat.lt_succ_of_lt hit))
        · intro it hit hcmp
          rcases (Nat.lt_succ_iff_lt_or_eq.mp hit).imp_right Eq.symm with hit2 | rfl
          · exact imp1 it hit2 hcmp
          · exact absurd (hcmp.symm.trans (Bool.eq_false_iff.mpr hrel)) (by decide)
        · intro it hit hcmp
          rcases (Nat.lt_succ_iff_lt_or_eq.mp hit).imp_right Eq.symm with hit2 | rfl
          · exact kept1 it hit2 hcmp
          · exact ⟨hp1j, hs1j⟩
        · intro it hit
          have hcf : fpLt (spc.getD (remaining.getD n 0) fpD) lowest1 = false ∧
              (fpBeq (spc.getD (remaining.getD n 0) fpD) lowest1 &&
                decide (row4col.getD (remaining.getD n 0) 0 = -1)) = false := by
            have hcond2 : (fpLt (spc.getD (remaining.getD n 0) fpD) lowest1 ||
                (fpBeq (spc.getD (remaining.getD n 0) fpD) lowest1 &&
                  decide (row4col.getD (remaining.getD n 0) 0 = -1))) = false :=
              Bool.eq_false_iff.mpr hcond
            simpa only [Bool.or_eq_false_iff] using hcond2
          rcases (Nat.lt_succ_iff_lt_or_eq.mp hit).imp_right Eq.symm with hit2 | rfl
          · exact nolow1 it hit2
          · have hgoal : spc1.getD (activeAt remaining n) fpD =
                spc.getD (remaining.getD n 0) fpD := hs1j
            rw [hgoal]
            exact hcf.1
        · intro idx heq
          obtain ⟨hidx, hval⟩ := chos1 idx heq
          exact ⟨Nat.lt_succ_of_lt hidx, hval⟩
        · intro heq
          exact noch1 heq

/-- Flat row-major index bound. -/
theorem flat_lt {i j nr nc : ℕ} (hi : i < nr) (hj : j < nc) : i * nc + j < nr * nc := by
  have h := transpose_pos_lt hi hj
  rwa [Nat.mul_comm nc nr] at h

/-- getD through an append, inside the first list. -/
theorem getD_append_lt {α : Type} (d : α) (l l2 : List α) (m : ℕ) (h : m < l.length) :
    (l ++ l2).getD m d = l.getD m d := by
  rw [List.getD_eq_getElem?_getD, List.getD_eq_getElem?_getD, List.getElem?_append, if_pos h]

/-- getD through an append, at the first position past the first list. -/
theorem getD_concat_self {α : Type} (d : α) (l : List α) (a : α) :
    (l ++ [a]).getD l.length d = a := by
  rw [List.getD_eq_getElem?_getD, List.getElem?_append_right (le_refl _)]
  simp

/-- A map over an index range is Nodup when the function is injective on
the range. -/
theorem nodup_map_range_of_inj {f : ℕ → ℕ} {n : ℕ}
    (h : ∀ it1, it1 < n → ∀ it2, it2 < n → f it1 = f it2 → it1 = it2) :
    ((List.range n).map f).Nodup :=
  List.Nodup.map_on
    (fun x hx y hy hxy => h x (List.mem_range.mp hx) y (List.mem_range.mp hy) hxy)
    (List.nodup_range n)

/-- A function whose map over an index range is Nodup is injective on the
range. -/
theorem inj_of_nodup_map_range {f : ℕ → ℕ} {n : ℕ}
    (h : ((List.range n).map f).Nodup) :
    ∀ it1, it1 < n → ∀ it2, it2 < n → f it1 = f it2 → it1 = it2 := by
  intro it1 h1 it2 h2 heq
  have hl1 : it1 < ((List.range n).map f).length := by simpa using h1
  have hl2 : it2 < ((List.range n).map f).length := by simpa using h2
  have hv : ((List.range n).map f).get ⟨it1, hl1⟩ = ((List.range n).map f).get ⟨it2, hl2⟩ := by
    simp only [List.get_eq_getElem, List.getElem_map, List.getElem_range]
    exact heq
  have := (List.Nodup.get_inj_iff h).mp hv
  exact Fin.mk.inj_iff.mp this

/-- The last entry of a nonempty list through getD. -/
theorem getLast?_getD {α : Type} (d : α) : ∀ l : List α, l ≠ [] →
    l.getLast? = some (l.getD (l.length - 1) d)
  | [], h => absurd rfl h
  | [x], _ => rfl
  | x :: y :: t, _ => by
    rw [List.getLast?_cons_cons, getLast?_getD d (y :: t) (by simp)]
    simp [List.getD_cons_succ, Nat.add_sub_cancel]

/-- Membership in a list of naturals through getD positions. -/
theorem mem_iff_getD (l : List ℕ) (j : ℕ) :
    j ∈ l ↔ ∃ m, m < l.length ∧ l.getD m 0 = j := by
  constructor
  · intro h
    obtain ⟨m, hm, he⟩ := List.getElem_of_mem h
    exact ⟨m, hm, by rw [List.getD_eq_getElem _ _ hm]; exact he⟩
  · rintro ⟨m, hm, rfl⟩
    rw [List.getD_eq_getElem _ _ hm]
    exact List.getElem_mem _

/-- Reading the active array after the swap-removal of the chosen
position. -/
theorem activeAt_swap (remaining : List ℕ) (idxa nrem : ℕ)
    (hlen : idxa < remaining.length) (it : ℕ) :
    activeAt (remaining.set idxa (remaining.getD nrem 0)) it =
      if it = idxa then remaining.getD nrem 0 else activeAt remaining it := by
  by_cases h : it = idxa
  · subst h
    rw [if_pos rfl]
    exact getD_set_self 0 remaining hlen _
  · rw [if_neg h]
    exact getD_set_ne 0 remaining (fun heq => h heq.symm) _

/-- Every column below nc is active or scanned when counts, bounds,
distinctness and disjointness hold. -/
theorem active_or_scanned (nc num_remaining : ℕ) (remaining scanned : List ℕ)
    (hcount : num_remaining + scanned.length = nc)
    (hnodup_active : ((List.range num_remaining).map (activeAt remaining)).Nodup)
    (hactive_lt : ∀ it, it < num_remaining → activeAt remaining it < nc)
    (hscanned_lt : ∀ j ∈ scanned, j < nc)
    (hnodup_scanned : scanned.Nodup)
    (hdisj : ∀ it, it < num_remaining → activeAt remaining it ∉ scanned)
    (j : ℕ) (hj : j < nc) :
    (∃ it, it < num_remaining ∧ activeAt remaining it = j) ∨ j ∈ scanned := by
  by_contra hcon
  push_neg at hcon
  obtain ⟨hna, hns⟩ := hcon
  have hnodup : (j :: (((List.range num_remaining).map (activeAt remaining)) ++ scanned)).Nodup := by
    refine List.Nodup.cons ?_ (List.Nodup.append hnodup_active hnodup_scanned ?_)
    · intro hmem
      rcases List.mem_append.mp hmem with hm | hm
      · obtain ⟨it, hit, heq⟩ := List.mem_map.mp hm
        exact hna it (List.mem_range.mp hit) heq
      · exact hns hm
    · intro x hx hx2
      obtain ⟨it, hit, heq⟩ := List.mem_map.mp hx
      exact hdisj it (List.mem_range.mp hit) (heq ▸ hx2)
  have hsub : (j :: (((List.range num_remaining).map (activeAt remaining)) ++ scanned)) ⊆
      List.range nc := by
    intro x hx
    rcases List.mem_cons.mp hx with rfl | hx
    · exact List.mem_range.mpr hj
    · rcases List.mem_append.mp hx with hm | hm
      · obtain ⟨it, hit, heq⟩ := List.mem_map.mp hm
        exact List.mem_range.mpr (heq ▸ hactive_lt it (List.mem_range.mp hit))
      · exact List.mem_range.mpr (hscanned_lt x hm)
  have hle := (hnodup.subperm hsub).length_le
  simp only [List.length_cons, List.length_append, List.length_map, List.length_range,
    List.length_range] at hle
  omega

/-- A finite value and positive infinity compare unequal. -/
theorem isFinV_fpBeq_pinf {x : FpVal} (hx : IsFinV x) : fpBeq x FpVal.pinf = false := by
  rw [hx]
  exact fpBeq_fin_pinf _

/-- Two finite values with the strict comparison false compare the other
way on the contents. -/
theorem le_of_fpLt_false {x y : FpVal} (hx : IsFinV x) (hy : IsFinV y)
    (h : fpLt x y = false) : toQ y ≤ toQ x := by
  rw [hx, hy] at h
  exact fpLt_fin_false_iff.mp h

/-- Two finite values with the strict comparison true compare the same
way on the contents. -/
theorem lt_of_fpLt_true {x y : FpVal} (hx : IsFinV x) (hy : IsFinV y)
    (h : fpLt x y = true) : toQ x < toQ y := by
  rw [hx, hy] at h
  exact fpLt_fin_iff.mp h

/-- When some column has been scanned, the row about to be scanned is a
processed row matched to the last scanned column, and min_val is that
column's shortest-path cost. -/
theorem augInv_last_facts (nr nc : ℕ) (cost u v : List FpVal) (cur : ℕ)
    (col4row row4col : List ℤ) (nrem1 i : ℕ) (min_val : FpVal)
    (remaining : List ℕ) (path : List ℤ) (spc : List FpVal) (SR SC : List Bool)
    (scanned : List ℕ)
    (hsolve : SolveInv nr nc cost cur u v col4row row4col)
    (hinv : AugInv nr nc cost u v cur col4row row4col nrem1 i min_val remaining
      path spc SR SC scanned)
    (hne : scanned ≠ []) :
    ∃ jl, jl ∈ scanned ∧ i < cur ∧ col4row.getD i 0 = Int.ofNat jl ∧
      min_val = spc.getD jl fpD := by
  have hlast := getLast?_getD 0 scanned hne
  obtain ⟨hr4c, hmveq⟩ := hinv.ilast _ hlast
  have hlen : 0 < scanned.length := List.length_pos.mpr hne
  have hmem : scanned.getD (scanned.length - 1) 0 ∈ scanned :=
    (mem_iff_getD scanned _).mpr ⟨scanned.length - 1, by omega, rfl⟩
  have hjlnc := hinv.scanned_lt _ hmem
  have hcm : colMatched row4col (scanned.getD (scanned.length - 1) 0) :=
    hinv.scanned_matched _ hmem
  obtain ⟨hrowlt, hrow_eq, hc4r_eq⟩ := hsolve.inverse2 _ hjlnc hcm
  have hieq : i = matchedRow row4col (scanned.getD (scanned.length - 1) 0) :=
    Int.ofNat.inj (hr4c.symm.trans hrow_eq)
  refine ⟨scanned.getD (scanned.length - 1) 0, hmem, ?_, ?_, hmveq⟩
  · omega
  · rw [hieq]
    exact hc4r_eq

/-- min_val is the distance label of the row about to be scanned. -/
theorem augInv_mv_dist (nr nc : ℕ) (cost u v : List FpVal) (cur : ℕ)
    (col4row row4col : List ℤ) (nrem1 i : ℕ) (min_val : FpVal)
    (remaining : List ℕ) (path : List ℤ) (spc : List FpVal) (SR SC : List Bool)
    (scanned : List ℕ)
    (hsolve : SolveInv nr nc cost cur u v col4row row4col)
    (hinv : AugInv nr nc cost u v cur col4row row4col nrem1 i min_val remaining
      path spc SR SC scanned) :
    toQ min_val = distQ cur col4row spc i := by
  by_cases hne : scanned = []
  · obtain ⟨hicur, hmv⟩ := hinv.istart hne
    rw [hmv]
    unfold distQ
    rw [if_pos hicur]
    rfl
  · obtain ⟨jl, hmem, hicur, hc4r, hmveq⟩ := augInv_last_facts nr nc cost u v cur
      col4row row4col nrem1 i min_val remaining path spc SR SC scanned hsolve hinv hne
    unfold distQ
    rw [if_neg (by omega : ¬ i = cur), hc4r, hmveq]
    rfl

/-- Derivation of the post-scan facts from the loop invariant and the
scan characterization. -/
theorem postScan_of (nr nc : ℕ) (cost u v : List FpVal) (cur : ℕ)
    (col4row row4col : List ℤ) (nrem1 i : ℕ) (min_val : FpVal)
    (remaining : List ℕ) (path : List ℤ) (spc : List FpVal) (SR SC : List Bool)
    (scanned : List ℕ)
    (hsolve : SolveInv nr nc cost cur u v col4row row4col)
    (hcur : cur < nr) (hfin : AllFinite nr nc cost)
    (hinv : AugInv nr nc cost u v cur col4row row4col nrem1 i min_val remaining
      path spc SR SC scanned)
    (path2 : List ℤ) (spc2 : List FpVal) (lowest : FpVal) (idxa : ℕ)
    (hscan : augScan nc cost u v row4col i min_val nrem1 remaining path spc =
      (path2, spc2, lowest, some idxa)) :
    PostScan nr nc cost u v cur col4row row4col nrem1 i min_val remaining path spc
      SR scanned path2 spc2 lowest (activeAt remaining idxa) ∧ idxa < nrem1 := by
  have hSO := augScan_spec nc cost u v row4col i min_val remaining path spc
    hinv.spclen hinv.pathlen (hsolve.ufin i hinv.ilt) hinv.mvfin nrem1
    hinv.active_lt (inj_of_nodup_map_range hinv.nodup_active)
    (fun it hit => hfin _ (flat_lt hinv.ilt (hinv.active_lt it hit)))
    (fun it hit => hsolve.vfin _ (hinv.active_lt it hit))
  rw [hscan] at hSO
  have plen2 : path2.length = path.length := hSO.plen
  have slen2 : spc2.length = spc.length := hSO.slen
  have unt2 : ∀ j2, (∀ it, it < nrem1 → activeAt remaining it ≠ j2) →
      path2.getD j2 0 = path.getD j2 0 ∧ spc2.getD j2 fpD = spc.getD j2 fpD :=
    hSO.untouched
  have imp2 : ∀ it, it < nrem1 →
      fpLt (FpVal.fin (toQ min_val + redQ nc cost u v i (activeAt remaining it)))
          (spc.getD (activeAt remaining it) fpD) = true →
        path2.getD (activeAt remaining it) 0 = Int.ofNat i ∧
        spc2.getD (activeAt remaining it) fpD =
          FpVal.fin (toQ min_val + redQ nc cost u v i (activeAt remaining it)) :=
    hSO.improved
  have kpt2 : ∀ it, it < nrem1 →
      fpLt (FpVal.fin (toQ min_val + redQ nc cost u v i (activeAt remaining it)))
          (spc.getD (activeAt remaining it) fpD) = false →
        path2.getD (activeAt remaining it) 0 = path.getD (activeAt remaining it) 0 ∧
        spc2.getD (activeAt remaining it) fpD = spc.getD (activeAt remaining it) fpD :=
    hSO.kept
  have nolow2 : ∀ it, it < nrem1 →
      fpLt (spc2.getD (activeAt remaining it) fpD) lowest = false := hSO.nolower
  have chos2 : idxa < nrem1 ∧ lowest = spc2.getD (activeAt remaining idxa) fpD :=
    hSO.chosen idxa rfl
  have huntS : ∀ j ∈ scanned,
      path2.getD j 0 = path.getD j 0 ∧ spc2.getD j fpD = spc.getD j fpD := by
    intro j hj
    exact unt2 j (fun it hit heq => hinv.disj it hit (by rw [heq]; exact hj))
  have key : ∀ it, it < nrem1 →
      IsFinV (spc2.getD (activeAt remaining it) fpD) ∧
      entryQ spc2 (activeAt remaining it) ≤
        toQ min_val + redQ nc cost u v i (activeAt remaining it) ∧
      ((path2.getD (activeAt remaining it) 0 = Int.ofNat i ∧
        entryQ spc2 (activeAt remaining it) =
          toQ min_val + redQ nc cost u v i (activeAt remaining it)) ∨
       (path2.getD (activeAt remaining it) 0 = path.getD (activeAt remaining it) 0 ∧
        spc2.getD (activeAt remaining it) fpD = spc.getD (activeAt remaining it) fpD ∧
        IsFinV (spc.getD (activeAt remaining it) fpD))) := by
    intro it hit
    rcases hinv.above_mv it hit with hpinf | ⟨hfinold, hge⟩
    · have himp := imp2 it hit (by rw [hpinf]; exact fpLt_fin_pinf _)
      refine ⟨by rw [himp.2]; exact isFinV_fin _, ?_, Or.inl ⟨himp.1, ?_⟩⟩
      · show toQ (spc2.getD (activeAt remaining it) fpD) ≤ _
        rw [himp.2, toQ_fin]
      · show toQ (spc2.getD (activeAt remaining it) fpD) = _
        rw [himp.2, toQ_fin]
    · cases hc : fpLt (FpVal.fin (toQ min_val + redQ nc cost u v i (activeAt remaining it)))
          (spc.getD (activeAt remaining it) fpD)
      · have hk := kpt2 it hit hc
        have hle := le_of_fpLt_false (isFinV_fin _) hfinold hc
        rw [toQ_fin] at hle
        refine ⟨by rw [hk.2]; exact hfinold, ?_, Or.inr ⟨hk.1, hk.2, hfinold⟩⟩
        show toQ (spc2.getD (activeAt remaining it) fpD) ≤ _
        rw [hk.2]
        exact hle
      · have himp := imp2 it hit hc
        refine ⟨by rw [himp.2]; exact isFinV_fin _, ?_, Or.inl ⟨himp.1, ?_⟩⟩
        · show toQ (spc2.getD (activeAt remaining it) fpD) ≤ _
          rw [himp.2, toQ_fin]
        · show toQ (spc2.getD (activeAt remaining it) fpD) = _
          rw [himp.2, toQ_fin]
  have hdist_inv : ∀ p, (p = cur ∨ ∃ m2, m2 < scanned.length ∧
      row4col.getD (scanned.getD m2 0) 0 = Int.ofNat p) →
      distQ cur col4row spc2 p = distQ cur col4row spc p := by
    intro p hp
    rcases hp with rfl | ⟨m2, hm2, hrow⟩
    · unfold distQ
      rw [if_pos rfl, if_pos rfl]
    · have hmem : scanned.getD m2 0 ∈ scanned := (mem_iff_getD scanned _).mpr ⟨m2, hm2, rfl⟩
      have hjnc := hinv.scanned_lt _ hmem
      have hcm := hinv.scanned_matched _ hmem
      obtain ⟨hltc, hre, hc4⟩ := hsolve.inverse2 _ hjnc hcm
      have hpe : p = matchedRow row4col (scanned.getD m2 0) :=
        Int.ofNat.inj (hrow.symm.trans hre)
      subst hpe
      unfold distQ
      rw [if_neg (by omega), if_neg (by omega), hc4]
      show toQ (spc2.getD (scanned.getD m2 0) fpD) = toQ (spc.getD (scanned.getD m2 0) fpD)
      rw [(huntS _ hmem).2]
  have hitree : i = cur ∨ ∃ m2, m2 < scanned.length ∧
      row4col.getD (scanned.getD m2 0) 0 = Int.ofNat i := by
    by_cases hne : scanned = []
    · exact Or.inl (hinv.istart hne).1
    · have hlast := getLast?_getD 0 scanned hne
      obtain ⟨hr4c, _⟩ := hinv.ilast _ hlast
      have hlen := List.length_pos.mpr hne
      exact Or.inr ⟨scanned.length - 1, by omega, hr4c⟩
  have hidist : toQ min_val = distQ cur col4row spc i :=
    augInv_mv_dist nr nc cost u v cur col4row row4col nrem1 i min_val remaining
      path spc SR SC scanned hsolve hinv
  have hidist2 : toQ min_val = distQ cur col4row spc2 i :=
    hidist.trans (hdist_inv i hitree).symm
  have iprocessed : scanned ≠ [] → i < cur := by
    intro hne
    obtain ⟨jl, _, h, _, _⟩ := augInv_last_facts nr nc cost u v cur col4row row4col
      nrem1 i min_val remaining path spc SR SC scanned hsolve hinv hne
    exact h
  have hallfin2 : ∀ j, j < nc → IsFinV (spc2.getD j fpD) := by
    intro j hj
    rcases active_or_scanned nc nrem1 remaining scanned hinv.count hinv.nodup_active
        hinv.active_lt hinv.scanned_lt hinv.nodup_scanned hinv.disj j hj with
      ⟨it, hit, heq⟩ | hmem
    · rw [← heq]
      exact (key it hit).1
    · rw [(huntS j hmem).2]
      exact hinv.spc_scanned_fin j hmem
  have hlowfin : IsFinV lowest := by
    rw [chos2.2]
    exact (key idxa chos2.1).1
  have habove : ∀ it, it < nrem1 → toQ lowest ≤ entryQ spc2 (activeAt remaining it) :=
    fun it hit => le_of_fpLt_false (key it hit).1 hlowfin (nolow2 it hit)
  have hmvle : scanned ≠ [] → ∀ it, it < nrem1 →
      toQ min_val ≤ entryQ spc2 (activeAt remaining it) := by
    intro hne it hit
    have hic := iprocessed hne
    rcases (key it hit).2.2 with ⟨_, hev⟩ | ⟨_, hs2, hfinold⟩
    · rw [hev]
      have hred := hsolve.feas i hic _ (hinv.active_lt it hit)
      linarith
    · rcases hinv.above_mv it hit with hp | ⟨_, hge⟩
      · rw [hp] at hfinold
        exact absurd hfinold (by intro hx; exact FpVal.noConfusion hx)
      · have h1 : entryQ spc2 (activeAt remaining it) = entryQ spc (activeAt remaining it) := by
          unfold entryQ
          rw [hs2]
        rw [h1]
        exact hge
  have hmvlow : scanned ≠ [] → toQ min_val ≤ toQ lowest := by
    intro hne
    rw [chos2.2]
    exact hmvle hne idxa chos2.1
  refine ⟨⟨plen2.trans hinv.pathlen, slen2.trans hinv.spclen, huntS,
    fun it hit => (key it hit).1, hallfin2, fun it hit => (key it hit).2.1,
    habove, hlowfin, ⟨idxa, chos2.1, rfl⟩, chos2.2, hmvlow, ?_, ?_, ?_, ?_⟩, chos2.1⟩
  · intro j hmem
    have h1 : entryQ spc2 j = entryQ spc j := by
      unfold entryQ
      rw [(huntS j hmem).2]
    rw [h1]
    exact le_trans (hinv.below_mv j hmem) (hmvlow (List.ne_nil_of_mem hmem))
  · intro it hit
    rcases (key it hit).2.2 with ⟨hpath, hev⟩ | ⟨hpath, hs2, hfinold⟩
    · refine ⟨i, hinv.ilt, hpath, hitree, ?_⟩
      rw [hev, hidist2]
    · obtain ⟨p, hpnr, hpath_old, hmemb, hev_old⟩ := hinv.parent_active it hit hfinold
      refine ⟨p, hpnr, by rw [hpath]; exact hpath_old, hmemb, ?_⟩
      have h1 : entryQ spc2 (activeAt remaining it) = entryQ spc (activeAt remaining it) := by
        unfold entryQ
        rw [hs2]
      rw [h1, hdist_inv p hmemb]
      exact hev_old
  · intro p hpnr hsr j hj
    by_cases hpi : p = i
    · subst hpi
      rcases active_or_scanned nc nrem1 remaining scanned hinv.count hinv.nodup_active
          hinv.active_lt hinv.scanned_lt hinv.nodup_scanned hinv.disj j hj with
        ⟨it, hit, heq⟩ | hmem
      · left
        rw [← heq, ← hidist2]
        exact (key it hit).2.1
      · have hne := List.ne_nil_of_mem hmem
        refine Or.inr ⟨by have := iprocessed hne; omega, ?_⟩
        have h1 : entryQ spc2 j = entryQ spc j := by
          unfold entryQ
          rw [(huntS j hmem).2]
        rw [h1, ← hidist2]
        exact hinv.below_mv j hmem
    · have hsrp : SR.getD p false = true :=
        (getD_set_ne false SR (fun heq => hpi heq.symm) true).symm.trans hsr
      have hne : scanned ≠ [] := by
        intro hn
        have htr := (hinv.sr_iff p hpnr).mp hsrp
        rcases htr.1 with rfl | ⟨jm, hjm, _⟩
        · exact hpi ((hinv.istart hn).1.symm)
        · rw [hn] at hjm
          exact absurd hjm (List.not_mem_nil jm)
      have hallfinold := hinv.allfin hne
      have hold := hinv.relaxed p hpnr hsrp j hj
      have hle2 : entryQ spc2 j ≤ entryQ spc j := by
        rcases active_or_scanned nc nrem1 remaining scanned hinv.count hinv.nodup_active
            hinv.active_lt hinv.scanned_lt hinv.nodup_scanned hinv.disj j hj with
          ⟨it, hit, heq⟩ | hmem
        · subst heq
          cases hc : fpLt (FpVal.fin (toQ min_val + redQ nc cost u v i (activeAt remaining it)))
              (spc.getD (activeAt remaining it) fpD)
          · have hk := kpt2 it hit hc
            show toQ (spc2.getD (activeAt remaining it) fpD) ≤ _
            rw [hk.2]
            exact le_refl _
          · have himp := imp2 it hit hc
            have hltq := lt_of_fpLt_true (isFinV_fin _)
              (hallfinold _ (hinv.active_lt it hit)) hc
            rw [toQ_fin] at hltq
            show toQ (spc2.getD (activeAt remaining it) fpD) ≤ _
            rw [himp.2, toQ_fin]
            exact le_of_lt hltq
        · have h1 : entryQ spc2 j = entryQ spc j := by
            unfold entryQ
            rw [(huntS j hmem).2]
          rw [h1]
      have htree := (hinv.sr_iff p hpnr).mp hsrp
      have hmembp : p = cur ∨ ∃ m2, m2 < scanned.length ∧
          row4col.getD (scanned.getD m2 0) 0 = Int.ofNat p := by
        rcases htree.1 with h | ⟨jm, hjm, hr⟩
        · exact Or.inl h
        · obtain ⟨m2, hm2, hval⟩ := (mem_iff_getD scanned jm).mp hjm
          exact Or.inr ⟨m2, hm2, by rw [hval]; exact hr⟩
      rw [hdist_inv p hmembp]
      rcases hold with h | ⟨hpc, h⟩
      · exact Or.inl (le_trans hle2 h)
      · exact Or.inr ⟨hpc, le_trans hle2 h⟩
  · intro m hm
    have hmem : scanned.getD m 0 ∈ scanned := (mem_iff_getD scanned _).mpr ⟨m, hm, rfl⟩
    obtain ⟨p, hpnr, hpath_old, hmemb, hev_old⟩ := hinv.parent_scanned m hm
    have hmemb2 : p = cur ∨ ∃ m2, m2 < scanned.length ∧
        row4col.getD (scanned.getD m2 0) 0 = Int.ofNat p := by
      rcases hmemb with h | ⟨m2, hm2, hr⟩
      · exact Or.inl h
      · exact Or.inr ⟨m2, by omega, hr⟩
    refine ⟨p, hpnr, by rw [(huntS _ hmem).1]; exact hpath_old, hmemb, ?_⟩
    have h1 : entryQ spc2 (scanned.getD m 0) = entryQ spc (scanned.getD m 0) := by
      unfold entryQ
      rw [(huntS _ hmem).2]
    rw [h1, hdist_inv p hmemb2]
    exact hev_old

/-- Tree membership through an appended scanned column. -/
theorem treeRow_append (cur : ℕ) (row4col : List ℤ) (scanned : List ℕ) (jstar : ℕ) (p : ℕ) :
    TreeRow cur row4col (scanned ++ [jstar]) p ↔
      (TreeRow cur row4col scanned p ∨ row4col.getD jstar 0 = Int.ofNat p) := by
  unfold TreeRow
  constructor
  · rintro (h | ⟨jm, hjm, hr⟩)
    · exact Or.inl (Or.inl h)
    · rcases List.mem_append.mp hjm with h2 | h2
      · exact Or.inl (Or.inr ⟨jm, h2, hr⟩)
      · rw [List.mem_singleton.mp h2] at hr
        exact Or.inr hr
  · rintro ((h | ⟨jm, hjm, hr⟩) | hr)
    · exact Or.inl h
    · exact Or.inr ⟨jm, List.mem_append.mpr (Or.inl hjm), hr⟩
    · exact Or.inr ⟨jstar, List.mem_append.mpr (Or.inr (List.mem_singleton.mpr rfl)), hr⟩

/-- The row about to be scanned is in the alternating tree. -/
theorem augInv_i_tree (nr nc : ℕ) (cost u v : List FpVal) (cur : ℕ)
    (col4row row4col : List ℤ) (nrem1 i : ℕ) (min_val : FpVal)
    (remaining : List ℕ) (path : List ℤ) (spc : List FpVal) (SR SC : List Bool)
    (scanned : List ℕ)
    (hinv : AugInv nr nc cost u v cur col4row row4col nrem1 i min_val remaining
      path spc SR SC scanned) :
    TreeRow cur row4col scanned i := by
  by_cases hne : scanned = []
  · exact Or.inl (hinv.istart hne).1
  · obtain ⟨hr4c, _⟩ := hinv.ilast _ (getLast?_getD 0 scanned hne)
    have hlen := List.length_pos.mpr hne
    exact Or.inr ⟨scanned.getD (scanned.length - 1) 0,
      (mem_iff_getD scanned _).mpr ⟨scanned.length - 1, by omega, rfl⟩, hr4c⟩

/-- When the chosen column is unmatched the loop stops: the final state
satisfies the search's output facts. -/
theorem augStep_sink (nr nc : ℕ) (cost u v : List FpVal) (cur : ℕ)
    (col4row row4col : List ℤ) (nrem1 i : ℕ) (min_val : FpVal)
    (remaining : List ℕ) (path : List ℤ) (spc : List FpVal) (SR SC : List Bool)
    (scanned : List ℕ) (path2 : List ℤ) (spc2 : List FpVal) (lowest : FpVal) (jstar : ℕ)
    (hsolve : SolveInv nr nc cost cur u v col4row row4col)
    (hinv : AugInv nr nc cost u v cur col4row row4col nrem1 i min_val remaining
      path spc SR SC scanned)
    (hps : PostScan nr nc cost u v cur col4row row4col nrem1 i min_val remaining
      path spc SR scanned path2 spc2 lowest jstar)
    (hsink : row4col.getD jstar 0 = -1) :
    AugOut nr nc cost u v cur col4row row4col jstar lowest path2 spc2
      (SR.set i true) (SC.set jstar true) (scanned ++ [jstar]) := by
  obtain ⟨idxa, hidxa, hjeq⟩ := hps.jstar_active
  have hjnc : jstar < nc := hjeq ▸ hinv.active_lt idxa hidxa
  have hjnotmem : jstar ∉ scanned := hjeq ▸ hinv.disj idxa hidxa
  have hilen : i < SR.length := by rw [hinv.srlen]; exact hinv.ilt
  have hjlenSC : jstar < SC.length := by rw [hinv.sclen]; exact hjnc
  have hsinknotrow : ∀ p : ℕ, ¬ row4col.getD jstar 0 = Int.ofNat p := by
    intro p h
    rw [hsink, Int.ofNat_eq_natCast] at h
    omega
  refine ⟨hps.p2len, hps.s2len, by rw [List.length_set]; exact hinv.srlen,
    by rw [List.length_set]; exact hinv.sclen, ?_, ?_, ?_, ?_, List.getLast?_concat _,
    fun h => h hsink, ?_, hps.low_fin, ?_, hps.allfin2, hps.low_eq.symm, ?_, ?_,
    hps.relaxed_new, ?_⟩
  · intro j hj
    rcases List.mem_append.mp hj with h | h
    · exact hinv.scanned_lt j h
    · rw [List.mem_singleton.mp h]
      exact hjnc
  · refine List.Nodup.append hinv.nodup_scanned (List.nodup_singleton _) ?_
    intro a ha hb
    rw [List.mem_singleton.mp hb] at ha
    exact hjnotmem ha
  · intro j hj
    by_cases hjs : j = jstar
    · subst hjs
      rw [getD_set_self false SC hjlenSC true]
      simp only [true_iff]
      exact List.mem_append.mpr (Or.inr (List.mem_singleton.mpr rfl))
    · rw [getD_set_ne false SC (fun heq => hjs heq.symm) true]
      rw [hinv.sc_iff j hj, List.mem_append, List.mem_singleton]
      exact (or_iff_left hjs).symm
  · intro p hp
    rw [treeRow_append]
    by_cases hpi : p = i
    · subst hpi
      rw [getD_set_self false SR hilen true]
      constructor
      · intro _
        exact Or.inl (augInv_i_tree nr nc cost u v cur col4row row4col nrem1 p min_val
          remaining path spc SR SC scanned hinv)
      · intro _
        rfl
    · rw [getD_set_ne false SR (fun heq => hpi heq.symm) true]
      constructor
      · intro h
        exact Or.inl ((hinv.sr_iff p hp).mp h).1
      · intro h
        rcases h with h | h
        · exact (hinv.sr_iff p hp).mpr ⟨h, hpi⟩
        · exact absurd h (hsinknotrow p)
  · intro j hj hne
    rcases List.mem_append.mp hj with h | h
    · exact hinv.scanned_matched j h
    · exact absurd (List.mem_singleton.mp h) hne
  · intro j hj
    rcases List.mem_append.mp hj with h | h
    · exact hps.allfin2 j (hinv.scanned_lt j h)
    · rw [List.mem_singleton.mp h]
      exact hps.allfin2 jstar hjnc
  · intro j hj
    rcases List.mem_append.mp hj with h | h
    · exact hps.scanned_below j h
    · rw [List.mem_singleton.mp h, hps.low_eq]
      exact le_refl _
  · intro j hj hnmem
    have hns : j ∉ scanned := fun h => hnmem (List.mem_append.mpr (Or.inl h))
    have hnj : j ≠ jstar := fun h =>
      hnmem (List.mem_append.mpr (Or.inr (List.mem_singleton.mpr h)))
    rcases active_or_scanned nc nrem1 remaining scanned hinv.count hinv.nodup_active
        hinv.active_lt hinv.scanned_lt hinv.nodup_scanned hinv.disj j hj with
      ⟨it, hit, heq⟩ | hmem
    · rw [← heq]
      exact hps.above_new it hit
    · exact absurd hmem hns
  · intro m hm
    rw [List.length_append, List.length_singleton] at hm
    by_cases hmlen : m < scanned.length
    · obtain ⟨p, hpnr, hpath, hmemb, hev⟩ := hps.parent_scanned2 m hmlen
      refine ⟨p, hpnr, ?_, ?_, ?_⟩
      · rw [getD_append_lt 0 scanned [jstar] m hmlen]
        exact hpath
      · rcases hmemb with h | ⟨m2, hm2, hr⟩
        · exact Or.inl h
        · refine Or.inr ⟨m2, hm2, ?_⟩
          rw [getD_append_lt 0 scanned [jstar] m2 (by omega)]
          exact hr
      · rw [getD_append_lt 0 scanned [jstar] m hmlen]
        exact hev
    · have hmeq : m = scanned.length := by omega
      subst hmeq
      obtain ⟨p, hpnr, hpath, hmemb, hev⟩ := hps.parent_new idxa hidxa
      rw [hjeq] at hpath hev
      refine ⟨p, hpnr, ?_, ?_, ?_⟩
      · rw [getD_concat_self 0 scanned jstar]
        exact hpath
      · rcases hmemb with h | ⟨m2, hm2, hr⟩
        · exact Or.inl h
        · refine Or.inr ⟨m2, hm2, ?_⟩
          rw [getD_append_lt 0 scanned [jstar] m2 hm2]
          exact hr
      · rw [getD_concat_self 0 scanned jstar]
        exact hev

/-- When the chosen column is matched the loop continues: the invariant
holds again for the swapped-down remaining array, the matched row of the
chosen column, and min_val updated to the lowest cost. -/
theorem augStep_next (nr nc : ℕ) (cost u v : List FpVal) (cur : ℕ)
    (col4row row4col : List ℤ) (nrem i : ℕ) (min_val : FpVal)
    (remaining : List ℕ) (path : List ℤ) (spc : List FpVal) (SR SC : List Bool)
    (scanned : List ℕ) (path2 : List ℤ) (spc2 : List FpVal) (lowest : FpVal)
    (idxa : ℕ) (jstar i2 : ℕ)
    (hsolve : SolveInv nr nc cost cur u v col4row row4col)
    (hcur : cur < nr)
    (hinv : AugInv nr nc cost u v cur col4row row4col (nrem + 1) i min_val remaining
      path spc SR SC scanned)
    (hps : PostScan nr nc cost u v cur col4row row4col (nrem + 1) i min_val remaining
      path spc SR scanned path2 spc2 lowest jstar)
    (hidxa : idxa < nrem + 1) (hjeq : activeAt remaining idxa = jstar)
    (hnosink : row4col.getD jstar 0 ≠ -1)
    (hi2 : i2 = (row4col.getD jstar 0).toNat) :
    AugInv nr nc cost u v cur col4row row4col nrem i2 lowest
      (remaining.set idxa (remaining.getD nrem 0)) path2 spc2
      (SR.set i true) (SC.set jstar true) (scanned ++ [jstar]) := by
  have hjnc : jstar < nc := hjeq ▸ hinv.active_lt idxa hidxa
  have hjnotmem : jstar ∉ scanned := hjeq ▸ hinv.disj idxa hidxa
  have hilen : i < SR.length := by rw [hinv.srlen]; exact hinv.ilt
  have hjlenSC : jstar < SC.length := by rw [hinv.sclen]; exact hjnc
  have hcm : colMatched row4col jstar := hnosink
  obtain ⟨hi2cur, hrow0, hc4r0⟩ := hsolve.inverse2 jstar hjnc hcm
  have hrow : row4col.getD jstar 0 = Int.ofNat i2 := by
    rw [hi2]
    exact hrow0
  have hc4r : col4row.getD i2 0 = Int.ofNat jstar := by
    rw [hi2]
    exact hc4r0
  have hi2lt : i2 < cur := by
    rw [hi2]
    exact hi2cur
  have hidxlen : idxa < remaining.length := by
    rw [hinv.remlen]
    have := hinv.count
    omega
  have hinj := inj_of_nodup_map_range hinv.nodup_active
  have hact2 : ∀ it, activeAt (remaining.set idxa (remaining.getD nrem 0)) it =
      if it = idxa then remaining.getD nrem 0 else activeAt remaining it :=
    activeAt_swap remaining idxa nrem hidxlen
  have hmap : ∀ it, it < nrem → ∃ it0, it0 < nrem + 1 ∧ it0 ≠ idxa ∧
      activeAt (remaining.set idxa (remaining.getD nrem 0)) it = activeAt remaining it0 := by
    intro it hit
    by_cases h : it = idxa
    · refine ⟨nrem, Nat.lt_succ_self _, by omega, ?_⟩
      rw [hact2 it, if_pos h]
      rfl
    · refine ⟨it, by omega, h, ?_⟩
      rw [hact2 it, if_neg h]
  have hinoti2 : i ≠ i2 := by
    by_cases hne : scanned = []
    · obtain ⟨hicur, _⟩ := hinv.istart hne
      omega
    · obtain ⟨jl, hmem, _, hc4ri, _⟩ := augInv_last_facts nr nc cost u v cur col4row
        row4col (nrem + 1) i min_val remaining path spc SR SC scanned hsolve hinv hne
      intro heq
      have : Int.ofNat jl = Int.ofNat jstar := by
        rw [← hc4ri, heq, hc4r]
      have hjl : jl = jstar := Int.ofNat.inj this
      rw [hjl] at hmem
      exact hjnotmem hmem
  have hnotree_i2 : ¬ TreeRow cur row4col scanned i2 := by
    rintro (h | ⟨jm, hjm, hr⟩)
    · omega
    · have hjmnc := hinv.scanned_lt jm hjm
      have hjmcm := hinv.scanned_matched jm hjm
      obtain ⟨_, hre, hc4m⟩ := hsolve.inverse2 jm hjmnc hjmcm
      have hmr : matchedRow row4col jm = i2 := Int.ofNat.inj (hre.symm.trans hr)
      rw [hmr] at hc4m
      have : Int.ofNat jm = Int.ofNat jstar := by
        rw [← hc4m, hc4r]
      have hjm2 : jm = jstar := Int.ofNat.inj this
      rw [hjm2] at hjm
      exact hjnotmem hjm
  refine ⟨by rw [List.length_set]; exact hinv.remlen, hps.p2len, hps.s2len,
    by rw [List.length_set]; exact hinv.srlen, by rw [List.length_set]; exact hinv.sclen,
    ?_, ?_, ?_, ?_, ?_, ?_, ?_, ?_, ?_, by omega, ?_, ?_, hps.low_fin, ?_,
    fun _ => hps.allfin2, ?_, ?_, hps.relaxed_new, ?_, ?_⟩
  · rw [List.length_append, List.length_singleton]
    have := hinv.count
    omega
  · refine nodup_map_range_of_inj ?_
    intro it1 h1 it2 h2 heq
    rw [hact2 it1, hact2 it2] at heq
    by_cases e1 : it1 = idxa <;> by_cases e2 : it2 = idxa
    · omega
    · rw [if_pos e1, if_neg e2] at heq
      have : nrem = it2 := hinj nrem (Nat.lt_succ_self _) it2 (by omega) heq
      omega
    · rw [if_neg e1, if_pos e2] at heq
      have : it1 = nrem := hinj it1 (by omega) nrem (Nat.lt_succ_self _) heq
      omega
    · rw [if_neg e1, if_neg e2] at heq
      exact hinj it1 (by omega) it2 (by omega) heq
  · intro it hit
    obtain ⟨it0, h0, _, hv⟩ := hmap it hit
    rw [hv]
    exact hinv.active_lt it0 h0
  · intro j hj
    rcases List.mem_append.mp hj with h | h
    · exact hinv.scanned_lt j h
    · rw [List.mem_singleton.mp h]
      exact hjnc
  · refine List.Nodup.append hinv.nodup_scanned (List.nodup_singleton _) ?_
    intro a ha hb
    rw [List.mem_singleton.mp hb] at ha
    exact hjnotmem ha
  · intro it hit hmem
    obtain ⟨it0, h0, hne0, hv⟩ := hmap it hit
    rw [hv] at hmem
    rcases List.mem_append.mp hmem with h | h
    · exact hinv.disj it0 h0 h
    · have heqj : activeAt remaining it0 = jstar := List.mem_singleton.mp h
      rw [← hjeq] at heqj
      exact hne0 (hinj it0 h0 idxa hidxa heqj)
  · intro j hj
    by_cases hjs : j = jstar
    · subst hjs
      rw [getD_set_self false SC hjlenSC true]
      simp only [true_iff]
      exact List.mem_append.mpr (Or.inr (List.mem_singleton.mpr rfl))
    · rw [getD_set_ne false SC (fun heq => hjs heq.symm) true]
      rw [hinv.sc_iff j hj, List.mem_append, List.mem_singleton]
      exact (or_iff_left hjs).symm
  · intro p hp
    rw [treeRow_append]
    have hsecond : (row4col.getD jstar 0 = Int.ofNat p) ↔ p = i2 := by
      constructor
      · intro h
        exact (Int.ofNat.inj (hrow.symm.trans h)).symm
      · intro h
        rw [h]
        exact hrow
    by_cases hpi : p = i
    · subst hpi
      rw [getD_set_self false SR hilen true]
      constructor
      · intro _
        exact ⟨Or.inl (augInv_i_tree nr nc cost u v cur col4row row4col (nrem + 1) p
          min_val remaining path spc SR SC scanned hinv), hinoti2⟩
      · intro _
        rfl
    · rw [getD_set_ne false SR (fun heq => hpi heq.symm) true]
      by_cases hpi2 : p = i2
      · subst hpi2
        constructor
        · intro h
          exact absurd ((hinv.sr_iff p hp).mp h).1 hnotree_i2
        · intro h
          exact absurd rfl h.2
      · constructor
        · intro h
          exact ⟨Or.inl ((hinv.sr_iff p hp).mp h).1, hpi2⟩
        · intro h
          rcases h.1 with h2 | h2
          · exact (hinv.sr_iff p hp).mpr ⟨h2, hpi⟩
          · exact absurd (hsecond.mp h2) hpi2
  · intro j hj
    rcases List.mem_append.mp hj with h | h
    · exact hinv.scanned_matched j h
    · rw [List.mem_singleton.mp h]
      exact hcm
  · intro h
    exact absurd h (by simp)
  · intro jl hlast
    rw [List.getLast?_concat] at hlast
    have : jstar = jl := Option.some.inj hlast
    subst this
    exact ⟨hrow, hps.low_eq⟩
  · intro j hj
    rcases List.mem_append.mp hj with h | h
    · exact hps.allfin2 j (hinv.scanned_lt j h)
    · rw [List.mem_singleton.mp h]
      exact hps.allfin2 jstar hjnc
  · intro j hj
    rcases List.mem_append.mp hj with h | h
    · exact hps.scanned_below j h
    · rw [List.mem_singleton.mp h, hps.low_eq]
      exact le_refl _
  · intro it hit
    obtain ⟨it0, h0, _, hv⟩ := hmap it hit
    rw [hv]
    exact Or.inr ⟨hps.fin_active it0 h0, hps.above_new it0 h0⟩
  · intro m hm
    rw [List.length_append, List.length_singleton] at hm
    by_cases hmlen : m < scanned.length
    · obtain ⟨p, hpnr, hpath, hmemb, hev⟩ := hps.parent_scanned2 m hmlen
      refine ⟨p, hpnr, ?_, ?_, ?_⟩
      · rw [getD_append_lt 0 scanned [jstar] m hmlen]
        exact hpath
      · rcases hmemb with h | ⟨m2, hm2, hr⟩
        · exact Or.inl h
        · refine Or.inr ⟨m2, hm2, ?_⟩
          rw [getD_append_lt 0 scanned [jstar] m2 (by omega)]
          exact hr
      · rw [getD_append_lt 0 scanned [jstar] m hmlen]
        exact hev
    · have hmeq : m = scanned.length := by omega
      subst hmeq
      obtain ⟨p, hpnr, hpath, hmemb, hev⟩ := hps.parent_new idxa hidxa
      rw [hjeq] at hpath hev
      refine ⟨p, hpnr, ?_, ?_, ?_⟩
      · rw [getD_concat_self 0 scanned jstar]
        exact hpath
      · rcases hmemb with h | ⟨m2, hm2, hr⟩
        · exact Or.inl h
        · refine Or.inr ⟨m2, hm2, ?_⟩
          rw [getD_append_lt 0 scanned [jstar] m2 hm2]
          exact hr
      · rw [getD_concat_self 0 scanned jstar]
        exact hev
  · intro it hit hfin
    obtain ⟨it0, h0, _, hv⟩ := hmap it hit
    rw [hv] at hfin ⊢
    obtain ⟨p, hpnr, hpath, hmemb, hev⟩ := hps.parent_new it0 h0
    refine ⟨p, hpnr, hpath, ?_, hev⟩
    rcases hmemb with h | ⟨m2, hm2, hr⟩
    · exact Or.inl h
    · refine Or.inr ⟨m2, by rw [List.length_append, List.length_singleton]; omega, ?_⟩
      rw [getD_append_lt 0 scanned [jstar] m2 hm2]
      exact hr

/-- Unfolding one iteration of the augmenting-path loop when the scan
returned a chosen position. -/
theorem augLoop_succ_some (nc : ℕ) (cost u v : List FpVal) (row4col : List ℤ)
    (nrem i : ℕ) (min_val : FpVal) (remaining : List ℕ) (path : List ℤ)
    (spc : List FpVal) (SR SC : List Bool)
    (path2 : List ℤ) (spc2 : List FpVal) (lowest : FpVal) (index : ℕ)
    (hscan : augScan nc cost u v row4col i min_val (nrem + 1) remaining path spc =
      (path2, spc2, lowest, some index)) :
    augLoop nc cost u v row4col (nrem + 1) i min_val remaining path spc SR SC =
      if fpBeq lowest FpVal.pinf then none
      else if decide (row4col.getD (remaining.getD index 0) 0 = -1) then
        some (remaining.getD index 0, lowest, path2, spc2, SR.set i true,
          SC.set (remaining.getD index 0) true)
      else
        augLoop nc cost u v row4col nrem
          (if decide (row4col.getD (remaining.getD index 0) 0 = -1) then i
            else (row4col.getD (remaining.getD index 0) 0).toNat)
          lowest (remaining.set index (remaining.getD nrem 0)) path2 spc2
          (SR.set i true) (SC.set (remaining.getD index 0) true) := by
  conv_lhs => rw [augLoop]
  rw [hscan]

/-- The augmenting-path loop always succeeds under the loop invariant, and
its result satisfies the search output facts for some ghost scanned
list. -/
theorem augLoop_spec (nr nc : ℕ) (cost u v : List FpVal) (cur : ℕ)
    (col4row row4col : List ℤ)
    (hsolve : SolveInv nr nc cost cur u v col4row row4col)
    (hcur : cur < nr) (hnrnc : nr ≤ nc) (hfin : AllFinite nr nc cost) :
    ∀ nrem i min_val remaining path spc SR SC scanned,
    AugInv nr nc cost u v cur col4row row4col nrem i min_val remaining path spc SR SC
      scanned →
    ∃ sink mv2 path2 spc2 SR2 SC2 scanned2,
      augLoop nc cost u v row4col nrem i min_val remaining path spc SR SC =
        some (sink, mv2, path2, spc2, SR2, SC2) ∧
      AugOut nr nc cost u v cur col4row row4col sink mv2 path2 spc2 SR2 SC2 scanned2 := by
  intro nrem
  induction nrem with
  | zero =>
    intro i min_val remaining path spc SR SC scanned hinv
    exfalso
    have hlen : scanned.length = nc := by
      have := hinv.count
      omega
    have hrows : (scanned.map (matchedRow row4col)).Nodup := by
      refine List.Nodup.map_on ?_ hinv.nodup_scanned
      intro x hx y hy heq
      obtain ⟨_, _, hcx⟩ := hsolve.inverse2 x (hinv.scanned_lt x hx)
        (hinv.scanned_matched x hx)
      obtain ⟨_, _, hcy⟩ := hsolve.inverse2 y (hinv.scanned_lt y hy)
        (hinv.scanned_matched y hy)
      rw [heq] at hcx
      exact Int.ofNat.inj (hcx.symm.trans hcy)
    have hsub : (scanned.map (matchedRow row4col)) ⊆ List.range cur := by
      intro x hx
      obtain ⟨j, hj, rfl⟩ := List.mem_map.mp hx
      exact List.mem_range.mpr (hsolve.inverse2 j (hinv.scanned_lt j hj)
        (hinv.scanned_matched j hj)).1
    have hle := (hrows.subperm hsub).length_le
    rw [List.length_map, hlen, List.length_range] at hle
    omega
  | succ nrem ih =>
    intro i min_val remaining path spc SR SC scanned hinv
    rcases hscan : augScan nc cost u v row4col i min_val (nrem + 1) remaining path spc with
      ⟨path2, spc2, lowest, indexOpt⟩
    cases indexOpt with
    | none =>
      exfalso
      have hSO := augScan_spec nc cost u v row4col i min_val remaining path spc
        hinv.spclen hinv.pathlen (hsolve.ufin i hinv.ilt) hinv.mvfin (nrem + 1)
        hinv.active_lt (inj_of_nodup_map_range hinv.nodup_active)
        (fun it hit => hfin _ (flat_lt hinv.ilt (hinv.active_lt it hit)))
        (fun it hit => hsolve.vfin _ (hinv.active_lt it hit))
      rw [hscan] at hSO
      have hlow : lowest = FpVal.pinf := hSO.nochoice rfl
      have hnolow0 : fpLt (spc2.getD (activeAt remaining 0) fpD) lowest = false :=
        hSO.nolower 0 (Nat.succ_pos nrem)
      rw [hlow] at hnolow0
      have hfin0 : IsFinV (spc2.getD (activeAt remaining 0) fpD) := by
        rcases hinv.above_mv 0 (Nat.succ_pos nrem) with hpinf | ⟨hfinold, _⟩
        · have himp := hSO.improved 0 (Nat.succ_pos nrem)
            (by rw [hpinf]; exact fpLt_fin_pinf _)
          rw [himp.2]
          exact isFinV_fin _
        · cases hc : fpLt
              (FpVal.fin (toQ min_val + redQ nc cost u v i (activeAt remaining 0)))
              (spc.getD (activeAt remaining 0) fpD)
          · have hk := hSO.kept 0 (Nat.succ_pos nrem) hc
            rw [hk.2]
            exact hfinold
          · have himp := hSO.improved 0 (Nat.succ_pos nrem) hc
            rw [himp.2]
            exact isFinV_fin _
      rw [hfin0] at hnolow0
      rw [fpLt_fin_pinf] at hnolow0
      exact Bool.noConfusion hnolow0
    | some idxa =>
      obtain ⟨hps, hidxa⟩ := postScan_of nr nc cost u v cur col4row row4col (nrem + 1) i
        min_val remaining path spc SR SC scanned hsolve hcur hfin hinv path2 spc2
        lowest idxa hscan
      have hbeq : fpBeq lowest FpVal.pinf = false := isFinV_fpBeq_pinf hps.low_fin
      rw [augLoop_succ_some nc cost u v row4col nrem i min_val remaining path spc SR SC
        path2 spc2 lowest idxa hscan, hbeq, if_neg (by decide : ¬ false = true)]
      by_cases hsink : row4col.getD (remaining.getD idxa 0) 0 = -1
      · have hsd : decide (row4col.getD (remaining.getD idxa 0) 0 = -1) = true :=
          decide_eq_true hsink
        rw [hsd, if_pos rfl]
        refine ⟨remaining.getD idxa 0, lowest, path2, spc2, SR.set i true,
          SC.set (remaining.getD idxa 0) true, scanned ++ [remaining.getD idxa 0],
          rfl, ?_⟩
        exact augStep_sink nr nc cost u v cur col4row row4col (nrem + 1) i min_val
          remaining path spc SR SC scanned path2 spc2 lowest (remaining.getD idxa 0)
          hsolve hinv hps hsink
      · have hsd : decide (row4col.getD (remaining.getD idxa 0) 0 = -1) = false :=
          decide_eq_false hsink
        rw [hsd, if_neg (by decide : ¬ false = true), if_neg (by decide : ¬ false = true)]
        exact ih (row4col.getD (remaining.getD idxa 0) 0).toNat lowest
          (remaining.set idxa (remaining.getD nrem 0)) path2 spc2 (SR.set i true)
          (SC.set (remaining.getD idxa 0) true) (scanned ++ [remaining.getD idxa 0])
          (augStep_next nr nc cost u v cur col4row row4col nrem i min_val remaining
            path spc SR SC scanned path2 spc2 lowest idxa (remaining.getD idxa 0)
            (row4col.getD (remaining.getD idxa 0) 0).toNat hsolve hcur hinv hps hidxa
            rfl hsink rfl)

/-- getD of a replicate inside range. -/
theorem getD_replicate {α : Type} (d a : α) (n m : ℕ) (h : m < n) :
    (List.replicate n a).getD m d = a := by
  rw [List.getD_eq_getElem _ _ (by simpa using h)]
  exact List.getElem_replicate a _

/-- The invariant at the entry of the augmenting-path search. -/
theorem augInv_init (nr nc : ℕ) (cost u v : List FpVal) (cur : ℕ)
    (col4row row4col : List ℤ) (path : List ℤ)
    (hsolve : SolveInv nr nc cost cur u v col4row row4col)
    (hcur : cur < nr) (hpathlen : path.length = nc) :
    AugInv nr nc cost u v cur col4row row4col nc cur (FpVal.fin 0)
      ((List.range nc).map (fun it => nc - it - 1)) path
      (List.replicate nc FpVal.pinf) (List.replicate nr false)
      (List.replicate nc false) [] := by
  have hval : ∀ it, it < nc →
      activeAt ((List.range nc).map (fun it => nc - it - 1)) it = nc - it - 1 := by
    intro it hit
    unfold activeAt
    rw [List.getD_eq_getElem _ _ (by simpa using hit)]
    simp
  refine ⟨by simp, hpathlen, by simp, by simp, by simp, by simp, ?_, ?_,
    fun j hj => absurd hj (List.not_mem_nil j), List.nodup_nil,
    fun it hit => List.not_mem_nil _, ?_, ?_, fun j hj => absurd hj (List.not_mem_nil j),
    hcur, fun _ => ⟨rfl, rfl⟩, (fun jl h => nomatch h), isFinV_fin 0,
    fun j hj => absurd hj (List.not_mem_nil j), fun h => absurd rfl h,
    fun j hj => absurd hj (List.not_mem_nil j), ?_, ?_,
    fun m hm => absurd hm (Nat.not_lt_zero m), ?_⟩
  · refine nodup_map_range_of_inj ?_
    intro it1 h1 it2 h2 heq
    rw [hval it1 h1, hval it2 h2] at heq
    omega
  · intro it hit
    rw [hval it hit]
    omega
  · intro j hj
    rw [getD_replicate false false nc j hj]
    constructor
    · intro h
      exact Bool.noConfusion h
    · intro h
      exact absurd h (List.not_mem_nil j)
  · intro p hp
    rw [getD_replicate false false nr p hp]
    constructor
    · intro h
      exact Bool.noConfusion h
    · rintro ⟨h | ⟨jm, hjm, _⟩, hne⟩
      · exact absurd h hne
      · exact absurd hjm (List.not_mem_nil jm)
  · intro it hit
    left
    exact getD_replicate fpD FpVal.pinf nc _ (by rw [hval it hit]; omega)
  · intro p hp h
    rw [getD_replicate false false nr p hp] at h
    exact absurd h (by decide)
  · intro it hit hfin
    rw [getD_replicate fpD FpVal.pinf nc _ (by rw [hval it hit]; omega)] at hfin
    exact absurd hfin (by intro hx; exact FpVal.noConfusion hx)

/-- The augmenting-path search always succeeds under the main invariant,
and its result satisfies the search output facts. -/
theorem AugmentingPath_spec (nr nc : ℕ) (cost u v : List FpVal) (cur : ℕ)
    (col4row row4col : List ℤ) (path : List ℤ) (spc : List FpVal) (SR SC : List Bool)
    (hsolve : SolveInv nr nc cost cur u v col4row row4col)
    (hcur : cur < nr) (hnrnc : nr ≤ nc) (hfin : AllFinite nr nc cost)
    (hpathlen : path.length = nc) (hspclen : spc.length = nc)
    (hsrlen : SR.length = nr) (hsclen : SC.length = nc) :
    ∃ sink mv2 path2 spc2 SR2 SC2 scanned2,
      AugmentingPath nc cost u v path row4col spc SR SC cur =
        some (sink, mv2, path2, spc2, SR2, SC2) ∧
      AugOut nr nc cost u v cur col4row row4col sink mv2 path2 spc2 SR2 SC2 scanned2 := by
  unfold AugmentingPath
  rw [hspclen, hsrlen, hsclen]
  exact augLoop_spec nr nc cost u v cur col4row row4col hsolve hcur hnrnc hfin nc cur
    (FpVal.fin 0) ((List.range nc).map (fun it => nc - it - 1)) path
    (List.replicate nc FpVal.pinf) (List.replicate nr false) (List.replicate nc false) []
    (augInv_init nr nc cost u v cur col4row row4col path hsolve hcur hpathlen)

/-- getD does not depend on the default inside the range. -/
theorem getD_irrel {α : Type} (l : List α) (m : ℕ) (d1 d2 : α) (h : m < l.length) :
    l.getD m d1 = l.getD m d2 := by
  rw [List.getD_eq_getElem _ _ h, List.getD_eq_getElem _ _ h]

/-- A natural-number literal cast to ℤ is never -1. -/
theorem ofNat_ne_negone (n : ℕ) : Int.ofNat n ≠ -1 := by
  rw [Int.ofNat_eq_natCast]
  omega

/-- Positions of a Nodup list carrying equal values coincide. -/
theorem nodup_getD_inj {l : List ℕ} (h : l.Nodup) {m1 m2 : ℕ}
    (h1 : m1 < l.length) (h2 : m2 < l.length) (heq : l.getD m1 0 = l.getD m2 0) :
    m1 = m2 := by
  rw [List.getD_eq_getElem _ _ h1, List.getD_eq_getElem _ _ h2] at heq
  have hv : l.get ⟨m1, h1⟩ = l.get ⟨m2, h2⟩ := heq
  exact Fin.mk.inj_iff.mp ((List.Nodup.get_inj_iff h).mp hv)

/-- The matched row determines the matched column. -/
theorem matchedRow_inj (nr nc : ℕ) (cost : List FpVal) (cur : ℕ) (u v : List FpVal)
    (col4row row4col : List ℤ)
    (hsolve : SolveInv nr nc cost cur u v col4row row4col)
    {j1 j2 : ℕ} (h1 : j1 < nc) (h2 : j2 < nc)
    (hm1 : colMatched row4col j1) (hm2 : colMatched row4col j2)
    (heq : matchedRow row4col j1 = matchedRow row4col j2) : j1 = j2 := by
  obtain ⟨_, _, hc1⟩ := hsolve.inverse2 j1 h1 hm1
  obtain ⟨_, _, hc2⟩ := hsolve.inverse2 j2 h2 hm2
  rw [heq] at hc1
  exact Int.ofNat.inj (hc1.symm.trans hc2)

/-- Unfolding one step of the predecessor walk. -/
theorem walk_succ (path : List ℤ) (cur fuel j : ℕ) (r4c c4r : List ℤ) :
    AugmentPreviousSolution path cur (fuel + 1) j r4c c4r =
      if path.getD j (-1) = Int.ofNat cur then
        (r4c.set j (path.getD j (-1)), c4r.set (path.getD j (-1)).toNat (Int.ofNat j))
      else
        AugmentPreviousSolution path cur fuel
          (c4r.getD (path.getD j (-1)).toNat 0).toNat
          (r4c.set j (path.getD j (-1)))
          (c4r.set (path.getD j (-1)).toNat (Int.ofNat j)) := by
  conv_lhs => rw [AugmentPreviousSolution]

/-- The predecessor walk of AugmentPreviousSolution, started at the
scanned column of index m with enough fuel, terminates at the current
row and updates the two matching arrays exactly along the visited
alternating path. -/
theorem walk_spec (nr nc : ℕ) (cost u v : List FpVal) (cur : ℕ)
    (col4row row4col : List ℤ) (sink : ℕ) (mv : FpVal) (path2 : List ℤ)
    (spc2 : List FpVal) (SR2 SC2 : List Bool) (scanned : List ℕ)
    (hsolve : SolveInv nr nc cost cur u v col4row row4col)
    (hout : AugOut nr nc cost u v cur col4row row4col sink mv path2 spc2 SR2 SC2 scanned)
    (hcur : cur < nr) :
    ∀ m, m < scanned.length → ∀ fuel, m < fuel → ∀ r4c c4r : List ℤ,
    r4c.length = nc → c4r.length = nr →
    c4r.getD cur 0 = col4row.getD cur 0 →
    (∀ m2, m2 < m → m2 < scanned.length - 1 →
      c4r.getD (matchedRow row4col (scanned.getD m2 0)) 0 =
        col4row.getD (matchedRow row4col (scanned.getD m2 0)) 0) →
    ∃ wcols, WalkOut nr nc cur row4col path2 scanned m r4c c4r
      (AugmentPreviousSolution path2 cur fuel (scanned.getD m 0) r4c c4r) wcols := by
  intro m
  induction m using Nat.strong_induction_on with
  | _ m ih =>
    intro hm fuel hfuel r4c c4r hr4clen hc4rlen hagrcur hagrrow
    have hmemj : scanned.getD m 0 ∈ scanned := (mem_iff_getD scanned _).mpr ⟨m, hm, rfl⟩
    have hjnc : scanned.getD m 0 < nc := hout.scanned_lt _ hmemj
    obtain ⟨p, hpnr, hppath, hpmem, _⟩ := hout.parent_scanned m hm
    cases fuel with
    | zero => omega
    | succ fuel =>
      rw [walk_succ path2 cur fuel (scanned.getD m 0) r4c c4r]
      rw [getD_irrel path2 (scanned.getD m 0) (-1) 0 (by rw [hout.pathlen]; exact hjnc)]
      rw [hppath]
      by_cases hp : p = cur
      · rw [if_pos (by rw [hp])]
        refine ⟨[scanned.getD m 0], ?_, rfl, ?_, List.nodup_singleton _,
          ?_, ?_, ?_, by simp, by simp, ?_, ?_, ?_, ?_, ?_⟩
        · simp
        · intro w hw
          exact ⟨m, le_refl m, hm, (List.mem_singleton.mp hw).symm⟩
        · intro t ht
          exact absurd ht (by simp)
        · exact hppath.trans (by rw [hp])
        · intro t ht
          exact absurd ht (by simp)
        · intro j2 hj2
          exact getD_set_ne 0 r4c
            (fun heq => hj2 (by rw [← heq]; exact List.mem_singleton.mpr rfl)) _
        · intro w hw
          rw [List.mem_singleton.mp hw]
          exact (getD_set_self 0 r4c (by rw [hr4clen]; exact hjnc) _).trans hppath.symm
        · intro p2 hp2
          have hne : (Int.ofNat p).toNat ≠ p2 := by
            intro heq
            exact hp2 (scanned.getD m 0) (List.mem_singleton.mpr rfl)
              (by rw [hppath]; exact heq)
          exact getD_set_ne 0 c4r hne _
        · intro w hw
          rw [List.mem_singleton.mp hw]
          have hres : (c4r.set (Int.ofNat p).toNat (Int.ofNat (scanned.getD m 0))).getD
              (Int.ofNat p).toNat 0 = Int.ofNat (scanned.getD m 0) :=
            getD_set_self 0 c4r (by rw [hc4rlen]; show p < nr; exact hpnr) _
          rw [hppath]
          exact hres
        · intro w hw
          rw [List.mem_singleton.mp hw, hppath]
          exact ⟨rfl, hpnr⟩
      · rw [if_neg (fun heq => hp (Int.ofNat.inj heq))]
        rcases hpmem with hpc | ⟨m2, hm2, hrow2⟩
        · exact absurd hpc hp
        have hm2len : m2 < scanned.length := by omega
        have hm2top : m2 < scanned.length - 1 := by omega
        have hmemj2 : scanned.getD m2 0 ∈ scanned := (mem_iff_getD scanned _).mpr ⟨m2, hm2len, rfl⟩
        have hj2nc : scanned.getD m2 0 < nc := hout.scanned_lt _ hmemj2
        have hj2nsink : scanned.getD m2 0 ≠ sink := by
          intro heq
          have hsl := hout.sink_last
          rw [getLast?_getD 0 scanned (by
            intro hnil
            rw [hnil] at hm
            simp at hm)] at hsl
          have hse : scanned.getD (scanned.length - 1) 0 = sink := Option.some.inj hsl
          have := nodup_getD_inj hout.nodup_scanned hm2len (by omega) (heq.trans hse.symm)
          omega
        have hcm2 : colMatched row4col (scanned.getD m2 0) :=
          hout.other_matched _ hmemj2 hj2nsink
        obtain ⟨hmrlt, hmre, hmc4⟩ := hsolve.inverse2 _ hj2nc hcm2
        have hmr : matchedRow row4col (scanned.getD m2 0) = p :=
          Int.ofNat.inj (hmre.symm.trans hrow2)
        have hc4p : col4row.getD p 0 = Int.ofNat (scanned.getD m2 0) := by
          rw [← hmr]
          exact hmc4
        have hplt : p < cur := by
          rw [← hmr]
          exact hmrlt
        have hjnext : (c4r.getD (Int.ofNat p).toNat 0).toNat = scanned.getD m2 0 := by
          show (c4r.getD p 0).toNat = _
          have hag := hagrrow m2 hm2 hm2top
          rw [hmr] at hag
          rw [hag, hc4p]
          rfl
        rw [hjnext]
        have hagrcur2 : (c4r.set (Int.ofNat p).toNat
            (Int.ofNat (scanned.getD m 0))).getD cur 0 = col4row.getD cur 0 := by
          have hne : (Int.ofNat p).toNat ≠ cur := by
            show p ≠ cur
            exact hp
          rw [getD_set_ne 0 c4r hne _]
          exact hagrcur
        have hagrrow2 : ∀ m3, m3 < m2 → m3 < scanned.length - 1 →
            (c4r.set (Int.ofNat p).toNat (Int.ofNat (scanned.getD m 0))).getD
              (matchedRow row4col (scanned.getD m3 0)) 0 =
            col4row.getD (matchedRow row4col (scanned.getD m3 0)) 0 := by
          intro m3 hm3 hm3top
          have hmemj3 : scanned.getD m3 0 ∈ scanned :=
            (mem_iff_getD scanned _).mpr ⟨m3, by omega, rfl⟩
          have hj3nc : scanned.getD m3 0 < nc := hout.scanned_lt _ hmemj3
          have hj3nsink : scanned.getD m3 0 ≠ sink := by
            intro heq
            have hsl := hout.sink_last
            rw [getLast?_getD 0 scanned (by
              intro hnil
              rw [hnil] at hm
              simp at hm)] at hsl
            have hse : scanned.getD (scanned.length - 1) 0 = sink := Option.some.inj hsl
            have := nodup_getD_inj hout.nodup_scanned (by omega : m3 < scanned.length)
              (by omega) (heq.trans hse.symm)
            omega
          have hcm3 : colMatched row4col (scanned.getD m3 0) :=
            hout.other_matched _ hmemj3 hj3nsink
          have hne : (Int.ofNat p).toNat ≠ matchedRow row4col (scanned.getD m3 0) := by
            show p ≠ _
            intro heq
            have hjj : scanned.getD m2 0 = scanned.getD m3 0 :=
              matchedRow_inj nr nc cost cur u v col4row row4col hsolve hj2nc hj3nc
                hcm2 hcm3 (by rw [hmr, heq])
            have := nodup_getD_inj hout.nodup_scanned hm2len (by omega) hjj
            omega
          rw [getD_set_ne 0 c4r hne _]
          exact hagrrow m3 (by omega) hm3top
        obtain ⟨wcols2, hW⟩ := ih m2 hm2 hm2len fuel (by omega)
          (r4c.set (scanned.getD m 0) (Int.ofNat p))
          (c4r.set (Int.ofNat p).toNat (Int.ofNat (scanned.getD m 0)))
          (by rw [List.length_set]; exact hr4clen)
          (by rw [List.length_set]; exact hc4rlen)
          hagrcur2 hagrrow2
        -- facts about the tail walk
        have hlen2 := hW.nonempty
        have hhead2 := hW.head
        have hjnotin : scanned.getD m 0 ∉ wcols2 := by
          intro hmem
          obtain ⟨mw, hmwle, hmwlen, hmweq⟩ := hW.subset _ hmem
          have := nodup_getD_inj hout.nodup_scanned hmwlen hm hmweq
          omega
        have hw1mem : wcols2.getD 0 0 ∈ wcols2 :=
          (mem_iff_getD wcols2 _).mpr ⟨0, by omega, rfl⟩
        have hprowdisj : ∀ w ∈ wcols2, (path2.getD w 0).toNat ≠ p := by
          intro w hw heq
          obtain ⟨t, ht, hteq⟩ := (mem_iff_getD wcols2 w).mp hw
          by_cases htlast : t = wcols2.length - 1
          · have hlast := hW.last_cur
            rw [htlast] at hteq
            rw [hteq] at hlast
            rw [hlast] at heq
            exact hp (heq.symm ▸ rfl)
          · have hchain := hW.chain t (by omega)
            rw [hteq] at hchain
            have hsucc_mem : wcols2.getD (t + 1) 0 ∈ wcols2 :=
              (mem_iff_getD wcols2 _).mpr ⟨t + 1, by omega, rfl⟩
            obtain ⟨ms, hmsle, hmslen, hmseq⟩ := hW.subset _ hsucc_mem
            have hsnc : wcols2.getD (t + 1) 0 < nc := hout.scanned_lt _
              ((mem_iff_getD scanned _).mpr ⟨ms, hmslen, hmseq⟩)
            have hjj : wcols2.getD (t + 1) 0 = scanned.getD m2 0 :=
              matchedRow_inj nr nc cost cur u v col4row row4col hsolve hsnc hj2nc
                hchain.2 hcm2 (by rw [← hchain.1, heq, hmr])
            have hne01 : wcols2.getD (t + 1) 0 ≠ wcols2.getD 0 0 := by
              intro he
              have := nodup_getD_inj hW.nodup (by omega) (by omega) he
              omega
            rw [hhead2] at hne01
            exact hne01 (hjj.trans rfl)
        refine ⟨scanned.getD m 0 :: wcols2, by simp, rfl, ?_, ?_, ?_, ?_, ?_,
          by rw [hW.r4clen, List.length_set], by rw [hW.c4rlen, List.length_set],
          ?_, ?_, ?_, ?_, ?_⟩
        · intro w hw
          rcases List.mem_cons.mp hw with rfl | hw2
          · exact ⟨m, le_refl m, hm, rfl⟩
          · obtain ⟨mw, hmwle, hmwlen, hmweq⟩ := hW.subset _ hw2
            exact ⟨mw, by omega, hmwlen, hmweq⟩
        · exact List.Nodup.cons hjnotin hW.nodup
        · intro t ht
          rw [List.length_cons] at ht
          cases t with
          | zero =>
            rw [List.getD_cons_zero, List.getD_cons_succ, hhead2, hppath]
            constructor
            · show p = _
              rw [hmr]
            · exact hcm2
          | succ t =>
            rw [List.getD_cons_succ, List.getD_cons_succ]
            exact hW.chain t (by omega)
        · obtain ⟨k, hk⟩ : ∃ k, wcols2.length = k + 1 := ⟨wcols2.length - 1, by omega⟩
          rw [List.length_cons, hk]
          have hl := hW.last_cur
          rw [hk] at hl
          rw [show k + 1 + 1 - 1 = k + 1 from rfl, List.getD_cons_succ]
          have : k + 1 - 1 = k := rfl
          rw [this] at hl
          exact hl
        · intro t ht
          rw [List.length_cons] at ht
          cases t with
          | zero =>
            rw [List.getD_cons_zero, hppath]
            show ¬ p = cur
            exact hp
          | succ t =>
            rw [List.getD_cons_succ]
            exact hW.notcur t (by omega)
        · intro j2 hj2
          have hj2ne : j2 ≠ scanned.getD m 0 := fun he => hj2 (he ▸ List.mem_cons_self _ _)
          have hj2nt : j2 ∉ wcols2 := fun he => hj2 (List.mem_cons_of_mem _ he)
          rw [hW.r4c_unchanged j2 hj2nt]
          exact getD_set_ne 0 r4c (fun he => hj2ne he.symm) _
        · intro w hw
          rcases List.mem_cons.mp hw with rfl | hw2
          · rw [hW.r4c_unchanged _ hjnotin]
            exact (getD_set_self 0 r4c (by rw [hr4clen]; exact hjnc) _).trans hppath.symm
          · exact hW.r4c_new w hw2
        · intro p2 hp2
          have hp2t : ∀ w ∈ wcols2, (path2.getD w 0).toNat ≠ p2 :=
            fun w hw => hp2 w (List.mem_cons_of_mem _ hw)
          have hp2h : (Int.ofNat p).toNat ≠ p2 := by
            intro he
            exact hp2 (scanned.getD m 0) (List.mem_cons_self _ _) (by rw [hppath]; exact he)
          rw [hW.c4r_unchanged p2 hp2t]
          exact getD_set_ne 0 c4r hp2h _
        · intro w hw
          rcases List.mem_cons.mp hw with rfl | hw2
          · have hd : ∀ w2 ∈ wcols2, (path2.getD w2 0).toNat ≠
                (path2.getD (scanned.getD m 0) 0).toNat := by
              intro w2 hw2 he
              exact hprowdisj w2 hw2 (by rw [he, hppath]; rfl)
            rw [hW.c4r_unchanged _ hd, hppath]
            exact getD_set_self 0 c4r (by rw [hc4rlen]; show p < nr; exact hpnr) _
          · exact hW.c4r_new w hw2
        · intro w hw
          rcases List.mem_cons.mp hw with rfl | hw2
          · rw [hppath]
            exact ⟨rfl, hpnr⟩
          · exact hW.rows_ok w hw2

/-- Pointwise characterization of the u dual update fold. -/
theorem uFold_spec (SR2 : List Bool) (cur_row : ℕ) (min_val : FpVal)
    (spc2 : List FpVal) (col4row : List ℤ) :
    ∀ (n : ℕ) (t : List FpVal),
      ((List.range n).foldl
        (fun uu i =>
          if SR2.getD i false ∧ i ≠ cur_row then
            uu.set i (fpAdd (uu.getD i fpD)
              (fpSub min_val (spc2.getD (col4row.getD i 0).toNat fpD)))
          else uu) t).length = t.length ∧
      ∀ p, p < t.length →
        ((List.range n).foldl
          (fun uu i =>
            if SR2.getD i false ∧ i ≠ cur_row then
              uu.set i (fpAdd (uu.getD i fpD)
                (fpSub min_val (spc2.getD (col4row.getD i 0).toNat fpD)))
            else uu) t).getD p fpD =
          if p < n ∧ SR2.getD p false = true ∧ p ≠ cur_row then
            fpAdd (t.getD p fpD) (fpSub min_val (spc2.getD (col4row.getD p 0).toNat fpD))
          else t.getD p fpD := by
  intro n
  induction n with
  | zero =>
    intro t
    refine ⟨rfl, fun p hp => ?_⟩
    rw [if_neg (fun h => Nat.not_lt_zero p h.1)]
    rfl
  | succ n ih =>
    intro t
    obtain ⟨ihlen, ihval⟩ := ih t
    rw [List.range_succ, List.foldl_append, List.foldl_cons, List.foldl_nil]
    by_cases hP : SR2.getD n false = true ∧ ¬ n = cur_row
    · rw [if_pos hP]
      refine ⟨by rw [List.length_set]; exact ihlen, fun p hp => ?_⟩
      by_cases hpn : p = n
      · subst hpn
        rw [getD_set_self fpD _ (by rw [ihlen]; exact hp) _, ihval p hp,
          if_neg (fun h => Nat.lt_irrefl p h.1),
          if_pos ⟨Nat.lt_succ_self p, hP.1, hP.2⟩]
      · rw [getD_set_ne fpD _ (fun he => hpn he.symm) _, ihval p hp]
        have hiff : (p < n ∧ SR2.getD p false = true ∧ p ≠ cur_row) ↔
            (p < n + 1 ∧ SR2.getD p false = true ∧ p ≠ cur_row) := by
          constructor
          · rintro ⟨h1, h2⟩
            exact ⟨by omega, h2⟩
          · rintro ⟨h1, h2⟩
            exact ⟨by omega, h2⟩
        rw [if_congr hiff rfl rfl]
    · rw [if_neg hP]
      refine ⟨ihlen, fun p hp => ?_⟩
      rw [ihval p hp]
      have hiff : (p < n ∧ SR2.getD p false = true ∧ p ≠ cur_row) ↔
          (p < n + 1 ∧ SR2.getD p false = true ∧ p ≠ cur_row) := by
        constructor
        · rintro ⟨h1, h2⟩
          exact ⟨by omega, h2⟩
        · rintro ⟨h1, h2, h3⟩
          rcases Nat.lt_succ_iff_lt_or_eq.mp h1 with h | h
          · exact ⟨h, h2, h3⟩
          · subst h
            exact absurd ⟨h2, h3⟩ hP
      rw [if_congr hiff rfl rfl]

/-- Pointwise characterization of the v dual update fold. -/
theorem vFold_spec (SC2 : List Bool) (min_val : FpVal) (spc2 : List FpVal) :
    ∀ (n : ℕ) (t : List FpVal),
      ((List.range n).foldl
        (fun vv j =>
          if SC2.getD j false then
            vv.set j (fpSub (vv.getD j fpD) (fpSub min_val (spc2.getD j fpD)))
          else vv) t).length = t.length ∧
      ∀ p, p < t.length →
        ((List.range n).foldl
          (fun vv j =>
            if SC2.getD j false then
              vv.set j (fpSub (vv.getD j fpD) (fpSub min_val (spc2.getD j fpD)))
            else vv) t).getD p fpD =
          if p < n ∧ SC2.getD p false = true then
            fpSub (t.getD p fpD) (fpSub min_val (spc2.getD p fpD))
          else t.getD p fpD := by
  intro n
  induction n with
  | zero =>
    intro t
    refine ⟨rfl, fun p hp => ?_⟩
    rw [if_neg (fun h => Nat.not_lt_zero p h.1)]
    rfl
  | succ n ih =>
    intro t
    obtain ⟨ihlen, ihval⟩ := ih t
    rw [List.range_succ, List.foldl_append, List.foldl_cons, List.foldl_nil]
    by_cases hP : SC2.getD n false = true
    · rw [if_pos hP]
      refine ⟨by rw [List.length_set]; exact ihlen, fun p hp => ?_⟩
      by_cases hpn : p = n
      · subst hpn
        rw [getD_set_self fpD _ (by rw [ihlen]; exact hp) _, ihval p hp,
          if_neg (fun h => Nat.lt_irrefl p h.1),
          if_pos ⟨Nat.lt_succ_self p, hP⟩]
      · rw [getD_set_ne fpD _ (fun he => hpn he.symm) _, ihval p hp]
        have hiff : (p < n ∧ SC2.getD p false = true) ↔
            (p < n + 1 ∧ SC2.getD p false = true) := by
          constructor
          · rintro ⟨h1, h2⟩
            exact ⟨by omega, h2⟩
          · rintro ⟨h1, h2⟩
            exact ⟨by omega, h2⟩
        rw [if_congr hiff rfl rfl]
    · rw [if_neg hP]
      refine ⟨ihlen, fun p hp => ?_⟩
      rw [ihval p hp]
      have hiff : (p < n ∧ SC2.getD p false = true) ↔
          (p < n + 1 ∧ SC2.getD p false = true) := by
        constructor
        · rintro ⟨h1, h2⟩
          exact ⟨by omega, h2⟩
        · rintro ⟨h1, h2⟩
          rcases Nat.lt_succ_iff_lt_or_eq.mp h1 with h | h
          · exact ⟨h, h2⟩
          · subst h
            exact absurd h2 hP
      rw [if_congr hiff rfl rfl]

/-- Reduction of one main-loop iteration once the search result is known. -/
theorem solveStep_eq (nr2 nc2 : ℕ) (cost spc0 : List FpVal) (SR0 SC0 : List Bool)
    (u v : List FpVal) (path col4row row4col : List ℤ) (cur_row : ℕ)
    (sink : ℕ) (min_val : FpVal) (path2 : List ℤ) (spc2 : List FpVal)
    (SR2 SC2 : List Bool)
    (hap : AugmentingPath nc2 cost u v path row4col spc0 SR0 SC0 cur_row =
      some (sink, min_val, path2, spc2, SR2, SC2)) :
    solveStep nr2 nc2 cost spc0 SR0 SC0 (u, v, path, col4row, row4col) cur_row =
      some ((List.range nr2).foldl
        (fun uu i =>
          if SR2.getD i false ∧ i ≠ cur_row then
            uu.set i (fpAdd (uu.getD i fpD)
              (fpSub min_val (spc2.getD (col4row.getD i 0).toNat fpD)))
          else uu) (u.set cur_row (fpAdd (u.getD cur_row fpD) min_val)),
        (List.range nc2).foldl
          (fun vv j =>
            if SC2.getD j false then
              vv.set j (fpSub (vv.getD j fpD) (fpSub min_val (spc2.getD j fpD)))
            else vv) v,
        path2,
        (AugmentPreviousSolution path2 cur_row (nc2 + 1) sink row4col col4row).2,
        (AugmentPreviousSolution path2 cur_row (nc2 + 1) sink row4col col4row).1) := by
  show (match AugmentingPath nc2 cost u v path row4col spc0 SR0 SC0 cur_row with
    | none => none
    | some (sink, min_val, path2, spc2, SR2, SC2) =>
      let u1 := u.set cur_row (fpAdd (u.getD cur_row fpD) min_val)
      let u2 := (List.range nr2).foldl
        (fun (uu : List FpVal) i =>
          if SR2.getD i false ∧ i ≠ cur_row then
            uu.set i (fpAdd (uu.getD i fpD)
              (fpSub min_val (spc2.getD (col4row.getD i 0).toNat fpD)))
          else uu) u1
      let v2 := (List.range nc2).foldl
        (fun (vv : List FpVal) j =>
          if SC2.getD j false then
            vv.set j (fpSub (vv.getD j fpD) (fpSub min_val (spc2.getD j fpD)))
          else vv) v
      match AugmentPreviousSolution path2 cur_row (nc2 + 1) sink row4col col4row with
      | (row4col2, col4row2) => some (u2, v2, path2, col4row2, row4col2)) = _
  rw [hap]

/-- Global facts about the walk columns: membership in the scanned list,
the sink at the head, injectivity of the new rows, the current row at the
tail, and predecessor/successor structure through the old matching. -/
theorem walk_global (nr nc : ℕ) (cost u v : List FpVal) (cur : ℕ)
    (col4row row4col : List ℤ) (sink : ℕ) (mv : FpVal) (path2 : List ℤ)
    (spc2 : List FpVal) (SR2 SC2 : List Bool) (scanned : List ℕ)
    (r4c c4r : List ℤ) (res : List ℤ × List ℤ) (W : List ℕ)
    (hsolve : SolveInv nr nc cost cur u v col4row row4col)
    (hout : AugOut nr nc cost u v cur col4row row4col sink mv path2 spc2 SR2 SC2 scanned)
    (hsinkidx : scanned.getD (scanned.length - 1) 0 = sink)
    (hW : WalkOut nr nc cur row4col path2 scanned (scanned.length - 1) r4c c4r res W) :
    (∀ w ∈ W, w ∈ scanned) ∧ sink ∈ W ∧
    (∀ w1 ∈ W, ∀ w2 ∈ W,
      (path2.getD w1 0).toNat = (path2.getD w2 0).toNat → w1 = w2) ∧
    (∃ wl ∈ W, (path2.getD wl 0).toNat = cur) ∧
    (∀ w ∈ W, w ≠ sink → ∃ w2 ∈ W, (path2.getD w2 0).toNat = matchedRow row4col w) ∧
    (∀ w ∈ W, (path2.getD w 0).toNat = cur ∨ ((path2.getD w 0).toNat < cur ∧
      ∃ w2 ∈ W, w2 ≠ sink ∧ matchedRow row4col w2 = (path2.getD w 0).toNat ∧
        colMatched row4col w2)) := by
  have hWmem : ∀ w ∈ W, w ∈ scanned := by
    intro w hw
    obtain ⟨mw, _, hmwlen, hmweq⟩ := hW.subset w hw
    exact (mem_iff_getD scanned w).mpr ⟨mw, hmwlen, hmweq⟩
  have hWnc : ∀ w ∈ W, w < nc := fun w hw => hout.scanned_lt w (hWmem w hw)
  have hWhead : W.getD 0 0 = sink := hW.head.trans hsinkidx
  have hlenW := hW.nonempty
  have hsinkW : sink ∈ W := by
    rw [← hWhead]
    exact (mem_iff_getD W _).mpr ⟨0, by omega, rfl⟩
  have hinj : ∀ w1 ∈ W, ∀ w2 ∈ W,
      (path2.getD w1 0).toNat = (path2.getD w2 0).toNat → w1 = w2 := by
    intro w1 hw1 w2 hw2 heq
    obtain ⟨t1, ht1, he1⟩ := (mem_iff_getD W w1).mp hw1
    obtain ⟨t2, ht2, he2⟩ := (mem_iff_getD W w2).mp hw2
    by_cases hc1 : (path2.getD w1 0).toNat = cur
    · have hc2 : (path2.getD w2 0).toNat = cur := by rw [← heq]; exact hc1
      have hl1 : t1 = W.length - 1 := by
        by_contra h
        exact hW.notcur t1 (by omega) (by rw [he1]; exact hc1)
      have hl2 : t2 = W.length - 1 := by
        by_contra h
        exact hW.notcur t2 (by omega) (by rw [he2]; exact hc2)
      rw [← he1, ← he2, hl1, hl2]
    · have hc2 : ¬ (path2.getD w2 0).toNat = cur := by rw [← heq]; exact hc1
      have hl1 : t1 < W.length - 1 := by
        by_contra h
        have hte : t1 = W.length - 1 := by omega
        apply hc1
        have hlc := hW.last_cur
        rw [← hte, he1] at hlc
        rw [hlc]
        rfl
      have hl2 : t2 < W.length - 1 := by
        by_contra h
        have hte : t2 = W.length - 1 := by omega
        apply hc2
        have hlc := hW.last_cur
        rw [← hte, he2] at hlc
        rw [hlc]
        rfl
      obtain ⟨hch1a, hch1b⟩ := hW.chain t1 (by omega)
      obtain ⟨hch2a, hch2b⟩ := hW.chain t2 (by omega)
      rw [he1] at hch1a
      rw [he2] at hch2a
      have hmm : matchedRow row4col (W.getD (t1 + 1) 0) =
          matchedRow row4col (W.getD (t2 + 1) 0) := by
        rw [← hch1a, ← hch2a, heq]
      have hmem1 : W.getD (t1 + 1) 0 ∈ W := (mem_iff_getD W _).mpr ⟨t1 + 1, by omega, rfl⟩
      have hmem2 : W.getD (t2 + 1) 0 ∈ W := (mem_iff_getD W _).mpr ⟨t2 + 1, by omega, rfl⟩
      have hee : W.getD (t1 + 1) 0 = W.getD (t2 + 1) 0 :=
        matchedRow_inj nr nc cost cur u v col4row row4col hsolve
          (hWnc _ hmem1) (hWnc _ hmem2) hch1b hch2b hmm
      have ht12 : t1 + 1 = t2 + 1 := nodup_getD_inj hW.nodup (by omega) (by omega) hee
      have ht12e : t1 = t2 := by omega
      rw [← he1, ← he2, ht12e]
  have hcurW : ∃ wl ∈ W, (path2.getD wl 0).toNat = cur := by
    refine ⟨W.getD (W.length - 1) 0,
      (mem_iff_getD W _).mpr ⟨W.length - 1, by omega, rfl⟩, ?_⟩
    rw [hW.last_cur]
    rfl
  have hprew : ∀ w ∈ W, w ≠ sink →
      ∃ w2 ∈ W, (path2.getD w2 0).toNat = matchedRow row4col w := by
    intro w hw hns
    obtain ⟨t, ht, he⟩ := (mem_iff_getD W w).mp hw
    have ht0 : t ≠ 0 := by
      intro h
      rw [h] at he
      exact hns (he.symm.trans hWhead)
    obtain ⟨t2, ht2e⟩ : ∃ t2, t = t2 + 1 := ⟨t - 1, by omega⟩
    subst ht2e
    obtain ⟨hch1, _⟩ := hW.chain t2 (by omega)
    rw [he] at hch1
    exact ⟨W.getD t2 0, (mem_iff_getD W _).mpr ⟨t2, by omega, rfl⟩, hch1⟩
  have hple : ∀ w ∈ W, (path2.getD w 0).toNat = cur ∨ ((path2.getD w 0).toNat < cur ∧
      ∃ w2 ∈ W, w2 ≠ sink ∧ matchedRow row4col w2 = (path2.getD w 0).toNat ∧
        colMatched row4col w2) := by
    intro w hw
    by_cases hc : (path2.getD w 0).toNat = cur
    · exact Or.inl hc
    · right
      obtain ⟨t, ht, he⟩ := (mem_iff_getD W w).mp hw
      have hl : t < W.length - 1 := by
        by_contra h
        have hte : t = W.length - 1 := by omega
        apply hc
        have hlc := hW.last_cur
        rw [← hte, he] at hlc
        rw [hlc]
        rfl
      obtain ⟨hch1, hch2⟩ := hW.chain t (by omega)
      rw [he] at hch1
      have hmem2 : W.getD (t + 1) 0 ∈ W := (mem_iff_getD W _).mpr ⟨t + 1, by omega, rfl⟩
      have hns : W.getD (t + 1) 0 ≠ sink := by
        intro hse
        have h0 : t + 1 = 0 := nodup_getD_inj hW.nodup (by omega) (by omega)
          (by rw [hse, hWhead])
        omega
      have hlt : matchedRow row4col (W.getD (t + 1) 0) < cur :=
        (hsolve.inverse2 _ (hWnc _ hmem2) hch2).1
      refine ⟨by rw [← hch1] at hlt; exact hlt, W.getD (t + 1) 0, hmem2, hns,
        hch1.symm, hch2⟩
  exact ⟨hWmem, hsinkW, hinj, hcurW, hprew, hple⟩

/-- Values of the u dual vector after the update: scanned rows gain
min_val minus their distance label, others are unchanged. -/
theorem uDual_vals (nr nc : ℕ) (cost : List FpVal) (cur : ℕ) (u v : List FpVal)
    (col4row row4col : List ℤ) (sink : ℕ) (mv : FpVal) (path2 : List ℤ)
    (spc2 : List FpVal) (SR2 SC2 : List Bool) (scanned : List ℕ)
    (hsolve : SolveInv nr nc cost cur u v col4row row4col)
    (hcur : cur < nr)
    (hout : AugOut nr nc cost u v cur col4row row4col sink mv path2 spc2 SR2 SC2 scanned)
    (u2 : List FpVal)
    (hu2 : u2 = (List.range nr).foldl
      (fun uu i =>
        if SR2.getD i false ∧ i ≠ cur then
          uu.set i (fpAdd (uu.getD i fpD)
            (fpSub mv (spc2.getD (col4row.getD i 0).toNat fpD)))
        else uu) (u.set cur (fpAdd (u.getD cur fpD) mv))) :
    u2.length = nr ∧ ∀ p, p < nr →
      IsFinV (u2.getD p fpD) ∧
      (SR2.getD p false = true →
        toQ (u2.getD p fpD) = toQ (u.getD p fpD) + toQ mv - distQ cur col4row spc2 p) ∧
      (SR2.getD p false = false → u2.getD p fpD = u.getD p fpD) := by
  subst hu2
  obtain ⟨hlen, hval⟩ := uFold_spec SR2 cur mv spc2 col4row nr
    (u.set cur (fpAdd (u.getD cur fpD) mv))
  have hu1len : (u.set cur (fpAdd (u.getD cur fpD) mv)).length = nr := by
    rw [List.length_set]
    exact hsolve.ulen
  have hSR2cur : SR2.getD cur false = true := (hout.sr_iff cur hcur).mpr (Or.inl rfl)
  refine ⟨hlen.trans hu1len, fun p hp => ?_⟩
  have hv := hval p (by rw [hu1len]; exact hp)
  have hufin := hsolve.ufin p hp
  by_cases hpc : p = cur
  · subst hpc
    rw [if_neg (fun h => h.2.2 rfl)] at hv
    rw [hv, getD_set_self fpD u (by rw [hsolve.ulen]; exact hp) _]
    refine ⟨by rw [hufin, hout.mvfin, fpAdd_fin]; exact isFinV_fin _, ?_, ?_⟩
    · intro _
      rw [hufin, hout.mvfin, fpAdd_fin, toQ_fin]
      unfold distQ
      rw [if_pos rfl, toQ_fin, toQ_fin]
      ring
    · intro h
      rw [h] at hSR2cur
      exact absurd hSR2cur (by decide)
  · by_cases hsr : SR2.getD p false = true
    · rw [if_pos ⟨hp, hsr, hpc⟩] at hv
      rw [hv, getD_set_ne fpD u (fun he => hpc he.symm) _]
      have htree := (hout.sr_iff p hp).mp hsr
      rcases htree with he | ⟨jm, hjm, hr⟩
      · exact absurd he hpc
      have hjmnc := hout.scanned_lt jm hjm
      have hcmjm : colMatched row4col jm := by
        show row4col.getD jm 0 ≠ -1
        rw [hr]
        exact ofNat_ne_negone p
      obtain ⟨hlt2, hre2, hc4m⟩ := hsolve.inverse2 jm hjmnc hcmjm
      have hmrp : matchedRow row4col jm = p := Int.ofNat.inj (hre2.symm.trans hr)
      have hc4p : col4row.getD p 0 = Int.ofNat jm := by
        rw [← hmrp]
        exact hc4m
      have hidx : (col4row.getD p 0).toNat = jm := by
        rw [hc4p]
        rfl
      have hspcfin : IsFinV (spc2.getD jm fpD) := hout.allfin jm hjmnc
      rw [hidx]
      refine ⟨(by rw [hufin, hout.mvfin, hspcfin, fpSub_fin, fpAdd_fin]; exact isFinV_fin _), ?_, ?_⟩
      · intro _
        rw [hufin, hout.mvfin, hspcfin, fpSub_fin, fpAdd_fin, toQ_fin, toQ_fin, toQ_fin]
        unfold distQ
        rw [if_neg hpc, hidx]
        unfold entryQ
        ring
      · intro h
        rw [h] at hsr
        exact absurd hsr (by decide)
    · rw [if_neg (fun h => hsr h.2.1)] at hv
      rw [hv, getD_set_ne fpD u (fun he => hpc he.symm) _]
      exact ⟨hufin, fun h => absurd h hsr, fun _ => rfl⟩

/-- Values of the v dual vector after the update: scanned columns lose
min_val minus their shortest-path cost, others are unchanged. -/
theorem vDual_vals (nr nc : ℕ) (cost : List FpVal) (cur : ℕ) (u v : List FpVal)
    (col4row row4col : List ℤ) (sink : ℕ) (mv : FpVal) (path2 : List ℤ)
    (spc2 : List FpVal) (SR2 SC2 : List Bool) (scanned : List ℕ)
    (hsolve : SolveInv nr nc cost cur u v col4row row4col)
    (hout : AugOut nr nc cost u v cur col4row row4col sink mv path2 spc2 SR2 SC2 scanned)
    (v2 : List FpVal)
    (hv2 : v2 = (List.range nc).foldl
      (fun vv j =>
        if SC2.getD j false then
          vv.set j (fpSub (vv.getD j fpD) (fpSub mv (spc2.getD j fpD)))
        else vv) v) :
    v2.length = nc ∧ ∀ j, j < nc →
      IsFinV (v2.getD j fpD) ∧
      (SC2.getD j false = true →
        toQ (v2.getD j fpD) = toQ (v.getD j fpD) - (toQ mv - entryQ spc2 j)) ∧
      (SC2.getD j false = false → v2.getD j fpD = v.getD j fpD) := by
  subst hv2
  obtain ⟨hlen, hval⟩ := vFold_spec SC2 mv spc2 nc v
  refine ⟨hlen.trans hsolve.vlen, fun j hj => ?_⟩
  have hv := hval j (by rw [hsolve.vlen]; exact hj)
  have hvfin := hsolve.vfin j hj
  by_cases hsc : SC2.getD j false = true
  · rw [if_pos ⟨hj, hsc⟩] at hv
    rw [hv]
    have hspcfin : IsFinV (spc2.getD j fpD) := hout.allfin j hj
    refine ⟨(by rw [hvfin, hout.mvfin, hspcfin, fpSub_fin, fpSub_fin]; exact isFinV_fin _), ?_, ?_⟩
    · intro _
      rw [hvfin, hout.mvfin, hspcfin, fpSub_fin, fpSub_fin, toQ_fin, toQ_fin, toQ_fin]
      unfold entryQ
      ring
    · intro h
      rw [h] at hsc
      exact absurd hsc (by decide)
  · rw [if_neg (fun h => hsc h.2)] at hv
    rw [hv]
    have hscf : SC2.getD j false = false := by
      cases h : SC2.getD j false
      · rfl
      · exact absurd h hsc
    exact ⟨hvfin, fun h => absurd h hsc, fun _ => rfl⟩

/-- The reduced costs under the updated duals: the change formula, and
dual feasibility for all processed rows including the current one. -/
theorem newDuals_feas (nr nc : ℕ) (cost : List FpVal) (cur : ℕ) (u v : List FpVal)
    (col4row row4col : List ℤ) (sink : ℕ) (mv : FpVal) (path2 : List ℤ)
    (spc2 : List FpVal) (SR2 SC2 : List Bool) (scanned : List ℕ)
    (u2 v2 : List FpVal)
    (hsolve : SolveInv nr nc cost cur u v col4row row4col)
    (hcur : cur < nr)
    (hout : AugOut nr nc cost u v cur col4row row4col sink mv path2 spc2 SR2 SC2 scanned)
    (hu2vals : ∀ p, p < nr →
      (SR2.getD p false = true →
        toQ (u2.getD p fpD) = toQ (u.getD p fpD) + toQ mv - distQ cur col4row spc2 p) ∧
      (SR2.getD p false = false → u2.getD p fpD = u.getD p fpD))
    (hv2vals : ∀ j, j < nc →
      (SC2.getD j false = true →
        toQ (v2.getD j fpD) = toQ (v.getD j fpD) - (toQ mv - entryQ spc2 j)) ∧
      (SC2.getD j false = false → v2.getD j fpD = v.getD j fpD)) :
    (∀ p, p < nr → ∀ j, j < nc →
      redQ nc cost u2 v2 p j = redQ nc cost u v p j
        - (if SR2.getD p false = true then toQ mv - distQ cur col4row spc2 p else 0)
        + (if SC2.getD j false = true then toQ mv - entryQ spc2 j else 0)) ∧
    (∀ p, p < cur + 1 → ∀ j, j < nc → 0 ≤ redQ nc cost u2 v2 p j) := by
  have hformula : ∀ p, p < nr → ∀ j, j < nc →
      redQ nc cost u2 v2 p j = redQ nc cost u v p j
        - (if SR2.getD p false = true then toQ mv - distQ cur col4row spc2 p else 0)
        + (if SC2.getD j false = true then toQ mv - entryQ spc2 j else 0) := by
    intro p hp j hj
    unfold redQ
    have hup : entryQ u2 p = entryQ u p +
        (if SR2.getD p false = true then toQ mv - distQ cur col4row spc2 p else 0) := by
      unfold entryQ
      cases hsr : SR2.getD p false
      · rw [if_neg (by decide : ¬ false = true)]
        rw [(hu2vals p hp).2 hsr]
        ring
      · rw [if_pos (rfl : true = true)]
        rw [(hu2vals p hp).1 hsr]
        ring
    have hvp : entryQ v2 j = entryQ v j -
        (if SC2.getD j false = true then toQ mv - entryQ spc2 j else 0) := by
      unfold entryQ
      cases hsc : SC2.getD j false
      · rw [if_neg (by decide : ¬ false = true)]
        rw [(hv2vals j hj).2 hsc]
        ring
      · rw [if_pos (rfl : true = true)]
        rw [(hv2vals j hj).1 hsc]
        unfold entryQ
        ring
    rw [hup, hvp]
    ring
  have hTlt : ∀ p, p < nr → SR2.getD p false = true → p ≠ cur → p < cur := by
    intro p hp hsr hpc
    rcases (hout.sr_iff p hp).mp hsr with he | ⟨jm, hjm, hr⟩
    · exact absurd he hpc
    · have hjmnc := hout.scanned_lt jm hjm
      have hcmjm : colMatched row4col jm := by
        show row4col.getD jm 0 ≠ -1
        rw [hr]
        exact ofNat_ne_negone p
      obtain ⟨hlt2, hre2, _⟩ := hsolve.inverse2 jm hjmnc hcmjm
      have hmrp : matchedRow row4col jm = p := Int.ofNat.inj (hre2.symm.trans hr)
      omega
  refine ⟨hformula, fun p hp j hj => ?_⟩
  have hpnr : p < nr := by omega
  rw [hformula p hpnr j hj]
  cases hsr : SR2.getD p false
  · have hpc : p ≠ cur := by
      intro he
      have := (hout.sr_iff cur hcur).mpr (Or.inl rfl)
      rw [← he, hsr] at this
      exact Bool.noConfusion this
    have hplt : p < cur := by omega
    have hfeas := hsolve.feas p hplt j hj
    rw [if_neg (by decide : ¬ false = true)]
    cases hsc : SC2.getD j false
    · rw [if_neg (by decide : ¬ false = true)]
      linarith
    · rw [if_pos (rfl : true = true)]
      have hmem : j ∈ scanned := (hout.sc_iff j hj).mp hsc
      have hbel := hout.below_mv j hmem
      linarith
  · rw [if_pos (rfl : true = true)]
    have hrel := hout.relaxed p hpnr hsr j hj
    cases hsc : SC2.getD j false
    · rw [if_neg (by decide : ¬ false = true)]
      have hnmem : j ∉ scanned := by
        intro hmem
        rw [(hout.sc_iff j hj).mpr hmem] at hsc
        exact Bool.noConfusion hsc
      have habv := hout.above_mv j hj hnmem
      rcases hrel with h | ⟨hpc, h⟩
      · linarith
      · have hplt : p < cur := hTlt p hpnr hsr hpc
        have hfeas := hsolve.feas p hplt j hj
        linarith
    · rw [if_pos (rfl : true = true)]
      rcases hrel with h | ⟨hpc, h⟩
      · linarith
      · have hplt : p < cur := hTlt p hpnr hsr hpc
        have hfeas := hsolve.feas p hplt j hj
        linarith

/-- One main-loop iteration succeeds and preserves the main invariant,
advancing the processed-row count by one. -/
theorem solveStep_spec (nr nc : ℕ) (cost : List FpVal) (cur : ℕ)
    (u v : List FpVal) (path col4row row4col : List ℤ)
    (spc0 : List FpVal) (SR0 SC0 : List Bool)
    (hsolve : SolveInv nr nc cost cur u v col4row row4col)
    (hcur : cur < nr) (hnrnc : nr ≤ nc) (hfin : AllFinite nr nc cost)
    (hpathlen : path.length = nc) (hspc0 : spc0.length = nc)
    (hsr0 : SR0.length = nr) (hsc0 : SC0.length = nc) :
    ∃ u2 v2 path2 col4row2 row4col2,
      solveStep nr nc cost spc0 SR0 SC0 (u, v, path, col4row, row4col) cur =
        some (u2, v2, path2, col4row2, row4col2) ∧
      path2.length = nc ∧
      SolveInv nr nc cost (cur + 1) u2 v2 col4row2 row4col2 := by
  obtain ⟨sink, mv, path2, spc2, SR2, SC2, scanned, hap, hout⟩ :=
    AugmentingPath_spec nr nc cost u v cur col4row row4col path spc0 SR0 SC0
      hsolve hcur hnrnc hfin hpathlen hspc0 hsr0 hsc0
  have hsne : scanned ≠ [] := by
    intro h
    have hx := hout.sink_last
    rw [h] at hx
    exact nomatch hx
  have hslen_pos : 0 < scanned.length := List.length_pos.mpr hsne
  have hsinkidx : scanned.getD (scanned.length - 1) 0 = sink := by
    have hsl := hout.sink_last
    rw [getLast?_getD 0 scanned hsne] at hsl
    exact Option.some.inj hsl
  have hscange : scanned.length ≤ nc := by
    have hsub : scanned ⊆ List.range nc := fun x hx =>
      List.mem_range.mpr (hout.scanned_lt x hx)
    have hx := (hout.nodup_scanned.subperm hsub).length_le
    simpa using hx
  obtain ⟨W, hW⟩ := walk_spec nr nc cost u v cur col4row row4col sink mv path2 spc2
    SR2 SC2 scanned hsolve hout hcur (scanned.length - 1) (by omega) (nc + 1)
    (by omega) row4col col4row hsolve.r4clen hsolve.c4rlen rfl (fun m2 _ _ => rfl)
  rw [hsinkidx] at hW
  obtain ⟨hWmem, hsinkW, hprowinj, hcurW, hprew, hple⟩ :=
    walk_global nr nc cost u v cur col4row row4col sink mv path2 spc2 SR2 SC2
      scanned row4col col4row
      (AugmentPreviousSolution path2 cur (nc + 1) sink row4col col4row) W hsolve hout
      hsinkidx hW
  have hWnc : ∀ w ∈ W, w < nc := fun w hw => hout.scanned_lt w (hWmem w hw)
  have hprowle : ∀ w ∈ W, (path2.getD w 0).toNat ≤ cur := by
    intro w hw
    rcases hple w hw with h | ⟨h, _⟩
    · omega
    · omega
  obtain ⟨hu2len, hu2vals⟩ := uDual_vals nr nc cost cur u v col4row row4col sink mv
    path2 spc2 SR2 SC2 scanned hsolve hcur hout _ rfl
  obtain ⟨hv2len, hv2vals⟩ := vDual_vals nr nc cost cur u v col4row row4col sink mv
    path2 spc2 SR2 SC2 scanned hsolve hout _ rfl
  obtain ⟨hform, hfeas2⟩ := newDuals_feas nr nc cost cur u v col4row row4col sink mv
    path2 spc2 SR2 SC2 scanned _ _ hsolve hcur hout
    (fun p hp => ⟨(hu2vals p hp).2.1, (hu2vals p hp).2.2⟩)
    (fun j hj => ⟨(hv2vals j hj).2.1, (hv2vals j hj).2.2⟩)
  refine ⟨_, _, path2, _, _, solveStep_eq nr nc cost spc0 SR0 SC0 u v path col4row
    row4col cur sink mv path2 spc2 SR2 SC2 hap, hout.pathlen, ?_⟩
  have hSCmem : ∀ j, j < nc → j ∈ scanned → SC2.getD j false = true :=
    fun j hj hm => (hout.sc_iff j hj).mpr hm
  have hSCnot : ∀ j, j < nc → j ∉ scanned → SC2.getD j false = false := by
    intro j hj hm
    cases h : SC2.getD j false
    · rfl
    · exact absurd ((hout.sc_iff j hj).mp h) hm
  have hSRtree : ∀ p, p < nr → TreeRow cur row4col scanned p →
      SR2.getD p false = true := fun p hp ht => (hout.sr_iff p hp).mpr ht
  have hrowimg : ∀ i, i < cur → (∀ w ∈ W, (path2.getD w 0).toNat ≠ i) →
      (col4row.getD i 0).toNat ∉ W := by
    intro i hi hni hmem
    have hr4ci := hsolve.inverse1 i hi
    have hcmi : colMatched row4col (col4row.getD i 0).toNat := by
      show row4col.getD (matchedCol col4row i) 0 ≠ -1
      rw [hr4ci]
      exact ofNat_ne_negone i
    have hnsink : (col4row.getD i 0).toNat ≠ sink := by
      intro he
      rw [he] at hcmi
      exact hout.sink_unmatched hcmi
    obtain ⟨w2, hw2mem, hw2eq⟩ := hprew _ hmem hnsink
    apply hni w2 hw2mem
    rw [hw2eq]
    show (row4col.getD (matchedCol col4row i) 0).toNat = i
    rw [hr4ci]
    rfl
  refine ⟨hu2len, hv2len, hW.c4rlen.trans hsolve.c4rlen, hW.r4clen.trans hsolve.r4clen,
    fun p hp => (hu2vals p hp).1, fun j hj => (hv2vals j hj).1, ?_, ?_, ?_, ?_,
    hfeas2, ?_, ?_, ?_⟩
  · -- matched_lt
    intro i hi
    by_cases hiW : ∃ w ∈ W, (path2.getD w 0).toNat = i
    · obtain ⟨w, hwmem, hweq⟩ := hiW
      refine ⟨w, hWnc w hwmem, ?_⟩
      rw [← hweq]
      exact hW.c4r_new w hwmem
    · push_neg at hiW
      have hicur : i ≠ cur := by
        intro he
        obtain ⟨wl, hwl, hwleq⟩ := hcurW
        exact hiW wl hwl (by rw [hwleq, he])
      have hilt : i < cur := by omega
      rw [hW.c4r_unchanged i hiW]
      exact hsolve.matched_lt i hilt
  · -- unmatched_ge
    intro i hige hinr
    have hni : ∀ w ∈ W, (path2.getD w 0).toNat ≠ i := by
      intro w hw he
      have := hprowle w hw
      omega
    rw [hW.c4r_unchanged i hni]
    exact hsolve.unmatched_ge i (by omega) hinr
  · -- inverse1
    intro i hi
    by_cases hiW : ∃ w ∈ W, (path2.getD w 0).toNat = i
    · obtain ⟨w, hwmem, hweq⟩ := hiW
      have hc4 : (AugmentPreviousSolution path2 cur (nc + 1) sink row4col col4row).2.getD
          i 0 = Int.ofNat w := by
        rw [← hweq]
        exact hW.c4r_new w hwmem
      show (AugmentPreviousSolution path2 cur (nc + 1) sink row4col col4row).1.getD
          ((AugmentPreviousSolution path2 cur (nc + 1) sink row4col col4row).2.getD
            i 0).toNat 0 = Int.ofNat i
      rw [hc4]
      show (AugmentPreviousSolution path2 cur (nc + 1) sink row4col col4row).1.getD w 0 =
        Int.ofNat i
      rw [hW.r4c_new w hwmem, (hW.rows_ok w hwmem).1, hweq]
    · push_neg at hiW
      have hicur : i ≠ cur := by
        intro he
        obtain ⟨wl, hwl, hwleq⟩ := hcurW
        exact hiW wl hwl (by rw [hwleq, he])
      have hilt : i < cur := by omega
      have hj0 : (col4row.getD i 0).toNat ∉ W := hrowimg i hilt hiW
      show (AugmentPreviousSolution path2 cur (nc + 1) sink row4col col4row).1.getD
          ((AugmentPreviousSolution path2 cur (nc + 1) sink row4col col4row).2.getD
            i 0).toNat 0 = Int.ofNat i
      rw [hW.c4r_unchanged i hiW, hW.r4c_unchanged _ hj0]
      exact hsolve.inverse1 i hilt
  · -- inverse2
    intro j hj hcm2
    by_cases hjW : j ∈ W
    · have hr4 : (AugmentPreviousSolution path2 cur (nc + 1) sink row4col col4row).1.getD
          j 0 = path2.getD j 0 := hW.r4c_new j hjW
      have hmr2 : matchedRow
          (AugmentPreviousSolution path2 cur (nc + 1) sink row4col col4row).1 j =
          (path2.getD j 0).toNat := by
        show ((AugmentPreviousSolution path2 cur (nc + 1) sink row4col col4row).1.getD
          j 0).toNat = _
        rw [hr4]
      refine ⟨?_, ?_, ?_⟩
      · rw [hmr2]
        have := hprowle j hjW
        omega
      · rw [hmr2, hr4]
        exact (hW.rows_ok j hjW).1
      · rw [hmr2]
        exact hW.c4r_new j hjW
    · have hr4 : (AugmentPreviousSolution path2 cur (nc + 1) sink row4col col4row).1.getD
          j 0 = row4col.getD j 0 := hW.r4c_unchanged j hjW
      have hcm : colMatched row4col j := by
        show row4col.getD j 0 ≠ -1
        intro he
        apply hcm2
        show (AugmentPreviousSolution path2 cur (nc + 1) sink row4col col4row).1.getD
          j 0 = -1
        rw [hr4, he]
      obtain ⟨hlt, heq, hc4⟩ := hsolve.inverse2 j hj hcm
      have hmr2 : matchedRow
          (AugmentPreviousSolution path2 cur (nc + 1) sink row4col col4row).1 j =
          matchedRow row4col j := by
        show ((AugmentPreviousSolution path2 cur (nc + 1) sink row4col col4row).1.getD
          j 0).toNat = _
        rw [hr4]
        rfl
      have hnimg : ∀ w ∈ W, (path2.getD w 0).toNat ≠ matchedRow row4col j := by
        intro w hw he
        rcases hple w hw with h | ⟨_, w2, hw2mem, hw2ns, hw2eq, hw2cm⟩
        · omega
        · have hjj : j = w2 := matchedRow_inj nr nc cost cur u v col4row row4col
            hsolve hj (hWnc w2 hw2mem) hcm hw2cm (by rw [hw2eq, he])
          rw [hjj] at hjW
          exact hjW hw2mem
      refine ⟨by rw [hmr2]; omega, by rw [hmr2, hr4]; exact heq, ?_⟩
      rw [hmr2, hW.c4r_unchanged _ hnimg]
      exact hc4
  · -- tight
    intro p hp
    by_cases hiW : ∃ w ∈ W, (path2.getD w 0).toNat = p
    · obtain ⟨w, hwmem, hweq⟩ := hiW
      have hwsc : w ∈ scanned := hWmem w hwmem
      have hwnc : w < nc := hWnc w hwmem
      obtain ⟨mw, hmwlen, hmweq⟩ := (mem_iff_getD scanned w).mp hwsc
      obtain ⟨p2, hp2nr, hp2path, hp2memb, hp2eq⟩ := hout.parent_scanned mw hmwlen
      rw [hmweq] at hp2path hp2eq
      have hp2p : p2 = p := by
        rw [← hweq, hp2path]
        rfl
      rw [hp2p] at hp2nr hp2path hp2memb hp2eq
      have hmc2 : matchedCol
          (AugmentPreviousSolution path2 cur (nc + 1) sink row4col col4row).2 p = w := by
        show ((AugmentPreviousSolution path2 cur (nc + 1) sink row4col col4row).2.getD
          p 0).toNat = w
        rw [← hweq, hW.c4r_new w hwmem]
        rfl
      rw [hmc2]
      have hsr2 : SR2.getD p false = true := by
        apply hSRtree p hp2nr
        rcases hp2memb with h | ⟨m2, hm2, hr⟩
        · exact Or.inl h
        · exact Or.inr ⟨scanned.getD m2 0,
            (mem_iff_getD scanned _).mpr ⟨m2, by omega, rfl⟩, hr⟩
      have hsc2 : SC2.getD w false = true := hSCmem w hwnc hwsc
      rw [hform p hp2nr w hwnc, if_pos hsr2, if_pos hsc2]
      have hpe : entryQ spc2 w = distQ cur col4row spc2 p + redQ nc cost u v p w := hp2eq
      linarith
    · push_neg at hiW
      have hpcur : p ≠ cur := by
        intro he
        obtain ⟨wl, hwl, hwleq⟩ := hcurW
        exact hiW wl hwl (by rw [hwleq, he])
      have hplt : p < cur := by omega
      have hpnr : p < nr := by omega
      have hmc2 : matchedCol
          (AugmentPreviousSolution path2 cur (nc + 1) sink row4col col4row).2 p =
          matchedCol col4row p := by
        show ((AugmentPreviousSolution path2 cur (nc + 1) sink row4col col4row).2.getD
          p 0).toNat = _
        rw [hW.c4r_unchanged p hiW]
        rfl
      rw [hmc2]
      have htight := hsolve.tight p hplt
      obtain ⟨j0, hj0nc, hj0eq⟩ := hsolve.matched_lt p hplt
      have hj0 : matchedCol col4row p = j0 := by
        show (col4row.getD p 0).toNat = j0
        rw [hj0eq]
        rfl
      have hr4cj0 : row4col.getD j0 0 = Int.ofNat p := by
        have hx := hsolve.inverse1 p hplt
        rw [hj0] at hx
        exact hx
      rw [hj0] at htight ⊢
      cases hsr : SR2.getD p false
      · have hscj0 : SC2.getD j0 false = false := by
          apply hSCnot j0 hj0nc
          intro hmem
          have htr : TreeRow cur row4col scanned p := Or.inr ⟨j0, hmem, hr4cj0⟩
          have hsrt := hSRtree p hpnr htr
          rw [hsr] at hsrt
          exact Bool.noConfusion hsrt
        rw [hform p hpnr j0 hj0nc,
          if_neg (by rw [hsr]; exact fun h => Bool.noConfusion h),
          if_neg (by rw [hscj0]; exact fun h => Bool.noConfusion h)]
        linarith
      · have hmemj0 : j0 ∈ scanned := by
          rcases (hout.sr_iff p hpnr).mp hsr with he | ⟨jm, hjm, hr⟩
          · exact absurd he hpcur
          · have hjmnc := hout.scanned_lt jm hjm
            have hcmjm : colMatched row4col jm := by
              show row4col.getD jm 0 ≠ -1
              rw [hr]
              exact ofNat_ne_negone p
            obtain ⟨_, hre2, hc4m⟩ := hsolve.inverse2 jm hjmnc hcmjm
            have hmrp : matchedRow row4col jm = p := Int.ofNat.inj (hre2.symm.trans hr)
            have hjmj0 : jm = j0 := by
              apply Int.ofNat.inj
              rw [← hc4m, hmrp, hj0eq]
            rw [← hjmj0]
            exact hjm
        have hscj0 : SC2.getD j0 false = true := hSCmem j0 hj0nc hmemj0
        have hdisteq : distQ cur col4row spc2 p = entryQ spc2 j0 := by
          unfold distQ
          rw [if_neg hpcur]
          show entryQ spc2 (col4row.getD p 0).toNat = entryQ spc2 j0
          rw [hj0eq]
          rfl
        rw [hform p hpnr j0 hj0nc, if_pos hsr, if_pos hscj0, hdisteq]
        linarith
  · -- vzero
    intro j hj hcm2
    have hjW : j ∉ W := by
      intro hmem
      apply hcm2
      show (AugmentPreviousSolution path2 cur (nc + 1) sink row4col col4row).1.getD
        j 0 ≠ -1
      rw [hW.r4c_new j hmem, (hW.rows_ok j hmem).1]
      exact ofNat_ne_negone _
    have hr4 : (AugmentPreviousSolution path2 cur (nc + 1) sink row4col col4row).1.getD
        j 0 = row4col.getD j 0 := hW.r4c_unchanged j hjW
    have hcm : ¬ colMatched row4col j := by
      intro h
      apply hcm2
      show (AugmentPreviousSolution path2 cur (nc + 1) sink row4col col4row).1.getD
        j 0 ≠ -1
      rw [hr4]
      exact h
    have hnotsc : j ∉ scanned := by
      intro hmem
      by_cases hjs : j = sink
      · rw [hjs] at hjW
        exact hjW hsinkW
      · exact hcm (hout.other_matched j hmem hjs)
    have hsc : SC2.getD j false = false := hSCnot j hj hnotsc
    rw [(hv2vals j hj).2.2 hsc]
    exact hsolve.vzero j hj hcm
  · -- vnonpos
    intro j hj
    cases hsc : SC2.getD j false
    · rw [(hv2vals j hj).2.2 hsc]
      exact hsolve.vnonpos j hj
    · rw [(hv2vals j hj).2.1 hsc]
      have hmem := (hout.sc_iff j hj).mp hsc
      have hbel := hout.below_mv j hmem
      have hvn := hsolve.vnonpos j hj
      have hentry : entryQ spc2 j ≤ toQ mv := hbel
      have : entryQ v j ≤ 0 := hvn
      linarith

/-- A cost window with all entries finite passes the entry validation. -/
theorem check_value_true (cost : List FpVal) (nr nc : ℕ)
    (hfin : AllFinite nr nc cost) : check_value cost nr nc = true := by
  unfold check_value
  rw [List.all_eq_true]
  intro i hi
  have hk := hfin i (List.mem_range.mp hi)
  rw [IsFinV] at hk
  rw [hk]
  rfl

/-- The direct assignment loop of PostProcess acts independently on the
two output arrays. -/
theorem postAssignN_pair (col4row : List ℤ) :
    ∀ (idx : List ℕ) (ab : List ℤ × List ℤ),
      (idx.foldl (fun (st : List ℤ × List ℤ) i =>
          (st.1.set i (Int.ofNat i), st.2.set i (col4row.getD i 0))) ab) =
      (idx.foldl (fun t i => t.set i (Int.ofNat i)) ab.1,
       idx.foldl (fun t i => t.set i (col4row.getD i 0)) ab.2) := by
  intro idx
  induction idx with
  | nil => intro ab; rfl
  | cons k ks ih =>
    intro ab
    rw [List.foldl_cons, ih]
    rfl

/-- The single-array write loop over an index range preserves the
length. -/
theorem writeFold_length (g : ℕ → ℤ) :
    ∀ (ks : List ℕ) (t : List ℤ),
      (ks.foldl (fun t i => t.set i (g i)) t).length = t.length := by
  intro ks
  induction ks with
  | nil => intro t; rfl
  | cons k ks ih =>
    intro t
    rw [List.foldl_cons, ih, List.length_set]

/-- After the write loop over range m, every in-range position below m
holds its written value. -/
theorem writeFold_getD (g : ℕ → ℤ) (i : ℕ) :
    ∀ (m : ℕ) (t : List ℤ), i < m → i < t.length →
      ((List.range m).foldl (fun t k => t.set k (g k)) t).getD i 0 = g i := by
  intro m
  induction m with
  | zero =>
    intro t h1 _
    omega
  | succ m ih =>
    intro t h1 ht
    rw [List.range_succ, List.foldl_append]
    simp only [List.foldl_cons, List.foldl_nil]
    by_cases him : i < m
    · rw [getD_set_ne 0 _ (by omega) _]
      exact ih t him ht
    · have hieq : i = m := by omega
      subst hieq
      exact getD_set_self 0 _ (by rw [writeFold_length]; exact ht) _

/-- The padding loop leaves every position below the offset unchanged. -/
theorem padFoldList_untouched (offset i : ℕ) (hi : i < offset) :
    ∀ (m : ℕ) (t : List ℤ),
      ((List.range m).foldl (fun t k => t.set (offset + k) (-1)) t).getD i 0 =
        t.getD i 0 := by
  intro m
  induction m with
  | zero => intro t; rfl
  | succ m ih =>
    intro t
    rw [List.range_succ, List.foldl_append]
    simp only [List.foldl_cons, List.foldl_nil]
    rw [getD_set_ne 0 _ (by omega) _]
    exact ih t

/-- In the non-transpose branch, PostProcess writes the row index into
the first output and the assigned column into the second, at every
position below both nr and min nr nc. -/
theorem PostProcess_direct (a b col4row : List ℤ) (nr nc element_num i : ℕ)
    (hi : i < nr) (himin : i < min nr nc)
    (ha : i < a.length) (hb : i < b.length) :
    (PostProcess a b col4row false nr nc element_num).1.getD i 0 = Int.ofNat i ∧
    (PostProcess a b col4row false nr nc element_num).2.getD i 0 =
      col4row.getD i 0 := by
  unfold PostProcess
  simp only [if_neg (by decide : ¬ false = true)]
  rw [padFold_pair, postAssignN_pair]
  constructor
  · rw [padFoldList_untouched (min nr nc) i himin]
    exact writeFold_getD (fun k => Int.ofNat k) i nr a hi ha
  · rw [padFoldList_untouched (min nr nc) i himin]
    exact writeFold_getD (fun k => col4row.getD k 0) i nr b hi hb

/-- The all-zero, all-unmatched initial state satisfies the main-loop
invariant with no processed rows. -/
theorem solveInv_init (nr nc : ℕ) (cost : List FpVal) :
    SolveInv nr nc cost 0 (List.replicate nr (FpVal.fin 0))
      (List.replicate nc (FpVal.fin 0)) (List.replicate nr (-1))
      (List.replicate nc (-1)) := by
  refine ⟨List.length_replicate _ _, List.length_replicate _ _,
    List.length_replicate _ _, List.length_replicate _ _, ?_, ?_, ?_, ?_, ?_, ?_,
    ?_, ?_, ?_, ?_⟩
  · intro i hi
    rw [getD_replicate _ _ _ _ hi]
    exact isFinV_fin 0
  · intro j hj
    rw [getD_replicate _ _ _ _ hj]
    exact isFinV_fin 0
  · intro i hi
    omega
  · intro i _ hi
    exact getD_replicate _ _ _ _ hi
  · intro i hi
    omega
  · intro j hj hcm
    exact absurd (getD_replicate 0 (-1) nc j hj) hcm
  · intro i hi
    omega
  · intro i hi
    omega
  · intro j hj _
    exact getD_replicate _ _ _ _ hj
  · intro j hj
    rw [getD_replicate _ _ _ _ hj]
    exact le_refl 0

/-- The main loop, run over the rows from cur to nr, succeeds from any
state satisfying the invariant at cur and yields a state satisfying the
invariant with every row processed. -/
theorem solveLoop_spec (nr nc : ℕ) (cost spc0 : List FpVal) (SR0 SC0 : List Bool)
    (hnrnc : nr ≤ nc) (hfin : AllFinite nr nc cost) (hspc0 : spc0.length = nc)
    (hsr0 : SR0.length = nr) (hsc0 : SC0.length = nc) :
    ∀ (k cur : ℕ), cur + k = nr →
    ∀ (u v : List FpVal) (path col4row row4col : List ℤ),
      path.length = nc →
      SolveInv nr nc cost cur u v col4row row4col →
      ∃ u2 v2 path2 col4row2 row4col2,
        (List.range' cur k).foldlM (solveStep nr nc cost spc0 SR0 SC0)
          (u, v, path, col4row, row4col) = some (u2, v2, path2, col4row2, row4col2) ∧
        SolveInv nr nc cost nr u2 v2 col4row2 row4col2 := by
  intro k
  induction k with
  | zero =>
    intro cur hcur u v path col4row row4col hpath hinv
    have hce : cur = nr := by omega
    subst hce
    exact ⟨u, v, path, col4row, row4col, rfl, hinv⟩
  | succ k ih =>
    intro cur hcur u v path col4row row4col hpath hinv
    have hcurlt : cur < nr := by omega
    obtain ⟨u2, v2, path2, col4row2, row4col2, hstep, hpath2, hinv2⟩ :=
      solveStep_spec nr nc cost cur u v path col4row row4col spc0 SR0 SC0 hinv
        hcurlt hnrnc hfin hpath hspc0 hsr0 hsc0
    obtain ⟨u3, v3, path3, col4row3, row4col3, heq, hinv3⟩ :=
      ih (cur + 1) (by omega) u2 v2 path2 col4row2 row4col2 hpath2 hinv2
    refine ⟨u3, v3, path3, col4row3, row4col3, ?_, hinv3⟩
    show (cur :: List.range' (cur + 1) k).foldlM (solveStep nr nc cost spc0 SR0 SC0)
      (u, v, path, col4row, row4col) = some (u3, v3, path3, col4row3, row4col3)
    rw [List.foldlM_cons, hstep]
    exact heq

/-- Weak duality: a state satisfying the invariant with every row
processed carries a matching whose rational cost is a lower bound among
all injective row-to-column assignments. -/
theorem solveInv_optimal (nr nc : ℕ) (cost u v : List FpVal)
    (col4row row4col : List ℤ)
    (hsolve : SolveInv nr nc cost nr u v col4row row4col)
    (f : ℕ → ℕ) (hf : ∀ i < nr, f i < nc)
    (hinj : ∀ i1 < nr, ∀ i2 < nr, f i1 = f i2 → i1 = i2) :
    matchingCostQ nr nc cost col4row ≤ assignCostQ nr nc cost f := by
  have hmlt : ∀ i < nr, matchedCol col4row i < nc := by
    intro i hi
    obtain ⟨j, hj, hje⟩ := hsolve.matched_lt i hi
    have hx : matchedCol col4row i = j := by
      show (col4row.getD i 0).toNat = j
      rw [hje]
      rfl
    omega
  have hminj : ∀ i1 ∈ Finset.range nr, ∀ i2 ∈ Finset.range nr,
      matchedCol col4row i1 = matchedCol col4row i2 → i1 = i2 := by
    intro i1 h1 i2 h2 he
    have e1 := hsolve.inverse1 i1 (Finset.mem_range.mp h1)
    have e2 := hsolve.inverse1 i2 (Finset.mem_range.mp h2)
    rw [he] at e1
    exact Int.ofNat.inj (e1.symm.trans e2)
  have hSsub : (Finset.range nr).image (matchedCol col4row) ⊆ Finset.range nc := by
    intro j hj
    obtain ⟨i, hi, hie⟩ := Finset.mem_image.mp hj
    rw [← hie]
    exact Finset.mem_range.mpr (hmlt i (Finset.mem_range.mp hi))
  have hsum_match : ∑ j ∈ (Finset.range nr).image (matchedCol col4row), entryQ v j =
      ∑ i ∈ Finset.range nr, entryQ v (matchedCol col4row i) :=
    Finset.sum_image hminj
  have hzero : ∀ j ∈ Finset.range nc \ (Finset.range nr).image (matchedCol col4row),
      entryQ v j = 0 := by
    intro j hj
    rw [Finset.mem_sdiff] at hj
    have hjnc := Finset.mem_range.mp hj.1
    have hnm : ¬ colMatched row4col j := by
      intro hcm
      obtain ⟨hlt, heq, hc4⟩ := hsolve.inverse2 j hjnc hcm
      apply hj.2
      refine Finset.mem_image.mpr ⟨matchedRow row4col j, Finset.mem_range.mpr hlt, ?_⟩
      show (col4row.getD (matchedRow row4col j) 0).toNat = j
      rw [hc4]
      rfl
    show toQ (v.getD j fpD) = 0
    rw [hsolve.vzero j hjnc hnm]
    rfl
  have hsdiff : ∑ j ∈ Finset.range nc \ (Finset.range nr).image (matchedCol col4row),
      entryQ v j = 0 := Finset.sum_eq_zero hzero
  have hsplit := Finset.sum_sdiff (f := entryQ v) hSsub
  have hvS : ∑ j ∈ (Finset.range nr).image (matchedCol col4row), entryQ v j =
      ∑ j ∈ Finset.range nc, entryQ v j := by
    linarith
  have hM : matchingCostQ nr nc cost col4row =
      ∑ i ∈ Finset.range nr, entryQ u i + ∑ j ∈ Finset.range nc, entryQ v j := by
    unfold matchingCostQ
    rw [← hvS, hsum_match, ← Finset.sum_add_distrib]
    apply Finset.sum_congr rfl
    intro i hi
    have ht := hsolve.tight i (Finset.mem_range.mp hi)
    unfold redQ at ht
    linarith
  have hTinj : ∀ i1 ∈ Finset.range nr, ∀ i2 ∈ Finset.range nr, f i1 = f i2 → i1 = i2 :=
    fun i1 h1 i2 h2 he =>
      hinj i1 (Finset.mem_range.mp h1) i2 (Finset.mem_range.mp h2) he
  have hTsub : (Finset.range nr).image f ⊆ Finset.range nc := by
    intro j hj
    obtain ⟨i, hi, hie⟩ := Finset.mem_image.mp hj
    rw [← hie]
    exact Finset.mem_range.mpr (hf i (Finset.mem_range.mp hi))
  have hsum_f : ∑ j ∈ (Finset.range nr).image f, entryQ v j =
      ∑ i ∈ Finset.range nr, entryQ v (f i) := Finset.sum_image hTinj
  have hneg : ∑ j ∈ Finset.range nc \ (Finset.range nr).image f, entryQ v j ≤ 0 :=
    Finset.sum_nonpos (fun j hj =>
      hsolve.vnonpos j (Finset.mem_range.mp (Finset.mem_sdiff.mp hj).1))
  have hsplitT := Finset.sum_sdiff (f := entryQ v) hTsub
  have hge : ∀ i ∈ Finset.range nr, entryQ u i + entryQ v (f i) ≤ cQ nc cost i (f i) := by
    intro i hi
    have hfe := hsolve.feas i (Finset.mem_range.mp hi) (f i)
      (hf i (Finset.mem_range.mp hi))
    unfold redQ at hfe
    linarith
  have hA : ∑ i ∈ Finset.range nr, (entryQ u i + entryQ v (f i)) ≤
      assignCostQ nr nc cost f := Finset.sum_le_sum hge
  rw [Finset.sum_add_distrib, ← hsum_f] at hA
  rw [hM]
  linarith

/-- With maximize false, no transpose needed (nr <= nc) and all entries
finite, Solve succeeds, writes row i and its assigned column at output
position i, the assignment is injective, and its rational total cost is
minimal among all injective assignments. -/
theorem Solve_min (nr nc : ℕ) (cost : List FpVal) (a b : List ℤ)
    (hnr : 0 < nr) (hnrnc : nr ≤ nc) (hfin : AllFinite nr nc cost)
    (ha : nr ≤ a.length) (hb : nr ≤ b.length) :
    ∃ (a2 b2 col4row : List ℤ),
      Solve nr nc nc cost false a b = some (a2, b2) ∧
      (∀ i < nr, a2.getD i 0 = Int.ofNat i ∧
        b2.getD i 0 = Int.ofNat (matchedCol col4row i) ∧ matchedCol col4row i < nc) ∧
      (∀ i1 < nr, ∀ i2 < nr, matchedCol col4row i1 = matchedCol col4row i2 → i1 = i2) ∧
      ∀ f : ℕ → ℕ, (∀ i < nr, f i < nc) →
        (∀ i1 < nr, ∀ i2 < nr, f i1 = f i2 → i1 = i2) →
        matchingCostQ nr nc cost col4row ≤ assignCostQ nr nc cost f := by
  have hnc : 0 < nc := lt_of_lt_of_le hnr hnrnc
  obtain ⟨u2, v2, path2, col4row2, row4col2, hloop, hinv⟩ :=
    solveLoop_spec nr nc cost (List.replicate nc (FpVal.fin 0))
      (List.replicate nr false) (List.replicate nc false) hnrnc hfin
      (List.length_replicate _ _) (List.length_replicate _ _)
      (List.length_replicate _ _) nr 0 (by omega)
      (List.replicate nr (FpVal.fin 0)) (List.replicate nc (FpVal.fin 0))
      (List.replicate nc (-1)) (List.replicate nr (-1)) (List.replicate nc (-1))
      (List.length_replicate _ _) (solveInv_init nr nc cost)
  refine ⟨(PostProcess a b col4row2 false nr nc (min nr nc)).1,
    (PostProcess a b col4row2 false nr nc (min nr nc)).2, col4row2, ?_, ?_, ?_, ?_⟩
  · have htr : decide (nc < nr) = false := decide_eq_false (by omega)
    have hcv : check_value cost nr nc = true := check_value_true cost nr nc hfin
    unfold Solve
    rw [if_neg (by omega : ¬(nr = 0 ∨ nc = 0))]
    simp only [htr, Bool.false_or, Bool.or_false,
      if_neg (by decide : ¬ false = true), hcv, Bool.not_true]
    rw [List.range_eq_range', hloop]
  · intro i hi
    have hd := PostProcess_direct a b col4row2 nr nc (min nr nc) i hi
      (by omega) (by omega) (by omega)
    obtain ⟨j, hj, hje⟩ := hinv.matched_lt i hi
    have hmc : matchedCol col4row2 i = j := by
      show (col4row2.getD i 0).toNat = j
      rw [hje]
      rfl
    refine ⟨hd.1, ?_, by omega⟩
    rw [hd.2, hje, hmc]
  · intro i1 h1 i2 h2 he
    have e1 := hinv.inverse1 i1 h1
    have e2 := hinv.inverse1 i2 h2
    rw [he] at e1
    exact Int.ofNat.inj (e1.symm.trans e2)
  · intro f hf hfinj
    exact solveInv_optimal nr nc cost u2 v2 col4row2 row4col2 hinv f hf hfinj

/-- Through the Solve wrapper (both transpose branches, both maximize
modes), every in-range output position from min(nr,nc) up to
element_num = min(nr,raw_nc) is padded with the sentinel -1 in both
output arrays. -/
theorem Solve_pad (nr nc raw_nc : ℕ) (cost : List FpVal) (maximize : Bool)
    (a b a2 b2 : List ℤ) (i : ℕ) (hnr : 0 < nr) (hnc : 0 < nc)
    (heq : Solve nr nc raw_nc cost maximize a b = some (a2, b2))
    (h1 : min nr nc ≤ i) (h2 : i < min nr raw_nc)
    (hia : i < a.length) (hib : i < b.length) :
    a2.getD i 0 = -1 ∧ b2.getD i 0 = -1 := by
  have key : ∀ (c4r : List ℤ) (T : Bool) (n1 n2 : ℕ),
      min n1 n2 = min nr nc →
      some (PostProcess a b c4r T n1 n2 (min nr raw_nc)) = some (a2, b2) →
      a2.getD i 0 = -1 ∧ b2.getD i 0 = -1 := by
    intro c4r T n1 n2 hmin he
    have hpp := Option.some.inj he
    have hpad := PostProcess_padding a b c4r T n1 n2 (min nr raw_nc) i
      (by omega) h2 hia hib
    rw [hpp] at hpad
    exact hpad
  unfold Solve at heq
  rw [if_neg (by omega : ¬(nr = 0 ∨ nc = 0))] at heq
  simp only [] at heq
  by_cases hlt : nc < nr
  · rw [decide_eq_true hlt] at heq
    simp only [Bool.true_or, if_pos (rfl : (true : Bool) = true),
      if_pos True.intro] at heq
    split at heq
    · exact absurd heq (by simp)
    · split at heq
      · exact absurd heq (by simp)
      · exact key _ _ _ _ (Nat.min_comm nc nr) heq
  · rw [decide_eq_false hlt] at heq
    simp only [Bool.false_or, if_neg (by decide : ¬ false = true)] at heq
    cases maximize
    · simp only [if_neg (by decide : ¬ false = true)] at heq
      split at heq
      · exact absurd heq (by simp)
      · split at heq
        · exact absurd heq (by simp)
        · exact key _ _ _ _ rfl heq
    · simp only [if_pos (rfl : (true : Bool) = true), if_pos True.intro] at heq
      split at heq
      · exact absurd heq (by simp)
      · split at heq
        · exact absurd heq (by simp)
        · exact key _ _ _ _ rfl heq

/-- Keyed insertion produces a permutation of pushing the element in
front. -/
theorem insertByKey_perm (key : ℕ → ℤ) (x : ℕ) :
    ∀ l : List ℕ, (insertByKey key x l).Perm (x :: l) := by
  intro l
  induction l with
  | nil => exact List.Perm.refl _
  | cons y ys ih =>
    show (if key x ≤ key y then x :: y :: ys else y :: insertByKey key x ys).Perm
      (x :: y :: ys)
    by_cases h : key x ≤ key y
    · rw [if_pos h]
    · rw [if_neg h]
      exact (ih.cons y).trans (List.Perm.swap x y ys)

/-- The keyed insertion sort permutes its input. -/
theorem sortByKey_perm (key : ℕ → ℤ) :
    ∀ l : List ℕ, (sortByKey key l).Perm l := by
  intro l
  induction l with
  | nil => exact List.Perm.refl _
  | cons x xs ih =>
    show (insertByKey key x (sortByKey key xs)).Perm (x :: xs)
    exact (insertByKey_perm key x _).trans (ih.cons x)

/-- The transpose-branch assignment loop of PostProcess leaves every
position below the running counter unchanged in both arrays. -/
theorem postAssignT_untouched (col4row : List ℤ) :
    ∀ (idx : List ℕ) (st : (List ℤ × List ℤ) × ℕ) (k : ℕ), k < st.2 →
      ((idx.foldl (fun (st : (List ℤ × List ℤ) × ℕ) val =>
          ((st.1.1.set st.2 (col4row.getD val 0), st.1.2.set st.2 (Int.ofNat val)),
            st.2 + 1)) st).1.1.getD k 0 = st.1.1.getD k 0 ∧
       (idx.foldl (fun (st : (List ℤ × List ℤ) × ℕ) val =>
          ((st.1.1.set st.2 (col4row.getD val 0), st.1.2.set st.2 (Int.ofNat val)),
            st.2 + 1)) st).1.2.getD k 0 = st.1.2.getD k 0) := by
  intro idx
  induction idx with
  | nil =>
    intro st k hk
    exact ⟨rfl, rfl⟩
  | cons v vs ih =>
    intro st k hk
    rw [List.foldl_cons]
    refine ⟨?_, ?_⟩
    · rw [(ih _ k (by omega : k < st.2 + 1)).1]
      exact getD_set_ne 0 _ (by omega) _
    · rw [(ih _ k (by omega : k < st.2 + 1)).2]
      exact getD_set_ne 0 _ (by omega) _

/-- The transpose-branch assignment loop writes, at every in-range
position covered by the index list, the matched row of the indexed
column into the first array and the column index into the second. -/
theorem postAssignT_getD (col4row : List ℤ) :
    ∀ (idx : List ℕ) (st : (List ℤ × List ℤ) × ℕ) (k : ℕ),
      st.2 ≤ k → k < st.2 + idx.length → k < st.1.1.length → k < st.1.2.length →
      ((idx.foldl (fun (st : (List ℤ × List ℤ) × ℕ) val =>
          ((st.1.1.set st.2 (col4row.getD val 0), st.1.2.set st.2 (Int.ofNat val)),
            st.2 + 1)) st).1.1.getD k 0 =
          col4row.getD (idx.getD (k - st.2) 0) 0 ∧
       (idx.foldl (fun (st : (List ℤ × List ℤ) × ℕ) val =>
          ((st.1.1.set st.2 (col4row.getD val 0), st.1.2.set st.2 (Int.ofNat val)),
            st.2 + 1)) st).1.2.getD k 0 =
          Int.ofNat (idx.getD (k - st.2) 0)) := by
  intro idx
  induction idx with
  | nil =>
    intro st k h1 h2 h3 h4
    rw [List.length_nil] at h2
    exact absurd h2 (by omega)
  | cons v vs ih =>
    intro st k h1 h2 h3 h4
    rw [List.length_cons] at h2
    rw [List.foldl_cons]
    by_cases hke : k = st.2
    · subst hke
      have hu := postAssignT_untouched col4row vs
        ((st.1.1.set st.2 (col4row.getD v 0), st.1.2.set st.2 (Int.ofNat v)), st.2 + 1)
        st.2 (by omega)
      refine ⟨?_, ?_⟩
      · rw [hu.1]
        show (st.1.1.set st.2 (col4row.getD v 0)).getD st.2 0 =
          col4row.getD ((v :: vs).getD (st.2 - st.2) 0) 0
        rw [Nat.sub_self, getD_set_self 0 _ h3 _]
        rfl
      · rw [hu.2]
        show (st.1.2.set st.2 (Int.ofNat v)).getD st.2 0 =
          Int.ofNat ((v :: vs).getD (st.2 - st.2) 0)
        rw [Nat.sub_self, getD_set_self 0 _ h4 _]
        rfl
    · have hrec := ih
        ((st.1.1.set st.2 (col4row.getD v 0), st.1.2.set st.2 (Int.ofNat v)), st.2 + 1)
        k (by omega) (by show k < st.2 + 1 + vs.length; omega)
        (by show k < (st.1.1.set st.2 (col4row.getD v 0)).length;
            rw [List.length_set]; exact h3)
        (by show k < (st.1.2.set st.2 (Int.ofNat v)).length;
            rw [List.length_set]; exact h4)
      have hidx : (v :: vs).getD (k - st.2) 0 = vs.getD (k - (st.2 + 1)) 0 := by
        have hks : k - st.2 = (k - (st.2 + 1)) + 1 := by omega
        rw [hks, List.getD_cons_succ]
      refine ⟨?_, ?_⟩
      · rw [hrec.1, hidx]
      · rw [hrec.2, hidx]

/-- In the transpose branch, PostProcess writes at output position k the
matched row of the k-th sorted column into the first output and that
column into the second, at every position below min nr nc and the sorted
index length. -/
theorem PostProcess_transposeD (a b col4row : List ℤ) (nr2 nc2 element_num k : ℕ)
    (hk : k < (sortByKey (fun i => col4row.getD i 0)
      (List.range col4row.length)).length)
    (hkmin : k < min nr2 nc2) (hka : k < a.length) (hkb : k < b.length) :
    (PostProcess a b col4row true nr2 nc2 element_num).1.getD k 0 =
      col4row.getD ((sortByKey (fun i => col4row.getD i 0)
        (List.range col4row.length)).getD k 0) 0 ∧
    (PostProcess a b col4row true nr2 nc2 element_num).2.getD k 0 =
      Int.ofNat ((sortByKey (fun i => col4row.getD i 0)
        (List.range col4row.length)).getD k 0) := by
  unfold PostProcess
  simp only [if_pos (rfl : (true : Bool) = true), if_pos True.intro]
  rw [padFold_pair]
  constructor
  · rw [padFoldList_untouched (min nr2 nc2) k hkmin]
    exact (postAssignT_getD col4row
      (sortByKey (fun i => col4row.getD i 0) (List.range col4row.length))
      ((a, b), 0) k (Nat.zero_le k) (by omega) hka hkb).1
  · rw [padFoldList_untouched (min nr2 nc2) k hkmin]
    exact (postAssignT_getD col4row
      (sortByKey (fun i => col4row.getD i 0) (List.range col4row.length))
      ((a, b), 0) k (Nat.zero_le k) (by omega) hka hkb).2

/-- The transposing ReArrange of an all-finite window is all finite in
the transposed shape. -/
theorem allFinite_transpose (nr nc : ℕ) (cost : List FpVal) (hnr : 0 < nr)
    (hfin : AllFinite nr nc cost) :
    AllFinite nc nr (ReArrange nr nc nc cost true false) := by
  intro k hk
  have hr : k % nr < nr := Nat.mod_lt _ hnr
  have hcq : k / nr < nc := (Nat.div_lt_iff_lt_mul hnr).mpr hk
  have hke : (k / nr) * nr + k % nr = k := by
    rw [Nat.mul_comm]
    exact Nat.div_add_mod k nr
  rw [← hke, ReArrange_transpose_getD nr nc nc cost (k % nr) (k / nr) hr hcq]
  exact hfin _ (flat_lt hr hcq)

/-- With maximize false, the transposed orientation (nc < nr, so the
wrapper runs the core on the transposed window) and all entries finite,
Solve succeeds and writes, in sorted order, a column and its assigned row
at each output position; the assignment is injective and its rational
total cost is minimal among all injective column-to-row assignments. -/
theorem Solve_min_transpose (nr nc : ℕ) (cost : List FpVal) (a b : List ℤ)
    (hnc : 0 < nc) (hlt : nc < nr) (hfin : AllFinite nr nc cost)
    (ha : nc ≤ a.length) (hb : nc ≤ b.length) :
    ∃ (a2 b2 col4row : List ℤ) (idx : List ℕ),
      Solve nr nc nc cost false a b = some (a2, b2) ∧
      idx.Perm (List.range nc) ∧
      (∀ k < nc, a2.getD k 0 = Int.ofNat (matchedCol col4row (idx.getD k 0)) ∧
        b2.getD k 0 = Int.ofNat (idx.getD k 0) ∧
        matchedCol col4row (idx.getD k 0) < nr) ∧
      (∀ j1 < nc, ∀ j2 < nc,
        matchedCol col4row j1 = matchedCol col4row j2 → j1 = j2) ∧
      ∀ g : ℕ → ℕ, (∀ j < nc, g j < nr) →
        (∀ j1 < nc, ∀ j2 < nc, g j1 = g j2 → j1 = j2) →
        colAssignCostQ nc cost (fun j => matchedCol col4row j) ≤
          colAssignCostQ nc cost g := by
  have hfinT := allFinite_transpose nr nc cost (by omega) hfin
  obtain ⟨u2, v2, path2, col4row2, row4col2, hloop, hinv⟩ :=
    solveLoop_spec nc nr (ReArrange nr nc nc cost true false)
      (List.replicate nr (FpVal.fin 0)) (List.replicate nc false)
      (List.replicate nr false) (le_of_lt hlt) hfinT
      (List.length_replicate _ _) (List.length_replicate _ _)
      (List.length_replicate _ _) nc 0 (by omega)
      (List.replicate nc (FpVal.fin 0)) (List.replicate nr (FpVal.fin 0))
      (List.replicate nr (-1)) (List.replicate nc (-1)) (List.replicate nr (-1))
      (List.length_replicate _ _) (solveInv_init nc nr _)
  have hmlt : ∀ j, j < nc → matchedCol col4row2 j < nr := by
    intro j hj
    obtain ⟨i, hi, hie⟩ := hinv.matched_lt j hj
    have hx : matchedCol col4row2 j = i := by
      show (col4row2.getD j 0).toNat = i
      rw [hie]
      rfl
    omega
  have hc4len : col4row2.length = nc := hinv.c4rlen
  have hperm0 : (sortByKey (fun i => col4row2.getD i 0)
      (List.range col4row2.length)).Perm (List.range nc) := by
    rw [hc4len]
    exact sortByKey_perm _ _
  have hidxlen : (sortByKey (fun i => col4row2.getD i 0)
      (List.range col4row2.length)).length = nc := by
    rw [hperm0.length_eq, List.length_range]
  have hidxmem : ∀ k, k < nc →
      (sortByKey (fun i => col4row2.getD i 0)
        (List.range col4row2.length)).getD k 0 < nc := by
    intro k hk
    have hmem : (sortByKey (fun i => col4row2.getD i 0)
        (List.range col4row2.length)).getD k 0 ∈
        sortByKey (fun i => col4row2.getD i 0) (List.range col4row2.length) :=
      (mem_iff_getD _ _).mpr ⟨k, by omega, rfl⟩
    exact List.mem_range.mp (hperm0.mem_iff.mp hmem)
  refine ⟨(PostProcess a b col4row2 true nc nr (min nr nc)).1,
    (PostProcess a b col4row2 true nc nr (min nr nc)).2, col4row2,
    sortByKey (fun i => col4row2.getD i 0) (List.range col4row2.length),
    ?_, hperm0, ?_, ?_, ?_⟩
  · have htr : decide (nc < nr) = true := decide_eq_true hlt
    have hcv : check_value (ReArrange nr nc nc cost true false) nc nr = true :=
      check_value_true _ _ _ hfinT
    unfold Solve
    rw [if_neg (by omega : ¬(nr = 0 ∨ nc = 0))]
    simp only [htr, Bool.true_or, if_pos (rfl : (true : Bool) = true),
      if_pos True.intro, hcv, Bool.not_true, if_neg (by decide : ¬ false = true)]
    rw [List.range_eq_range', hloop]
  · intro k hk
    have hd := PostProcess_transposeD a b col4row2 nc nr (min nr nc) k
      (by omega) (by omega) (by omega) (by omega)
    have hjnc := hidxmem k hk
    obtain ⟨i, hinr, hie⟩ := hinv.matched_lt _ hjnc
    have hmc : matchedCol col4row2 ((sortByKey (fun i2 => col4row2.getD i2 0)
        (List.range col4row2.length)).getD k 0) = i := by
      show (col4row2.getD _ 0).toNat = i
      rw [hie]
      rfl
    refine ⟨?_, hd.2, by omega⟩
    rw [hd.1, hie, hmc]
  · intro j1 h1 j2 h2 he
    have e1 := hinv.inverse1 j1 h1
    have e2 := hinv.inverse1 j2 h2
    rw [he] at e1
    exact Int.ofNat.inj (e1.symm.trans e2)
  · intro g hg hginj
    have hcQT : ∀ r, r < nr → ∀ c, c < nc →
        cQ nr (ReArrange nr nc nc cost true false) c r = cQ nc cost r c := by
      intro r hr c hc
      show toQ ((ReArrange nr nc nc cost true false).getD (c * nr + r) fpD) =
        toQ (cost.getD (r * nc + c) fpD)
      rw [ReArrange_transpose_getD nr nc nc cost r c hr hc]
    have hopt := solveInv_optimal nc nr (ReArrange nr nc nc cost true false)
      u2 v2 col4row2 row4col2 hinv g hg hginj
    have h1 : matchingCostQ nc nr (ReArrange nr nc nc cost true false) col4row2 =
        colAssignCostQ nc cost (fun j => matchedCol col4row2 j) := by
      unfold matchingCostQ colAssignCostQ
      apply Finset.sum_congr rfl
      intro j hj
      exact hcQT _ (hmlt j (Finset.mem_range.mp hj)) _ (Finset.mem_range.mp hj)
    have h2 : assignCostQ nc nr (ReArrange nr nc nc cost true false) g =
        colAssignCostQ nc cost g := by
      unfold assignCostQ colAssignCostQ
      apply Finset.sum_congr rfl
      intro j hj
      exact hcQT _ (hg j (Finset.mem_range.mp hj)) _ (Finset.mem_range.mp hj)
    rw [h1, h2] at hopt
    exact hopt

/-- Claim C1: with maximize false and all entries of the scanned nr x nc
window finite, the linear sum assignment solver succeeds and returns a
row/column assignment that is injective and whose total rational cost is
the global minimum over all injective assignments, in both orientations:
for nr <= nc position i of the outputs holds row i and its assigned
column, and the cost is minimal over all injective row-to-column maps;
for nc < nr (the wrapper transposes) position k holds the k-th column in
sorted order and its assigned row, and the cost is minimal over all
injective column-to-row maps; in particular on the 3x3 cost matrix
[[4,1,3],[2,0,5],[3,2,2]] it returns the assignment columns [1,0,2] of
total cost 5, which the brute-force scan of all 6 assignments confirms
minimal; and after solving (any shape, any maximize), output entries at
in-range positions from min(nr,nc) up to element_num = min(nr,raw_nc)
hold the sentinel -1 in both output arrays. -/
theorem C1_lsap_minimal :
    (∀ (nr nc : ℕ) (cost : List FpVal) (a b : List ℤ),
      0 < nr → nr ≤ nc → AllFinite nr nc cost → nr ≤ a.length → nr ≤ b.length →
      ∃ (a2 b2 col4row : List ℤ),
        Solve nr nc nc cost false a b = some (a2, b2) ∧
        (∀ i < nr, a2.getD i 0 = Int.ofNat i ∧
          b2.getD i 0 = Int.ofNat (matchedCol col4row i) ∧
          matchedCol col4row i < nc) ∧
        (∀ i1 < nr, ∀ i2 < nr,
          matchedCol col4row i1 = matchedCol col4row i2 → i1 = i2) ∧
        ∀ f : ℕ → ℕ, (∀ i < nr, f i < nc) →
          (∀ i1 < nr, ∀ i2 < nr, f i1 = f i2 → i1 = i2) →
          matchingCostQ nr nc cost col4row ≤ assignCostQ nr nc cost f) ∧
    (∀ (nr nc : ℕ) (cost : List FpVal) (a b : List ℤ),
      0 < nc → nc < nr → AllFinite nr nc cost → nc ≤ a.length → nc ≤ b.length →
      ∃ (a2 b2 col4row : List ℤ) (idx : List ℕ),
        Solve nr nc nc cost false a b = some (a2, b2) ∧
        idx.Perm (List.range nc) ∧
        (∀ k < nc, a2.getD k 0 = Int.ofNat (matchedCol col4row (idx.getD k 0)) ∧
          b2.getD k 0 = Int.ofNat (idx.getD k 0) ∧
          matchedCol col4row (idx.getD k 0) < nr) ∧
        (∀ j1 < nc, ∀ j2 < nc,
          matchedCol col4row j1 = matchedCol col4row j2 → j1 = j2) ∧
        ∀ g : ℕ → ℕ, (∀ j < nc, g j < nr) →
          (∀ j1 < nc, ∀ j2 < nc, g j1 = g j2 → j1 = j2) →
          colAssignCostQ nc cost (fun j => matchedCol col4row j) ≤
            colAssignCostQ nc cost g) ∧
    (Solve 3 3 3 lsapExampleCost false [0, 0, 0] [0, 0, 0] =
        some ([0, 1, 2], [1, 0, 2]) ∧
      assignmentCost 3 3 lsapExampleCost [1, 0, 2] = FpVal.fin 5 ∧
      (allAssignments 3 3).all
        (fun p => !fpLt (assignmentCost 3 3 lsapExampleCost p) (FpVal.fin 5)) =
        true) ∧
    (∀ (nr nc raw_nc : ℕ) (cost : List FpVal) (maximize : Bool)
        (a b a2 b2 : List ℤ) (i : ℕ),
      0 < nr → 0 < nc →
      Solve nr nc raw_nc cost maximize a b = some (a2, b2) →
      min nr nc ≤ i → i < min nr raw_nc → i < a.length → i < b.length →
      a2.getD i 0 = -1 ∧ b2.getD i 0 = -1) := by
  refine ⟨?_, ?_, ⟨?_, ?_, ?_⟩, ?_⟩
  · intro nr nc cost a b hnr hnrnc hfin ha hb
    exact Solve_min nr nc cost a b hnr hnrnc hfin ha hb
  · intro nr nc cost a b hnc hlt hfin ha hb
    exact Solve_min_transpose nr nc cost a b hnc hlt hfin ha hb
  · with_unfolding_all rfl
  · with_unfolding_all rfl
  · with_unfolding_all rfl
  · intro nr nc raw_nc cost maximize a b a2 b2 i hnr hnc heq h1 h2 hia hib
    exact Solve_pad nr nc raw_nc cost maximize a b a2 b2 i hnr hnc heq h1 h2 hia hib

/-- Claim C1 witness: the general optimality statement applied to the
concrete 3x3 example instance, with every hypothesis discharged. -/
theorem C1_lsap_minimal_witness :
    ∃ (a2 b2 col4row : List ℤ),
      Solve 3 3 3 lsapExampleCost false [0, 0, 0] [0, 0, 0] = some (a2, b2) ∧
      (∀ i < 3, a2.getD i 0 = Int.ofNat i ∧
        b2.getD i 0 = Int.ofNat (matchedCol col4row i) ∧
        matchedCol col4row i < 3) ∧
      (∀ i1 < 3, ∀ i2 < 3,
        matchedCol col4row i1 = matchedCol col4row i2 → i1 = i2) ∧
      ∀ f : ℕ → ℕ, (∀ i < 3, f i < 3) →
        (∀ i1 < 3, ∀ i2 < 3, f i1 = f i2 → i1 = i2) →
        matchingCostQ 3 3 lsapExampleCost col4row ≤
          assignCostQ 3 3 lsapExampleCost f :=
  C1_lsap_minimal.1 3 3 lsapExampleCost [0, 0, 0] [0, 0, 0] (by decide) (by decide)
    (by intro k hk; interval_cases k <;> exact isFinV_fin _) (by decide) (by decide)

end MindSpore
